import Mathlib

/-!
# Geometry optimisation of Siam Quantum (`optimize.c`)

A shallow embedding of `invHessian_BFGS`, `stepVector_Newton`,
`deleteTranslation` and the driver `optimize`, followed by theorems about them.

Conventions of the embedding.

* A C `double` is an element of a linearly ordered field `K` (exact arithmetic;
  the theorems hold in particular for `K = ℝ`, and the definitions can be
  evaluated for `K = ℚ`).
* A C array `double *a` is its content `a : Arr K`; the write `a[k] = v` is
  `setAt a k v`.  Matrices keep the row-major flat layout `m[i*nDim+j]` of the
  source.
* `for(i=0; i < n; i++) body` is `forLoop n body`, which runs the body for
  `i = 0, 1, …, n-1` in this order.
* `exit(-1)` ends the run: a function that can reach it returns a `Run`, which
  records the memory it was working on at the moment the process ends.
* `sqrt` (libm), the oracles `uhf` and `uhf_force` and the constants of
  `optimize.h` are not part of `optimize.c`; they are parameters.
* Every allocation succeeds: the exits taken when `calloc` returns `NULL` are
  left out.  The dimensions and counters `nDim`, `nAtom`, `nIter` are natural
  numbers (they are never negative in the source, and overflow is left out);
  `optMax` and `SCFGuess` are integers.
-/

set_option linter.unusedSectionVars false

namespace SiamQuantum

open Finset

/-! ## Definitions -/

/-- The fatal conditions of `optimize.c`, one per `exit(-1)`, under the names the
specification gives them. -/
inductive OptError where
  /-- Message `invHessian_BFGS: error dR perpendicular to dGrad`. -/
  | DegenerateUpdate
  /-- Message `stepVector_Newton: invalid range of maxStepSize`. -/
  | InvalidConfiguration
  /-- Message `deleteTranslation: error nDim not multiple of 3`. -/
  | DimensionMismatch
  /-- Message `optimize: error SCF calculation did not converge`. -/
  | OracleNonConvergence
  /-- Message `Geometry optimization has not converged, nIter >= optMax`. -/
  | IterationBudgetExceeded
  deriving DecidableEq

/-- Outcome of a C function that may call `exit(-1)`: either it returns with
memory `s`, or the process ends with error `e` while the memory is `s`. -/
inductive Run (σ : Type) where
  | done (s : σ) : Run σ
  | exit (e : OptError) (s : σ) : Run σ

/-- The C loop `for(i=0; i < n; i++) s = body i s`. -/
def forLoop {σ : Type} (n : Nat) (body : Nat → σ → σ) (s : σ) : σ :=
  match n with
  | 0 => s
  | m + 1 => body m (forLoop m body s)

/-- A C array of `double`, or of any `K`: the number of cells of the allocation
and the content.  `get` is total; its values at the indices `≥ size` play no role,
because `optimize.c` never reads or writes a cell outside an allocation. -/
structure Arr (K : Type) where
  size : Nat
  get : Nat → K

instance {K : Type} : CoeFun (Arr K) (fun _ => Nat → K) := ⟨Arr.get⟩

instance {K : Type} : Coe (Arr K) (Nat → K) := ⟨Arr.get⟩

/-- The array write `a[k] = v`. -/
def setAt {K : Type} (a : Arr K) (k : Nat) (v : K) : Arr K :=
  { size := a.size, get := fun m => if m = k then v else a m }

section Code

variable {K : Type} [LinearOrderedField K]

/-- The buffer `calloc(n, sizeof(double))`: `n` cells, all zero. -/
def calloc (n : Nat) : Arr K := { size := n, get := fun _ => 0 }

/-- The function `invHessian_BFGS` (optimize.c, lines 58-114).  The result is the
content of `invHessian` when the function returns or the process exits. -/
def invHessian_BFGS (nDim : Nat) (dR dGrad invHessian : Arr K) : Run (Arr K) :=
  -- memory allocation (calloc)
  let G : Arr K := calloc (nDim * nDim)
  let B : Arr K := calloc (nDim * nDim)
  -- compute alpha
  let alpha : K := forLoop nDim (fun i alpha => alpha + dR i * dGrad i) 0
  -- check if alpha is zero
  if alpha = 0 then Run.exit OptError.DegenerateUpdate invHessian
  else
    -- compute B matrix
    let B := forLoop nDim (fun i B => forLoop nDim (fun j B =>
      if i = j then setAt B (i * nDim + j) (1 - dR i * dGrad j / alpha)
      else setAt B (i * nDim + j) (-dR i * dGrad j / alpha)) B) B
    -- update inverse of the Hessian
    let G := forLoop nDim (fun p G => forLoop nDim (fun q G =>
      let G := setAt G (p * nDim + q) 0
      let G := forLoop nDim (fun i G => forLoop nDim (fun j G =>
        setAt G (p * nDim + q)
          (G (p * nDim + q) + B (p * nDim + i) * B (q * nDim + j) * invHessian (i * nDim + j)))
        G) G
      setAt G (p * nDim + q) (G (p * nDim + q) + dR p * dR q / alpha)) G) G
    -- update value
    let invHessian := forLoop nDim (fun i invHessian => forLoop nDim (fun j invHessian =>
      setAt invHessian (i * nDim + j) (G (i * nDim + j))) invHessian) invHessian
    Run.done invHessian

/-- The local `alpha` of `invHessian_BFGS` after the block `compute alpha`
(optimize.c, lines 77-80). -/
def invHessian_BFGS_alpha (nDim : Nat) (dR dGrad : Arr K) : K :=
  forLoop nDim (fun i alpha => alpha + dR i * dGrad i) 0

/-- The buffer `B` of `invHessian_BFGS` after the block `compute B matrix`
(optimize.c, lines 88-92), for the value `alpha` of the local of that name. -/
def invHessian_BFGS_B (nDim : Nat) (dR dGrad : Arr K) (alpha : K) : Arr K :=
  forLoop nDim (fun i B => forLoop nDim (fun j B =>
    if i = j then setAt B (i * nDim + j) (1 - dR i * dGrad j / alpha)
    else setAt B (i * nDim + j) (-dR i * dGrad j / alpha)) B) (calloc (nDim * nDim))

/-- The function `stepVector_Newton` (optimize.c, lines 127-158).  `dR` is the
buffer the step is written to; the result is its content on return or at process
exit. -/
def stepVector_Newton (sqrt : K → K) (nDim : Nat) (invH grad : Arr K)
    (maxStepSize : K) (dR : Arr K) : Run (Arr K) :=
  -- multiply inverse of the hessian to a negative of the gradient
  let dR := forLoop nDim (fun i dR =>
    let dR := setAt dR i 0
    forLoop nDim (fun j dR => setAt dR i (dR i - invH (i * nDim + j) * grad j)) dR) dR
  -- validate step size
  if maxStepSize ≤ 0 then Run.exit OptError.InvalidConfiguration dR
  else
    -- truncate the step size to maxStepSize
    let r : K := 0
    let r := forLoop nDim (fun i r => r + dR i * dR i) r
    let r := sqrt r
    if r > maxStepSize then
      Run.done (forLoop nDim (fun i dR => setAt dR i (dR i * maxStepSize / r)) dR)
    else Run.done dR

/-- The function `deleteTranslation` (optimize.c, lines 166-193). -/
def deleteTranslation (nDim : Nat) (dR : Arr K) : Run (Arr K) :=
  -- validation
  if nDim % 3 ≠ 0 then Run.exit OptError.DimensionMismatch dR
  else
    let N : Nat := nDim / 3
    -- compute average displacement
    let d : K × K × K := forLoop N (fun i d =>
      (d.1 + dR (i * 3 + 0) / (N : K),
       d.2.1 + dR (i * 3 + 1) / (N : K),
       d.2.2 + dR (i * 3 + 2) / (N : K))) (0, 0, 0)
    -- shift by this amount
    Run.done (forLoop N (fun i dR =>
      let dR := setAt dR (i * 3 + 0) (dR (i * 3 + 0) - d.1)
      let dR := setAt dR (i * 3 + 1) (dR (i * 3 + 1) - d.2.1)
      setAt dR (i * 3 + 2) (dR (i * 3 + 2) - d.2.2)) dR)

/-! ### The driver `optimize` -/

/-- The fields of `struct Molecule_t` that `optimize.c` uses: the number of atoms
and the Cartesian positions. -/
structure Molecule_t (K : Type) where
  nAtom : Nat
  x : Arr K
  y : Arr K
  z : Arr K

/-- The fields of `struct option_t` that `optimize.c` uses. -/
structure option_t where
  SCFGuess : Int
  multiplicity : Int
  optMax : Int

/-- The constants of `optimize.h` and `uhf.h` that `optimize` uses. -/
structure Constants (K : Type) where
  MAXSTEPSIZE : K
  OPT_CONV_FORCEMAX : K
  OPT_CONV_FORCERMS : K
  OPT_CONV_DISPMAX : K
  OPT_CONV_DISPRMS : K
  SCFGUESS_CACB : Int

/-- The functions `optimize` calls that are defined outside `optimize.c`.
`Orb` stands for the four orbital buffers `CA`, `CB`, `eA`, `eB`.

* `uhf mol opt orb` is the energy oracle: it returns `Etot` and the orbitals it
  has written.  The basis set `gto = genBasis(mol, …)` and the electron counts
  `get_nEA(mol, opt->multiplicity)`, `get_nEB(…)` it receives are functions of
  `mol` and `opt`, so they are not separate arguments.
* `uhf_force mol opt orb` is the force oracle: it returns the content of `fx`,
  `fy`, `fz`.

The oracles write neither `mol` nor `opt`. -/
structure Oracles (K Orb : Type) where
  sqrt : K → K
  uhf : Molecule_t K → option_t → Orb → K × Orb
  uhf_force : Molecule_t K → option_t → Orb → Arr K × Arr K × Arr K

/-- The four convergence metrics of one iteration. -/
structure Criteria (K : Type) where
  force_max : K
  force_rms : K
  step_max : K
  step_rms : K

/-- The variables of `optimize`.  `nIter` is a natural number: the C `int` never
becomes negative, and does not overflow as long as `optMax < INT_MAX`.
`uhfCalls` and `steps` are not variables of the source: they count the calls of
the energy oracle and the updates of the molecular geometry. -/
structure OptState (K Orb : Type) where
  mol : Molecule_t K
  opt : option_t
  invH : Arr K
  G : Arr K
  dR : Arr K
  dG : Arr K
  fx : Arr K
  fy : Arr K
  fz : Arr K
  orb : Orb
  Etot : K
  savedSCFGuess : Int
  nDim : Nat
  nIter : Nat
  crit : Criteria K
  uhfCalls : Nat
  steps : Nat

/-- The loop `construct gradient vector` of `optimize` (lines 309-320), on the pair
`(dG, G)`. -/
def gradientLoop (nAtom : Nat) (fx fy fz : Arr K) (dG G : Arr K) :
    Arr K × Arr K :=
  forLoop nAtom (fun i (b : Arr K × Arr K) =>
    -- change of gradient vector
    let dG := setAt b.1 (i * 3 + 0) (-fx i - b.2 (i * 3 + 0))
    let dG := setAt dG (i * 3 + 1) (-fy i - b.2 (i * 3 + 1))
    let dG := setAt dG (i * 3 + 2) (-fz i - b.2 (i * 3 + 2))
    -- current gradient vector
    let G := setAt b.2 (i * 3 + 0) (-fx i)
    let G := setAt G (i * 3 + 1) (-fy i)
    let G := setAt G (i * 3 + 2) (-fz i)
    (dG, G)) (dG, G)

/-- The loop `update molecular gemetry` of `optimize` (lines 332-337). -/
def updateGeometry (dR : Arr K) (mol : Molecule_t K) : Molecule_t K :=
  forLoop mol.nAtom (fun i (mol : Molecule_t K) =>
    let mol := { mol with x := setAt mol.x i (mol.x i + dR (i * 3 + 0)) }
    let mol := { mol with y := setAt mol.y i (mol.y i + dR (i * 3 + 1)) }
    { mol with z := setAt mol.z i (mol.z i + dR (i * 3 + 2)) }) mol

/-- The block `compute convergence criteria` of `optimize` (lines 342-351). -/
def convergenceCriteria (sqrt : K → K) (nDim : Nat) (G dR : Arr K) : Criteria K :=
  let c : Criteria K := { force_max := 0, force_rms := 0, step_max := 0, step_rms := 0 }
  let c := forLoop nDim (fun i (c : Criteria K) =>
    let c := if |G i| > c.force_max then { c with force_max := |G i| } else c
    let c := if |dR i| > c.step_max then { c with step_max := |dR i| } else c
    let c := { c with force_rms := c.force_rms + G i * G i }
    { c with step_rms := c.step_rms + dR i * dR i }) c
  let c := { c with force_rms := sqrt (c.force_rms / (nDim : K)) }
  { c with step_rms := sqrt (c.step_rms / (nDim : K)) }

/-- The condition of the `do … while` of `optimize` (lines 372-373): the loop runs
again when it holds, and `optimize` goes on to report the optimised geometry when
it does not. -/
def loopAgain (c : Constants K) (m : Criteria K) : Prop :=
  m.force_max > c.OPT_CONV_FORCEMAX ∨ m.force_rms > c.OPT_CONV_FORCERMS ∨
  m.step_max > c.OPT_CONV_DISPMAX ∨ m.step_rms > c.OPT_CONV_DISPRMS

instance (c : Constants K) (m : Criteria K) : Decidable (loopAgain c m) := by
  unfold loopAgain
  infer_instance

/-- Sequencing of two blocks that can end the process: the second runs only if
the first returns. -/
def Run.andThen {σ : Type} (r : Run σ) (f : σ → Run σ) : Run σ :=
  match r with
  | Run.exit err s => Run.exit err s
  | Run.done s => f s

/-- The block `scf calculation` of the loop body (lines 285-298): the guess option
is overridden after the first pass, the energy oracle is called, and the process
ends when it returns `0.0`. -/
def scfCalculation {Orb : Type} (c : Constants K) (o : Oracles K Orb) (s : OptState K Orb) :
    Run (OptState K Orb) :=
  -- load orbital from previous cycle to form initial guess
  let s := if s.nIter > 0 then { s with opt := { s.opt with SCFGuess := c.SCFGUESS_CACB } } else s
  let e := o.uhf s.mol s.opt s.orb
  let s := { s with Etot := e.1, orb := e.2, uhfCalls := s.uhfCalls + 1 }
  if s.Etot = 0 then Run.exit OptError.OracleNonConvergence s
  else Run.done s

/-- The blocks `compute force` and `construct gradient vector` of the loop body
(lines 300-320). -/
def computeGradient {Orb : Type} (o : Oracles K Orb) (s : OptState K Orb) : OptState K Orb :=
  -- compute force
  let f := o.uhf_force s.mol s.opt s.orb
  let s := { s with fx := f.1, fy := f.2.1, fz := f.2.2 }
  -- construct gradient vector
  let g := gradientLoop s.mol.nAtom s.fx s.fy s.fz s.dG s.G
  { s with dG := g.1, G := g.2 }

/-- The block `update inverse of Hessian if all info are available` of the loop
body (lines 322-324). -/
def updateInvHessian {Orb : Type} (s : OptState K Orb) : Run (OptState K Orb) :=
  if s.nIter > 0 then
    match invHessian_BFGS s.nDim s.dR s.dG s.invH with
    | Run.exit err invH => Run.exit err { s with invH := invH }
    | Run.done invH => Run.done { s with invH := invH }
  else Run.done s

/-- The block `compute steping vector` of the loop body (lines 326-327). -/
def computeStep {Orb : Type} (c : Constants K) (o : Oracles K Orb) (s : OptState K Orb) :
    Run (OptState K Orb) :=
  match stepVector_Newton o.sqrt s.nDim s.invH s.G c.MAXSTEPSIZE s.dR with
  | Run.exit err dR => Run.exit err { s with dR := dR }
  | Run.done dR => Run.done { s with dR := dR }

/-- The end of the loop body (lines 329-365): the call of `deleteTranslation` is
commented out in the source; the geometry is updated, the convergence criteria
are computed, and `nIter` is incremented. -/
def finishIteration {Orb : Type} (o : Oracles K Orb) (s : OptState K Orb) : OptState K Orb :=
  -- update molecular gemetry
  let s := { s with mol := updateGeometry s.dR s.mol, steps := s.steps + 1 }
  -- compute convergence criteria
  let s := { s with crit := convergenceCriteria o.sqrt s.nDim s.G s.dR }
  { s with nIter := s.nIter + 1 }

/-- One pass through the body of the `do … while` of `optimize`, from the top
(line 270) to `nIter++` (line 365). -/
def iterationCore {Orb : Type} (c : Constants K) (o : Oracles K Orb) (s : OptState K Orb) :
    Run (OptState K Orb) :=
  ((scfCalculation c o s).andThen (fun s => updateInvHessian (computeGradient o s))).andThen
    (fun s => (computeStep c o s).andThen (fun s => Run.done (finishIteration o s)))

/-- The whole body of the `do … while` of `optimize` (lines 270-370): the pass
above, then the test of the iteration budget. -/
def iteration {Orb : Type} (c : Constants K) (o : Oracles K Orb) (s : OptState K Orb) :
    Run (OptState K Orb) :=
  match iterationCore c o s with
  | Run.exit err s => Run.exit err s
  | Run.done s =>
    if (s.nIter : Int) > s.opt.optMax then Run.exit OptError.IterationBudgetExceeded s
    else Run.done s

/-- The `do … while` of `optimize` (lines 269-373), run for at most `fuel` passes;
`none` when the fuel runs out before the loop ends. -/
def optimizeLoop {Orb : Type} (c : Constants K) (o : Oracles K Orb) :
    Nat → OptState K Orb → Option (Run (OptState K Orb))
  | 0, _ => none
  | fuel + 1, s =>
    match iteration c o s with
    | Run.exit err s => some (Run.exit err s)
    | Run.done s => if loopAgain c s.crit then optimizeLoop c o fuel s else some (Run.done s)

/-- The state of `optimize` when it enters the `do … while` (lines 236-268).
`orb0` is the content of the freshly allocated orbital buffers. -/
def initialState {Orb : Type} (mol : Molecule_t K) (opt : option_t) (orb0 : Orb) :
    OptState K Orb :=
  -- set degree of freedom
  let nDim := mol.nAtom * 3
  -- memory allocation (calloc)
  let invH : Arr K := calloc (nDim * nDim)
  -- initiale inverse of Hessian to identity matrix
  let invH := forLoop nDim (fun i invH => forLoop nDim (fun j invH =>
    if i = j then setAt invH (i * nDim + j) 1 else setAt invH (i * nDim + j) 0) invH) invH
  { mol := mol
    opt := opt
    invH := invH
    G := calloc nDim
    dR := calloc nDim
    dG := calloc nDim
    fx := calloc mol.nAtom
    fy := calloc mol.nAtom
    fz := calloc mol.nAtom
    orb := orb0
    Etot := 0
    -- save global guess option
    savedSCFGuess := opt.SCFGuess
    nDim := nDim
    nIter := 0
    crit := { force_max := 0, force_rms := 0, step_max := 0, step_rms := 0 }
    uhfCalls := 0
    steps := 0 }

/-- The end of `optimize` after the loop (lines 376-463): the report that is
printed and the buffers that are freed leave no trace in the variables; the last
statement is `opt->SCFGuess = savedSCFGuess`. -/
def restoreGuess {Orb : Type} (s : OptState K Orb) : OptState K Orb :=
  -- set the guess option to original value
  { s with opt := { s.opt with SCFGuess := s.savedSCFGuess } }

/-- The driver `optimize` (lines 211-464).  The result is `Run.done` when the
function returns (the geometry is reported as optimised) and `Run.exit` when the
process ends at one of the `exit(-1)`; in both cases it carries the variables of
`optimize`, among them the caller-owned `mol` and `opt`.  The loop is given
`optMax + 1` passes of fuel, which `optimize_returns` shows to be enough. -/
def optimize {Orb : Type} (c : Constants K) (o : Oracles K Orb)
    (mol : Molecule_t K) (opt : option_t) (orb0 : Orb) : Option (Run (OptState K Orb)) :=
  match optimizeLoop c o (opt.optMax.toNat + 1) (initialState mol opt orb0) with
  | some (Run.done s) => some (Run.done (restoreGuess s))
  | r => r

/-! ### Vocabulary of the statements

Finite sums that name what the loops above compute; they are used to state the
theorems only. -/

/-- The scalar product `u·v` of two vectors of length `n`. -/
def dot (n : Nat) (u v : Nat → K) : K := ∑ i ∈ range n, u i * v i

/-- Row `i` of the product `H·v` of a row-major `n×n` matrix and a vector. -/
def matVec (n : Nat) (H v : Nat → K) (i : Nat) : K := ∑ j ∈ range n, H (i * n + j) * v j

/-- The auxiliary matrix `B = I − dR⊗dGrad/α` of the BFGS update, entry `(i, j)`. -/
def bfgsB (dR dGrad : Nat → K) (alpha : K) (i j : Nat) : K :=
  (if i = j then 1 else 0) - dR i * dGrad j / alpha

/-- Entry `(p, q)` of `B·H·Bᵗ + dR⊗dR/α`, with `α = dR·dGrad`. -/
def bfgsEntry (n : Nat) (dR dGrad H : Nat → K) (p q : Nat) : K :=
  (∑ i ∈ range n, ∑ j ∈ range n,
      bfgsB dR dGrad (dot n dR dGrad) p i * bfgsB dR dGrad (dot n dR dGrad) q j * H (i * n + j))
    + dR p * dR q / dot n dR dGrad

/-- Column `j` of the product `Hᵗ·v` of the transpose of a row-major `n×n` matrix
and a vector. -/
def matVecT (n : Nat) (H v : Nat → K) (j : Nat) : K := ∑ i ∈ range n, H (i * n + j) * v i

/-- Entry `(p, q)` of the rank-2 closed form of the update,
`H − (dR⊗(Hᵗ·dGrad) + (H·dGrad)⊗dR)/α + (1 + (dGrad·H·dGrad)/α)·(dR⊗dR)/α`
with `α = dR·dGrad`. -/
def rank2Entry (n : Nat) (dR dGrad H : Nat → K) (p q : Nat) : K :=
  H (p * n + q)
    - (dR p * matVecT n H dGrad q + matVec n H dGrad p * dR q) / dot n dR dGrad
    + (1 + dot n dGrad (matVec n H dGrad) / dot n dR dGrad) * (dR p * dR q) / dot n dR dGrad

/-- The unclipped Newton step `u = −H·grad`, component `i`. -/
def newtonStep (n : Nat) (H grad : Nat → K) (i : Nat) : K := -matVec n H grad i

/-- The Euclidean norm `‖u‖ = sqrt(Σ u[i]²)` of a vector of length `n`. -/
def norm2 (sqrt : K → K) (n : Nat) (u : Nat → K) : K := sqrt (dot n u u)

/-- The row-major `n×n` array `H` holds the identity matrix. -/
def IsIdentity (n : Nat) (H : Nat → K) : Prop :=
  ∀ i j, i < n → j < n → H (i * n + j) = if i = j then 1 else 0

/-- The row-major `n×n` array `H` holds a symmetric matrix. -/
def IsSymmetric (n : Nat) (H : Nat → K) : Prop :=
  ∀ i j, i < n → j < n → H (i * n + j) = H (j * n + i)

/-- The row-major `n×n` array `H` holds a positive definite matrix: `xᵗ·H·x > 0`
for every vector `x` of length `n` that is not zero. -/
def IsPosDef (n : Nat) (H : Nat → K) : Prop :=
  ∀ x : Nat → K, (∃ i, i < n ∧ x i ≠ 0) → 0 < dot n x (matVec n H x)

/-- The function `sqrt` is a square root on the non-negative elements of `K`, as
`Real.sqrt` is on `ℝ`. -/
def IsSqrt (sqrt : K → K) : Prop := ∀ x, 0 ≤ x → 0 ≤ sqrt x ∧ sqrt x * sqrt x = x

/-- The arithmetic mean over `N` atoms of axis `a` (0, 1, 2 for x, y, z) of an
atom-major vector. -/
def axisMean (N : Nat) (v : Nat → K) (a : Nat) : K := (∑ i ∈ range N, v (i * 3 + a)) / (N : K)

/-- The state in which the energy oracle is called in the pass that starts in
state `s`: the guess option is overridden when `nIter > 0` (line 290). -/
def preOracle {Orb : Type} (c : Constants K) (s : OptState K Orb) : OptState K Orb :=
  if s.nIter > 0 then { s with opt := { s.opt with SCFGuess := c.SCFGUESS_CACB } } else s

/-- The value `Etot` that the energy oracle returns in the pass that starts in
state `s`. -/
def oracleEnergy {Orb : Type} (c : Constants K) (o : Oracles K Orb) (s : OptState K Orb) : K :=
  (o.uhf (preOracle c s).mol (preOracle c s).opt (preOracle c s).orb).1

/-- The state at the top of the `do … while` when pass number `k` (counted from 0)
of the run of `optimize` starts; `none` when the run ends before that pass. -/
def loopHead {Orb : Type} (c : Constants K) (o : Oracles K Orb)
    (mol : Molecule_t K) (opt : option_t) (orb0 : Orb) : Nat → Option (OptState K Orb)
  | 0 => some (initialState mol opt orb0)
  | k + 1 =>
    match loopHead c o mol opt orb0 k with
    | none => none
    | some s =>
      match iteration c o s with
      | Run.exit _ _ => none
      | Run.done s => if loopAgain c s.crit then some s else none

/-- The state after `k` passes through the body of the loop when neither the
convergence test nor the iteration budget stops it; `none` when one of these
passes ends the process.  It is used to speak of the convergence criteria at the
end of the `k`-th iteration. -/
def coreAt {Orb : Type} (c : Constants K) (o : Oracles K Orb)
    (mol : Molecule_t K) (opt : option_t) (orb0 : Orb) : Nat → Option (OptState K Orb)
  | 0 => some (initialState mol opt orb0)
  | k + 1 =>
    match coreAt c o mol opt orb0 k with
    | none => none
    | some s =>
      match iterationCore c o s with
      | Run.exit _ _ => none
      | Run.done s => some s

/-- The four convergence criteria all pass at the end of the `k`-th iteration
(counted from 1). -/
def passAt {Orb : Type} (c : Constants K) (o : Oracles K Orb)
    (mol : Molecule_t K) (opt : option_t) (orb0 : Orb) (k : Nat) : Prop :=
  ∃ s, coreAt c o mol opt orb0 k = some s ∧ ¬ loopAgain c s.crit

/-- What holds of the variables of `optimize` at the top of the loop when pass
number `k` starts, for a run on `mol` and `opt`. -/
def HeadInv {Orb : Type} (c : Constants K) (mol : Molecule_t K) (opt : option_t)
    (k : Nat) (s : OptState K Orb) : Prop :=
  s.nIter = k ∧ s.uhfCalls = k ∧ s.steps = k ∧ s.savedSCFGuess = opt.SCFGuess ∧
  s.opt.optMax = opt.optMax ∧ s.opt.multiplicity = opt.multiplicity ∧
  s.opt.SCFGuess = (if k ≤ 1 then opt.SCFGuess else c.SCFGUESS_CACB) ∧
  k ≤ opt.optMax.toNat ∧ s.nDim = mol.nAtom * 3 ∧ s.mol.nAtom = mol.nAtom

/-- The running maximum `max(0, |v[0]|, …, |v[m-1]|)` that the convergence loop
keeps in `force_max` and `step_max`. -/
def runMax (v : Nat → K) : Nat → K
  | 0 => 0
  | m + 1 => max (runMax v m) |v m|

/-- The largest absolute component `max_i |v[i]|` of a vector of length `n ≥ 1`. -/
def maxAbs (n : Nat) (hn : 0 < n) (v : Nat → K) : K :=
  (range n).sup' (nonempty_range_iff.mpr (Nat.pos_iff_ne_zero.mp hn)) (fun i => |v i|)

/-- The root mean square `sqrt(Σ v[i]² / n)` of a vector of length `n`. -/
def rms (sqrt : K → K) (n : Nat) (v : Nat → K) : K := sqrt (dot n v v / (n : K))

/-- The content of `fx`, `fy`, `fz` that the force oracle returns in the pass that
starts in state `s`: it is called on the molecule and the options of that pass
and on the orbitals the energy oracle has just written. -/
def passForces {Orb : Type} (c : Constants K) (o : Oracles K Orb) (s : OptState K Orb) :
    Arr K × Arr K × Arr K :=
  o.uhf_force (preOracle c s).mol (preOracle c s).opt
    (o.uhf (preOracle c s).mol (preOracle c s).opt (preOracle c s).orb).2

/-- The atom-major force vector `(fx[0], fy[0], fz[0], fx[1], …)`, component `k`. -/
def forceVec (f : Arr K × Arr K × Arr K) (k : Nat) : K :=
  if k % 3 = 0 then f.1 (k / 3) else if k % 3 = 1 then f.2.1 (k / 3) else f.2.2 (k / 3)

/-- The content of `dG` and `G` after the loop that constructs the gradient vector
in the pass that starts in state `s`. -/
def passGradient {Orb : Type} (c : Constants K) (o : Oracles K Orb) (s : OptState K Orb) :
    Arr K × Arr K :=
  gradientLoop s.mol.nAtom (passForces c o s).1 (passForces c o s).2.1 (passForces c o s).2.2
    s.dG s.G

/-- The options the specification puts in effect when the energy oracle is called
in pass `k` (counted from 0) of a run that was given `opt`: the caller's guess
option in pass 0, `SCFGUESS_CACB` in every later pass. -/
def warmStartSchedule (c : Constants K) (opt : option_t) (k : Nat) : option_t :=
  { SCFGuess := if k = 0 then opt.SCFGuess else c.SCFGUESS_CACB
    multiplicity := opt.multiplicity
    optMax := opt.optMax }

/-- The rigid translation along axis `a` (0, 1, 2 for x, y, z) as an atom-major
vector: 1 in the cells of that axis, 0 elsewhere. -/
def axisVec (a : Nat) (j : Nat) : K := if j % 3 = a then 1 else 0

/-- The forces sum to zero over the `N` atoms on each axis. -/
def Balanced (N : Nat) (f : Arr K × Arr K × Arr K) : Prop :=
  ∑ i ∈ range N, f.1 i = 0 ∧ ∑ i ∈ range N, f.2.1 i = 0 ∧ ∑ i ∈ range N, f.2.2 i = 0

/-- The arithmetic-mean position of the atoms of a molecule. -/
def centroid (m : Molecule_t K) : K × K × K :=
  ((∑ i ∈ range m.nAtom, m.x i) / (m.nAtom : K),
   (∑ i ∈ range m.nAtom, m.y i) / (m.nAtom : K),
   (∑ i ∈ range m.nAtom, m.z i) / (m.nAtom : K))

/-- What the proof that the molecule does not drift keeps at every loop head: the
inverse Hessian is symmetric and fixes the three rigid translations, the last
step and the last gradient are orthogonal to them, and the sums of the positions
are those of the molecule the run started with. -/
def DriftInv {Orb : Type} (mol : Molecule_t K) (s : OptState K Orb) : Prop :=
  IsSymmetric (mol.nAtom * 3) s.invH ∧
  (∀ a, a < 3 → ∀ p, p < mol.nAtom * 3 →
    matVec (mol.nAtom * 3) s.invH (axisVec a) p = axisVec a p) ∧
  (∀ a, a < 3 → dot (mol.nAtom * 3) (axisVec a) s.dR = 0) ∧
  (∀ a, a < 3 → dot (mol.nAtom * 3) (axisVec a) s.G = 0) ∧
  (∑ i ∈ range mol.nAtom, s.mol.x i = ∑ i ∈ range mol.nAtom, mol.x i) ∧
  (∑ i ∈ range mol.nAtom, s.mol.y i = ∑ i ∈ range mol.nAtom, mol.y i) ∧
  (∑ i ∈ range mol.nAtom, s.mol.z i = ∑ i ∈ range mol.nAtom, mol.z i)

end Code

/-! ### Concrete inputs

Small inputs on which the definitions are evaluated.  The numbers are rational,
and `Rat.sqrt` is the square root: it is exact on the square of a rational, and
the runs below take the root of such squares only (the only non-zero components
are the x-components of the first of three atoms, so that every norm is an
absolute value and every mean square is a square divided by 9). -/

/-- The array that holds the elements of a list. -/
def Arr.ofList {K : Type} [Zero K] (l : List K) : Arr K :=
  { size := l.length, get := fun i => l.getD i 0 }

/-- The outcome of a run without the memory: `none` for a return, the error for
an `exit(-1)`. -/
def Run.error {σ : Type} : Run σ → Option OptError
  | Run.done _ => none
  | Run.exit e _ => some e

/-- The memory at the end of a run. -/
def Run.state {σ : Type} : Run σ → σ
  | Run.done s => s
  | Run.exit _ s => s

/-- Example values for the constants: a maximum step of 1 and thresholds of
1/1000. -/
def exampleConstants : Constants ℚ :=
  { MAXSTEPSIZE := 1
    OPT_CONV_FORCEMAX := 1 / 1000
    OPT_CONV_FORCERMS := 1 / 1000
    OPT_CONV_DISPMAX := 1 / 1000
    OPT_CONV_DISPRMS := 1 / 1000
    SCFGUESS_CACB := 2 }

/-- Three atoms; the first one sits at `x = 4`. -/
def exampleMolecule : Molecule_t ℚ :=
  { nAtom := 3
    x := Arr.ofList [4, 0, 0]
    y := Arr.ofList [0, 1, 0]
    z := Arr.ofList [0, 0, 1] }

/-- A harmonic force `−2·x` on the x-coordinate of the first atom, no other
force. -/
def harmonicForce (mol : Molecule_t ℚ) : Arr ℚ × Arr ℚ × Arr ℚ :=
  ({ size := mol.nAtom, get := fun i => if i = 0 then -2 * mol.x 0 else 0 },
   calloc mol.nAtom, calloc mol.nAtom)

/-- Oracles whose energy oracle always converges (`Etot = −1`). -/
def harmonicOracles : Oracles ℚ Unit :=
  { sqrt := Rat.sqrt
    uhf := fun _ _ orb => (-1, orb)
    uhf_force := fun mol _ _ => harmonicForce mol }

/-- Oracles whose energy oracle never converges (`Etot = 0`). -/
def failingOracles : Oracles ℚ Unit :=
  { sqrt := Rat.sqrt
    uhf := fun _ _ orb => (0, orb)
    uhf_force := fun mol _ _ => harmonicForce mol }

/-- Oracles whose energy oracle converges from the caller's guess but not from
the orbitals of the previous pass (`SCFGuess = 2`). -/
def warmStartFailingOracles : Oracles ℚ Unit :=
  { sqrt := Rat.sqrt
    uhf := fun _ opt orb => (if opt.SCFGuess = 2 then 0 else -1, orb)
    uhf_force := fun mol _ _ => harmonicForce mol }

/-- Options with `SCFGuess = 0` and the given `optMax`. -/
def exampleOptions (optMax : Int) : option_t :=
  { SCFGuess := 0, multiplicity := 1, optMax := optMax }

/-- One atom at the origin. -/
def singleAtom : Molecule_t ℚ :=
  { nAtom := 1, x := Arr.ofList [0], y := Arr.ofList [0], z := Arr.ofList [0] }

/-- Oracles whose energy oracle always converges (`Etot = −1`) and whose force
oracle returns the forces `F` at every geometry. -/
def constantOracles (F : Arr ℚ × Arr ℚ × Arr ℚ) : Oracles ℚ Unit :=
  { sqrt := Rat.sqrt
    uhf := fun _ _ orb => (-1, orb)
    uhf_force := fun _ _ _ => F }

/-- Two atoms on the x-axis. -/
def twoAtoms : Molecule_t ℚ :=
  { nAtom := 2, x := Arr.ofList [0, 1], y := Arr.ofList [0, 0], z := Arr.ofList [0, 0] }

/-- Forces on two atoms that sum to zero on each axis. -/
def balancedForces : Arr ℚ × Arr ℚ × Arr ℚ :=
  (Arr.ofList [3, -3], Arr.ofList [0, 0], Arr.ofList [4, -4])

/-- The state of the example run after its first pass. -/
def harmonicHead1 : OptState ℚ Unit :=
  (iterationCore exampleConstants harmonicOracles
    (initialState exampleMolecule (exampleOptions 5) ())).state

/-- The state of the example run after its second pass. -/
def harmonicHead2 : OptState ℚ Unit :=
  (iterationCore exampleConstants harmonicOracles harmonicHead1).state

/-! ## Loops and array writes -/

section Loops

variable {K : Type} [LinearOrderedField K]

theorem forLoop_succ {σ : Type} (n : Nat) (body : Nat → σ → σ) (s : σ) :
    forLoop (n + 1) body s = body n (forLoop n body s) := rfl

theorem Arr.ext_get {A : Type} (a b : Arr A) (hs : a.size = b.size)
    (hg : ∀ k, a k = b k) : a = b := by
  cases a with
  | mk sa ga =>
    cases b with
    | mk sb gb =>
      have h1 : sa = sb := hs
      have h2 : ga = gb := funext hg
      rw [h1, h2]

theorem setAt_same {A : Type} (a : Arr A) (k : Nat) (v : A) : setAt a k v k = v := by
  simp [setAt]

theorem setAt_other {A : Type} (a : Arr A) (k m : Nat) (v : A) (h : m ≠ k) :
    setAt a k v m = a m := by
  simp [setAt, h]

theorem setAt_get {A : Type} (a : Arr A) (k m : Nat) (v : A) :
    setAt a k v m = if m = k then v else a m := rfl

theorem setAt_size {A : Type} (a : Arr A) (k : Nat) (v : A) :
    (setAt a k v).size = a.size := rfl

/-- An accumulation loop `for i: acc += f i` computes a finite sum. -/
theorem forLoop_add (n : Nat) (f : Nat → K) (a0 : K) :
    forLoop n (fun i acc => acc + f i) a0 = a0 + ∑ i ∈ range n, f i := by
  induction n with
  | zero => simp [forLoop]
  | succ n ih => rw [forLoop_succ, ih, sum_range_succ, add_assoc]

/-- A loop that accumulates into one cell `a[k] += f i`. -/
theorem forLoop_cell_add (n k : Nat) (f : Nat → K) (a0 : Arr K) :
    forLoop n (fun i a => setAt a k (a k + f i)) a0
      = setAt a0 k (a0 k + ∑ i ∈ range n, f i) := by
  induction n with
  | zero =>
    refine Arr.ext_get _ _ rfl (fun m => ?_)
    by_cases h : m = k <;> simp [forLoop, setAt_get, h]
  | succ n ih =>
    rw [forLoop_succ, ih, sum_range_succ]
    refine Arr.ext_get _ _ rfl (fun m => ?_)
    by_cases h : m = k <;> simp [setAt_get, h, add_assoc]

/-- Two nested loops that accumulate into one cell. -/
theorem forLoop_cell_add2 (n m k : Nat) (f : Nat → Nat → K) (a0 : Arr K) :
    forLoop n (fun i a => forLoop m (fun j a => setAt a k (a k + f i j)) a) a0
      = setAt a0 k (a0 k + ∑ i ∈ range n, ∑ j ∈ range m, f i j) := by
  induction n with
  | zero =>
    refine Arr.ext_get _ _ rfl (fun x => ?_)
    by_cases h : x = k <;> simp [forLoop, setAt_get, h]
  | succ n ih =>
    rw [forLoop_succ, ih, forLoop_cell_add, sum_range_succ]
    refine Arr.ext_get _ _ rfl (fun x => ?_)
    by_cases h : x = k <;> simp [setAt_get, h, add_assoc]

/-- A loop that writes one cell per index: row `i` of a row-major matrix. -/
theorem forLoop_row {A : Type} (n i m : Nat) (v : Nat → A) (a0 : Arr A) (k : Nat) :
    forLoop m (fun j a => setAt a (i * n + j) (v j)) a0 k
      = if i * n ≤ k ∧ k < i * n + m then v (k - i * n) else a0 k := by
  induction m with
  | zero =>
    have : ¬ (i * n ≤ k ∧ k < i * n + 0) := by omega
    rw [if_neg this]
    rfl
  | succ m ih =>
    rw [forLoop_succ]
    by_cases h : k = i * n + m
    · subst h
      simp [setAt_get]
    · rw [setAt_other _ _ _ _ h, ih]
      by_cases h1 : i * n ≤ k ∧ k < i * n + m
      · have h2 : i * n ≤ k ∧ k < i * n + (m + 1) := by omega
        simp [h1, h2]
      · have h2 : ¬ (i * n ≤ k ∧ k < i * n + (m + 1)) := by omega
        simp [h1, h2]

/-- Two nested loops that write every cell of the first `m` rows of a row-major
`n`-column matrix: the cell `(i, j)` gets `v i j`. -/
theorem forLoop_fill_get {A : Type} (n m : Nat) (v : Nat → Nat → A) (a0 : Arr A)
    (i j : Nat) (hi : i < m) (hj : j < n) :
    forLoop m (fun i a => forLoop n (fun j a => setAt a (i * n + j) (v i j)) a) a0
      (i * n + j) = v i j := by
  induction m with
  | zero => omega
  | succ m ih =>
    rw [forLoop_succ, forLoop_row]
    by_cases h : i = m
    · subst h
      have : i * n ≤ i * n + j ∧ i * n + j < i * n + n := by omega
      simp [this]
    · have him : i < m := by omega
      have : (i + 1) * n ≤ m * n := Nat.mul_le_mul_right n him
      have h2 : ¬ (m * n ≤ i * n + j ∧ i * n + j < m * n + n) := by
        rw [Nat.add_mul] at this
        omega
      simp only [h2, if_false]
      exact ih him

/-- The nested write loops leave every cell beyond the first `m` rows alone. -/
theorem forLoop_fill_frame {A : Type} (n m : Nat) (v : Nat → Nat → A) (a0 : Arr A)
    (k : Nat) (hk : m * n ≤ k) :
    forLoop m (fun i a => forLoop n (fun j a => setAt a (i * n + j) (v i j)) a) a0 k
      = a0 k := by
  induction m with
  | zero => rfl
  | succ m ih =>
    rw [forLoop_succ, forLoop_row]
    have h1 : (m + 1) * n = m * n + n := by rw [Nat.add_mul, Nat.one_mul]
    have h2 : ¬ (m * n ≤ k ∧ k < m * n + n) := by omega
    simp only [h2, if_false]
    exact ih (by omega)

/-- A loop that rewrites cell `i` in iteration `i` from its own content. -/
theorem forLoop_map {A : Type} (m : Nat) (g : Nat → A → A) (a0 : Arr A) (k : Nat) :
    forLoop m (fun i a => setAt a i (g i (a i))) a0 k
      = if k < m then g k (a0 k) else a0 k := by
  induction m with
  | zero => rfl
  | succ m ih =>
    rw [forLoop_succ]
    by_cases h : k = m
    · subst h
      have h1 : forLoop k (fun i a => setAt a i (g i (a i))) a0 k = a0 k := by
        rw [ih, if_neg (lt_irrefl k)]
      simp [setAt_get, h1]
    · rw [setAt_other _ _ _ _ h, ih]
      by_cases h1 : k < m
      · have h2 : k < m + 1 := by omega
        simp [h1, h2]
      · have h2 : ¬ k < m + 1 := by omega
        simp [h1, h2]

end Loops

/-! ## The BFGS update -/

section BFGS

variable {K : Type} [LinearOrderedField K]

/-- The first loop of `invHessian_BFGS` computes `α = dR·dGrad`. -/
theorem alpha_loop (n : Nat) (dR dGrad : Arr K) :
    forLoop n (fun i alpha => alpha + dR i * dGrad i) 0 = dot n dR dGrad := by
  rw [forLoop_add, zero_add, dot]

/-- What `invHessian_BFGS` leaves in `invHessian` when `α ≠ 0`: the entries of
`B·H·Bᵗ + dR⊗dR/α` in the `n×n` block, the old content beyond it. -/
theorem invHessian_BFGS_done (n : Nat) (dR dGrad H : Arr K)
    (h : dot n dR dGrad ≠ 0) :
    ∃ H' : Arr K, invHessian_BFGS n dR dGrad H = Run.done H' ∧
      (∀ p q, p < n → q < n → H' (p * n + q) = bfgsEntry n dR dGrad H p q) ∧
      (∀ k, n * n ≤ k → H' k = H k) := by
  unfold invHessian_BFGS
  simp only [alpha_loop, if_neg h]
  refine ⟨_, rfl, ?_, ?_⟩
  · intro p q hp hq
    rw [forLoop_fill_get n n _ _ p q hp hq]
    have hbody : ∀ (p q : Nat) (G : Arr K) (B : Arr K),
        (setAt (forLoop n (fun i G => forLoop n (fun j G =>
            setAt G (p * n + q)
              (G (p * n + q) + B (p * n + i) * B (q * n + j) * H (i * n + j))) G)
            (setAt G (p * n + q) 0)) (p * n + q)
          ((forLoop n (fun i G => forLoop n (fun j G =>
            setAt G (p * n + q)
              (G (p * n + q) + B (p * n + i) * B (q * n + j) * H (i * n + j))) G)
            (setAt G (p * n + q) 0)) (p * n + q) + dR p * dR q / dot n dR dGrad))
        = setAt G (p * n + q)
            ((∑ i ∈ range n, ∑ j ∈ range n,
                B (p * n + i) * B (q * n + j) * H (i * n + j))
              + dR p * dR q / dot n dR dGrad) := by
      intro p q G B
      rw [forLoop_cell_add2]
      refine Arr.ext_get _ _ rfl (fun x => ?_)
      by_cases hx : x = p * n + q <;> simp [setAt_get, hx]
    simp only [hbody]
    rw [forLoop_fill_get n n _ _ p q hp hq]
    unfold bfgsEntry
    congr 1
    refine sum_congr rfl (fun i hi => sum_congr rfl (fun j hj => ?_))
    have hi' : i < n := mem_range.mp hi
    have hj' : j < n := mem_range.mp hj
    have hB : ∀ a b, a < n → b < n →
        forLoop n (fun i B => forLoop n (fun j B =>
          if i = j then setAt B (i * n + j) (1 - dR i * dGrad j / dot n dR dGrad)
          else setAt B (i * n + j) (-dR i * dGrad j / dot n dR dGrad)) B)
          (calloc (n * n)) (a * n + b) = bfgsB dR dGrad (dot n dR dGrad) a b := by
      intro a b ha hb
      have hrw : (fun (i : Nat) (B : Arr K) => forLoop n (fun j B =>
          if i = j then setAt B (i * n + j) (1 - dR i * dGrad j / dot n dR dGrad)
          else setAt B (i * n + j) (-dR i * dGrad j / dot n dR dGrad)) B)
          = (fun (i : Nat) (B : Arr K) => forLoop n (fun j B =>
              setAt B (i * n + j) (bfgsB dR dGrad (dot n dR dGrad) i j)) B) := by
        funext i B
        congr 1
        funext j B
        by_cases hij : i = j
        · simp [hij, bfgsB]
        · simp [hij, bfgsB, neg_mul, neg_div]
      rw [hrw, forLoop_fill_get n n _ _ a b ha hb]
    rw [hB p i hp hi', hB q j hq hj']
  · intro k hk
    rw [forLoop_fill_frame n n _ _ k hk]

/-- The only exit of `invHessian_BFGS` is the test `alpha == 0.0`, which comes
before any write to `invHessian`. -/
theorem invHessian_BFGS_exit (n : Nat) (dR dGrad H : Arr K) (e : OptError) (s : Arr K)
    (h : invHessian_BFGS n dR dGrad H = Run.exit e s) :
    e = OptError.DegenerateUpdate ∧ s = H ∧ dot n dR dGrad = 0 := by
  by_cases h0 : dot n dR dGrad = 0
  · have hexit : invHessian_BFGS n dR dGrad H = Run.exit OptError.DegenerateUpdate H := by
      unfold invHessian_BFGS
      simp only [alpha_loop, if_pos h0]
    rw [hexit] at h
    cases h
    exact ⟨rfl, rfl, h0⟩
  · obtain ⟨H', hrun, _⟩ := invHessian_BFGS_done n dR dGrad H h0
    rw [hrun] at h
    cases h

/-- Column `j` of `B` is orthogonal to `dGrad`: `Bᵗ·dGrad = 0`. -/
theorem bfgsB_transpose_dGrad (n : Nat) (dR dGrad : Arr K)
    (h : dot n dR dGrad ≠ 0) (j : Nat) (hj : j < n) :
    ∑ q ∈ range n, bfgsB dR dGrad (dot n dR dGrad) q j * dGrad q = 0 := by
  have h1 : ∑ q ∈ range n, bfgsB dR dGrad (dot n dR dGrad) q j * dGrad q
      = (∑ q ∈ range n, (if q = j then dGrad q else 0))
        - (∑ q ∈ range n, dR q * dGrad q) * (dGrad j / dot n dR dGrad) := by
    rw [sum_mul, ← sum_sub_distrib]
    refine sum_congr rfl (fun q _ => ?_)
    unfold bfgsB
    by_cases hq : q = j
    · simp only [hq, if_true]
      ring
    · simp only [hq, if_false]
      ring
  rw [h1, sum_ite_eq' (range n) j (fun q => dGrad q), if_pos (mem_range.mpr hj)]
  change dGrad j - dot n dR dGrad * (dGrad j / dot n dR dGrad) = 0
  field_simp

/-- The matrix `B·H·Bᵗ + dR⊗dR/α` maps `dGrad` to `dR`. -/
theorem bfgsEntry_secant (n : Nat) (dR dGrad H : Arr K)
    (h : dot n dR dGrad ≠ 0) (p : Nat) :
    ∑ q ∈ range n, bfgsEntry n dR dGrad H p q * dGrad q = dR p := by
  unfold bfgsEntry
  simp only [add_mul, sum_add_distrib]
  have h1 : ∑ q ∈ range n, (∑ i ∈ range n, ∑ j ∈ range n,
        bfgsB dR dGrad (dot n dR dGrad) p i * bfgsB dR dGrad (dot n dR dGrad) q j
          * H (i * n + j)) * dGrad q = 0 := by
    have h2 : ∀ q, (∑ i ∈ range n, ∑ j ∈ range n,
        bfgsB dR dGrad (dot n dR dGrad) p i * bfgsB dR dGrad (dot n dR dGrad) q j
          * H (i * n + j)) * dGrad q
        = ∑ i ∈ range n, ∑ j ∈ range n,
            bfgsB dR dGrad (dot n dR dGrad) p i * H (i * n + j)
              * (bfgsB dR dGrad (dot n dR dGrad) q j * dGrad q) := by
      intro q
      rw [sum_mul]
      refine sum_congr rfl (fun i _ => ?_)
      rw [sum_mul]
      refine sum_congr rfl (fun j _ => ?_)
      ring
    simp only [h2]
    rw [sum_comm]
    refine sum_eq_zero (fun i _ => ?_)
    rw [sum_comm]
    refine sum_eq_zero (fun j hj => ?_)
    rw [← mul_sum, bfgsB_transpose_dGrad n dR dGrad h j (mem_range.mp hj), mul_zero]
  have h3 : ∑ q ∈ range n, dR p * dR q / dot n dR dGrad * dGrad q = dR p := by
    have h4 : ∀ q, dR p * dR q / dot n dR dGrad * dGrad q
        = dR p / dot n dR dGrad * (dR q * dGrad q) := by
      intro q
      ring
    simp only [h4]
    rw [← mul_sum]
    change dR p / dot n dR dGrad * dot n dR dGrad = dR p
    field_simp
  rw [h1, h3, zero_add]

/-- C1 (secant equation).  For every dimension, every matrix `H` (symmetric or
not) and every pair `dR`, `dGrad` with `dR·dGrad ≠ 0`, `invHessian_BFGS` returns,
and the matrix `H'` it has written into `invHessian` satisfies `H'·dGrad = dR`
exactly. -/
theorem invHessian_BFGS_secant (nDim : Nat) (dR dGrad invHessian : Arr K)
    (h : dot nDim dR dGrad ≠ 0) :
    ∃ H' : Arr K, invHessian_BFGS nDim dR dGrad invHessian = Run.done H' ∧
      ∀ p, p < nDim → matVec nDim H' dGrad p = dR p := by
  obtain ⟨H', hrun, hin, _⟩ := invHessian_BFGS_done nDim dR dGrad invHessian h
  refine ⟨H', hrun, fun p hp => ?_⟩
  unfold matVec
  rw [← bfgsEntry_secant nDim dR dGrad invHessian h p]
  exact sum_congr rfl (fun q hq => by rw [hin p q hp (mem_range.mp hq)])

/-- Witness for C1: `dR = (1, 2)`, `dGrad = (3, 1)`, `H` the 2×2 identity, for
which `dR·dGrad = 5`. -/
theorem invHessian_BFGS_secant_witness :
    dot 2 (Arr.ofList [(1 : ℚ), 2]) (Arr.ofList [(3 : ℚ), 1]) ≠ 0 ∧
    ∃ H' : Arr ℚ, invHessian_BFGS 2 (Arr.ofList [1, 2]) (Arr.ofList [3, 1])
        (Arr.ofList [1, 0, 0, 1]) = Run.done H' ∧
      ∀ p, p < 2 → matVec 2 H' (Arr.ofList [(3 : ℚ), 1]) p = (Arr.ofList [(1 : ℚ), 2]) p :=
  ⟨by decide!, invHessian_BFGS_secant 2 _ _ _ (by decide!)⟩

/-- C4 (degenerate update).  `invHessian_BFGS` ends with `DegenerateUpdate`
if and only if `α = Σ dR[i]·dGrad[i]` is zero; when it does, `invHessian` still
holds `H`; and when `α ≠ 0` it returns. -/
theorem invHessian_BFGS_degenerate (nDim : Nat) (dR dGrad H : Arr K) :
    ((∃ s, invHessian_BFGS nDim dR dGrad H = Run.exit OptError.DegenerateUpdate s)
        ↔ dot nDim dR dGrad = 0) ∧
    (∀ e s, invHessian_BFGS nDim dR dGrad H = Run.exit e s →
        e = OptError.DegenerateUpdate ∧ s = H) ∧
    (dot nDim dR dGrad ≠ 0 → ∃ H', invHessian_BFGS nDim dR dGrad H = Run.done H') := by
  refine ⟨⟨?_, ?_⟩, ?_, ?_⟩
  · rintro ⟨s, hs⟩
    exact (invHessian_BFGS_exit nDim dR dGrad H _ s hs).2.2
  · intro h0
    refine ⟨H, ?_⟩
    unfold invHessian_BFGS
    simp only [alpha_loop, if_pos h0]
  · intro e s hs
    obtain ⟨h1, h2, _⟩ := invHessian_BFGS_exit nDim dR dGrad H e s hs
    exact ⟨h1, h2⟩
  · intro hne
    obtain ⟨H', hrun, _⟩ := invHessian_BFGS_done nDim dR dGrad H hne
    exact ⟨H', hrun⟩

/-- Row `p` of `B` applied to a vector: `Σ_i B[p][i]·f[i] = f[p] − dR[p]·(dGrad·f)/α`. -/
theorem sum_bfgsB_row (n : Nat) (dR dGrad : Nat → K) (alpha : K) (f : Nat → K)
    (p : Nat) (hp : p < n) :
    ∑ i ∈ range n, bfgsB dR dGrad alpha p i * f i
      = f p - dR p / alpha * ∑ i ∈ range n, dGrad i * f i := by
  have h1 : ∀ i ∈ range n, bfgsB dR dGrad alpha p i * f i
      = (if p = i then f i else 0) - dR p / alpha * (dGrad i * f i) := by
    intro i _
    unfold bfgsB
    by_cases h : p = i
    · simp only [h, if_true]
      ring
    · simp only [h, if_false]
      ring
  rw [sum_congr rfl h1, sum_sub_distrib, ← mul_sum, sum_ite_eq (range n) p f,
    if_pos (mem_range.mpr hp)]

/-- Column `j` of `B` applied to a vector:
`Σ_q B[q][j]·f[q] = f[j] − dGrad[j]·(dR·f)/α`. -/
theorem sum_bfgsB_col (n : Nat) (dR dGrad : Nat → K) (alpha : K) (f : Nat → K)
    (j : Nat) (hj : j < n) :
    ∑ q ∈ range n, bfgsB dR dGrad alpha q j * f q
      = f j - dGrad j / alpha * ∑ q ∈ range n, dR q * f q := by
  have h1 : ∀ q ∈ range n, bfgsB dR dGrad alpha q j * f q
      = (if q = j then f q else 0) - dGrad j / alpha * (dR q * f q) := by
    intro q _
    unfold bfgsB
    by_cases h : q = j
    · simp only [h, if_true]
      ring
    · simp only [h, if_false]
      ring
  rw [sum_congr rfl h1, sum_sub_distrib, ← mul_sum, sum_ite_eq' (range n) j f,
    if_pos (mem_range.mpr hj)]

/-- The double sum of `B·H·Bᵗ`, one row of `B` at a time. -/
theorem bfgsEntry_rows (n : Nat) (dR dGrad H : Nat → K) (p q : Nat) :
    bfgsEntry n dR dGrad H p q
      = (∑ i ∈ range n, bfgsB dR dGrad (dot n dR dGrad) p i *
          ∑ j ∈ range n, bfgsB dR dGrad (dot n dR dGrad) q j * H (i * n + j))
        + dR p * dR q / dot n dR dGrad := by
  unfold bfgsEntry
  congr 1
  refine sum_congr rfl (fun i _ => ?_)
  rw [mul_sum]
  refine sum_congr rfl (fun j _ => ?_)
  ring

/-- The direct summation `B·H·Bᵗ + dR⊗dR/α` and the rank-2 closed form have the
same entries. -/
theorem bfgsEntry_eq_rank2 (n : Nat) (dR dGrad H : Nat → K) (h : dot n dR dGrad ≠ 0)
    (p q : Nat) (hp : p < n) (hq : q < n) :
    bfgsEntry n dR dGrad H p q = rank2Entry n dR dGrad H p q := by
  rw [bfgsEntry_rows]
  have hinner : ∀ i, ∑ j ∈ range n, bfgsB dR dGrad (dot n dR dGrad) q j * H (i * n + j)
      = H (i * n + q) - dR q / dot n dR dGrad * matVec n H dGrad i := by
    intro i
    rw [sum_bfgsB_row n dR dGrad _ (fun j => H (i * n + j)) q hq]
    unfold matVec
    congr 2
    exact sum_congr rfl (fun j _ => mul_comm _ _)
  simp only [hinner]
  rw [sum_bfgsB_row n dR dGrad _
    (fun i => H (i * n + q) - dR q / dot n dR dGrad * matVec n H dGrad i) p hp]
  have hsum : ∑ i ∈ range n,
      dGrad i * (H (i * n + q) - dR q / dot n dR dGrad * matVec n H dGrad i)
      = matVecT n H dGrad q
        - dR q / dot n dR dGrad * dot n dGrad (matVec n H dGrad) := by
    unfold matVecT dot
    rw [mul_sum, ← sum_sub_distrib]
    refine sum_congr rfl (fun i _ => ?_)
    ring
  rw [hsum]
  unfold rank2Entry
  field_simp
  ring

/-- A loop whose body keeps the size of an array keeps it. -/
theorem forLoop_size {A : Type} (n : Nat) (body : Nat → Arr A → Arr A)
    (h : ∀ i a, (body i a).size = a.size) (a0 : Arr A) :
    (forLoop n body a0).size = a0.size := by
  induction n with
  | zero => rfl
  | succ n ih => rw [forLoop_succ, h, ih]

/-- The function `invHessian_BFGS` keeps the size of `invHessian`. -/
theorem invHessian_BFGS_size (n : Nat) (dR dGrad H H' : Arr K)
    (h : invHessian_BFGS n dR dGrad H = Run.done H') : H'.size = H.size := by
  unfold invHessian_BFGS at h
  by_cases h0 : forLoop n (fun i alpha => alpha + dR i * dGrad i) (0 : K) = 0
  · simp only [if_pos h0] at h
    cases h
  · simp only [if_neg h0] at h
    cases h
    apply forLoop_size
    intro i a
    apply forLoop_size
    intro j b
    rfl

/-- Two arrays are equal when a run of `invHessian_BFGS` took one to the other and
the cells of the `n×n` block are the same. -/
theorem invHessian_BFGS_fixed (n : Nat) (dR dGrad H H' : Arr K)
    (hrun : invHessian_BFGS n dR dGrad H = Run.done H')
    (hframe : ∀ k, n * n ≤ k → H' k = H k)
    (hblock : ∀ p q, p < n → q < n → H' (p * n + q) = H (p * n + q)) : H' = H := by
  refine Arr.ext_get _ _ (invHessian_BFGS_size n dR dGrad H H' hrun) (fun k => ?_)
  by_cases hk : k < n * n
  · have hn : 0 < n := by
      rcases Nat.eq_zero_or_pos n with h0 | h0
      · subst h0
        omega
      · exact h0
    have hq : k % n < n := Nat.mod_lt k hn
    have hp : k / n < n := (Nat.div_lt_iff_lt_mul hn).mpr hk
    have hk2 : k / n * n + k % n = k := Nat.div_add_mod' k n
    have := hblock (k / n) (k % n) hp hq
    rw [hk2] at this
    exact this
  · exact hframe k (by omega)

/-- C12 (rank-2 equivalence).  For `α = dR·dGrad ≠ 0`, every entry of the matrix
that the direct summation of `invHessian_BFGS` writes (`B·H·Bᵗ + dR⊗dR/α`) equals
the entry of the rank-2 closed form
`H − (dR⊗(Hᵗ·dGrad) + (H·dGrad)⊗dR)/α + (1 + (dGrad·H·dGrad)/α)·(dR⊗dR)/α`. -/
theorem invHessian_BFGS_rank2 (nDim : Nat) (dR dGrad H : Arr K)
    (h : dot nDim dR dGrad ≠ 0) :
    ∃ H' : Arr K, invHessian_BFGS nDim dR dGrad H = Run.done H' ∧
      ∀ p q, p < nDim → q < nDim → H' (p * nDim + q) = rank2Entry nDim dR dGrad H p q := by
  obtain ⟨H', hrun, hin, _⟩ := invHessian_BFGS_done nDim dR dGrad H h
  refine ⟨H', hrun, fun p q hp hq => ?_⟩
  rw [hin p q hp hq, bfgsEntry_eq_rank2 nDim dR dGrad H h p q hp hq]

/-- Witness for C12: `dR = (1, 2)`, `dGrad = (3, 1)` and a non-symmetric `H`. -/
theorem invHessian_BFGS_rank2_witness :
    dot 2 (Arr.ofList [(1 : ℚ), 2]) (Arr.ofList [(3 : ℚ), 1]) ≠ 0 ∧
    ∃ H' : Arr ℚ, invHessian_BFGS 2 (Arr.ofList [1, 2]) (Arr.ofList [3, 1])
        (Arr.ofList [1, 2, 3, 4]) = Run.done H' ∧
      ∀ p q, p < 2 → q < 2 → H' (p * 2 + q)
        = rank2Entry 2 (Arr.ofList [(1 : ℚ), 2]) (Arr.ofList [(3 : ℚ), 1])
            (Arr.ofList [(1 : ℚ), 2, 3, 4]) p q :=
  ⟨by decide!, invHessian_BFGS_rank2 2 _ _ _ (by decide!)⟩

/-- The transpose of `B·H·Bᵗ + dR⊗dR/α` maps `dGrad` to `dR` as well. -/
theorem bfgsEntry_secant_left (n : Nat) (dR dGrad H : Nat → K)
    (h : dot n dR dGrad ≠ 0) (q : Nat) (hq : q < n) :
    ∑ p ∈ range n, bfgsEntry n dR dGrad H p q * dGrad p = dR q := by
  have h1 : ∀ p ∈ range n, bfgsEntry n dR dGrad H p q * dGrad p
      = rank2Entry n dR dGrad H p q * dGrad p :=
    fun p hp => by rw [bfgsEntry_eq_rank2 n dR dGrad H h p q (mem_range.mp hp) hq]
  rw [sum_congr rfl h1]
  unfold rank2Entry
  have h2 : ∀ p ∈ range n,
      (H (p * n + q)
        - (dR p * matVecT n H dGrad q + matVec n H dGrad p * dR q) / dot n dR dGrad
        + (1 + dot n dGrad (matVec n H dGrad) / dot n dR dGrad) * (dR p * dR q)
            / dot n dR dGrad) * dGrad p
      = H (p * n + q) * dGrad p
        - matVecT n H dGrad q / dot n dR dGrad * (dR p * dGrad p)
        - dR q / dot n dR dGrad * (dGrad p * matVec n H dGrad p)
        + (1 + dot n dGrad (matVec n H dGrad) / dot n dR dGrad) * dR q / dot n dR dGrad
            * (dR p * dGrad p) := by
    intro p _
    ring
  rw [sum_congr rfl h2, sum_add_distrib, sum_sub_distrib, sum_sub_distrib,
    ← mul_sum, ← mul_sum, ← mul_sum]
  change matVecT n H dGrad q - matVecT n H dGrad q / dot n dR dGrad * dot n dR dGrad
    - dR q / dot n dR dGrad * dot n dGrad (matVec n H dGrad)
    + (1 + dot n dGrad (matVec n H dGrad) / dot n dR dGrad) * dR q / dot n dR dGrad
        * dot n dR dGrad = dR q
  field_simp
  ring

/-- A matrix that maps `dGrad` to `dR` from both sides is a fixed point of the
rank-2 closed form. -/
theorem rank2Entry_fixed (n : Nat) (dR dGrad H : Nat → K) (h : dot n dR dGrad ≠ 0)
    (h1 : ∀ i, i < n → matVec n H dGrad i = dR i)
    (h2 : ∀ j, j < n → matVecT n H dGrad j = dR j)
    (p q : Nat) (hp : p < n) (hq : q < n) :
    rank2Entry n dR dGrad H p q = H (p * n + q) := by
  have hquad : dot n dGrad (matVec n H dGrad) = dot n dR dGrad := by
    unfold dot
    refine sum_congr rfl (fun i hi => ?_)
    rw [h1 i (mem_range.mp hi)]
    ring
  unfold rank2Entry
  rw [hquad, h1 p hp, h2 q hq]
  field_simp
  ring

/-- A matrix that maps `dGrad` to `dR` from both sides is returned unchanged by
`invHessian_BFGS`. -/
theorem invHessian_BFGS_fixed_point (n : Nat) (dR dGrad M : Arr K)
    (h : dot n dR dGrad ≠ 0)
    (h1 : ∀ i, i < n → matVec n M dGrad i = dR i)
    (h2 : ∀ j, j < n → matVecT n M dGrad j = dR j) :
    invHessian_BFGS n dR dGrad M = Run.done M := by
  obtain ⟨M', hrun, hin, hout⟩ := invHessian_BFGS_done n dR dGrad M h
  have hM : M' = M := by
    refine invHessian_BFGS_fixed n dR dGrad M M' hrun hout (fun p q hp hq => ?_)
    rw [hin p q hp hq, bfgsEntry_eq_rank2 n dR dGrad M h p q hp hq,
      rank2Entry_fixed n dR dGrad M h h1 h2 p q hp hq]
  rw [hrun, hM]

/-- The test `alpha == 0.0` of `invHessian_BFGS` ends the process when `dR·dGrad`
is zero. -/
theorem invHessian_BFGS_zero (n : Nat) (dR dGrad H : Arr K) (h0 : dot n dR dGrad = 0) :
    invHessian_BFGS n dR dGrad H = Run.exit OptError.DegenerateUpdate H := by
  unfold invHessian_BFGS
  simp only [alpha_loop, if_pos h0]

/-- C20 (idempotence).  For `dR·dGrad ≠ 0`, a second application of
`invHessian_BFGS` with the same `dR`, `dGrad` returns the matrix the first one
returned; and a matrix `H` with `H·dGrad = dR` and `Hᵗ·dGrad = dR` is returned
unchanged. -/
theorem invHessian_BFGS_idempotent (nDim : Nat) (dR dGrad H : Arr K)
    (h : dot nDim dR dGrad ≠ 0) :
    (∃ H1 : Arr K, invHessian_BFGS nDim dR dGrad H = Run.done H1 ∧
      invHessian_BFGS nDim dR dGrad H1 = Run.done H1) ∧
    ((∀ i, i < nDim → matVec nDim H dGrad i = dR i) →
      (∀ j, j < nDim → matVecT nDim H dGrad j = dR j) →
      invHessian_BFGS nDim dR dGrad H = Run.done H) := by
  refine ⟨?_, invHessian_BFGS_fixed_point nDim dR dGrad H h⟩
  obtain ⟨H1, hrun, hin, _⟩ := invHessian_BFGS_done nDim dR dGrad H h
  refine ⟨H1, hrun, invHessian_BFGS_fixed_point nDim dR dGrad H1 h ?_ ?_⟩
  · intro i hi
    unfold matVec
    rw [← bfgsEntry_secant nDim dR dGrad H h i]
    exact sum_congr rfl (fun q hq => by rw [hin i q hi (mem_range.mp hq)])
  · intro j hj
    unfold matVecT
    rw [← bfgsEntry_secant_left nDim dR dGrad H h j hj]
    exact sum_congr rfl (fun p hp => by rw [hin p j (mem_range.mp hp) hj])

/-- Witness for C20: `dR = (1, 2)`, `dGrad = (3, 1)` and a non-symmetric `H`. -/
theorem invHessian_BFGS_idempotent_witness :
    dot 2 (Arr.ofList [(1 : ℚ), 2]) (Arr.ofList [(3 : ℚ), 1]) ≠ 0 ∧
    ((∃ H1 : Arr ℚ, invHessian_BFGS 2 (Arr.ofList [1, 2]) (Arr.ofList [3, 1])
          (Arr.ofList [1, 2, 3, 4]) = Run.done H1 ∧
        invHessian_BFGS 2 (Arr.ofList [1, 2]) (Arr.ofList [3, 1]) H1 = Run.done H1) ∧
      ((∀ i, i < 2 → matVec 2 (Arr.ofList [(1 : ℚ), 2, 3, 4]) (Arr.ofList [(3 : ℚ), 1]) i
          = (Arr.ofList [(1 : ℚ), 2]) i) →
        (∀ j, j < 2 → matVecT 2 (Arr.ofList [(1 : ℚ), 2, 3, 4]) (Arr.ofList [(3 : ℚ), 1]) j
          = (Arr.ofList [(1 : ℚ), 2]) j) →
        invHessian_BFGS 2 (Arr.ofList [(1 : ℚ), 2]) (Arr.ofList [3, 1])
            (Arr.ofList [1, 2, 3, 4])
          = Run.done (Arr.ofList [1, 2, 3, 4]))) :=
  ⟨by decide!, invHessian_BFGS_idempotent 2 _ _ _ (by decide!)⟩

end BFGS

/-! ## The Newton step -/

section Newton

variable {K : Type} [LinearOrderedField K]

/-- The first loop of `stepVector_Newton` writes `−H·grad` into the first `n`
cells of `dR`. -/
theorem newton_loop (n : Nat) (invH grad dR0 : Arr K) (k : Nat) :
    forLoop n (fun i dR =>
      forLoop n (fun j dR => setAt dR i (dR i - invH (i * n + j) * grad j)) (setAt dR i 0)) dR0 k
      = if k < n then newtonStep n invH grad k else dR0 k := by
  have hbody : (fun (i : Nat) (dR : Arr K) =>
      forLoop n (fun j dR => setAt dR i (dR i - invH (i * n + j) * grad j)) (setAt dR i 0))
      = (fun (i : Nat) (dR : Arr K) =>
          setAt dR i ((fun i _ => newtonStep n invH grad i) i (dR i))) := by
    funext i dR
    have h1 : (fun (j : Nat) (dR : Arr K) => setAt dR i (dR i - invH (i * n + j) * grad j))
        = (fun (j : Nat) (dR : Arr K) =>
            setAt dR i (dR i + (fun j => -(invH (i * n + j) * grad j)) j)) := by
      funext j dR
      rw [sub_eq_add_neg]
    rw [h1, forLoop_cell_add]
    refine Arr.ext_get _ _ rfl (fun x => ?_)
    by_cases hx : x = i <;> simp [setAt_get, hx, newtonStep, matVec]
  rw [hbody]
  exact forLoop_map n (fun i _ => newtonStep n invH grad i) dR0 k

/-- A square root takes `m*m` back to `m` when `m ≥ 0`. -/
theorem IsSqrt.sqrt_mul_self {sqrt : K → K} (hs : IsSqrt sqrt) (m : K) (hm : 0 ≤ m) :
    sqrt (m * m) = m := by
  obtain ⟨h0, h1⟩ := hs (m * m) (mul_self_nonneg m)
  exact (mul_self_inj h0 hm).mp h1

theorem dot_self_nonneg (n : Nat) (u : Nat → K) : 0 ≤ dot n u u :=
  sum_nonneg (fun i _ => mul_self_nonneg (u i))

theorem dot_congr (n : Nat) (u v u' v' : Nat → K)
    (hu : ∀ i, i < n → u i = u' i) (hv : ∀ i, i < n → v i = v' i) :
    dot n u v = dot n u' v' :=
  sum_congr rfl (fun i hi => by rw [hu i (mem_range.mp hi), hv i (mem_range.mp hi)])

/-- What `stepVector_Newton` returns for a positive `maxStepSize`. -/
theorem stepVector_Newton_done (sqrt : K → K) (n : Nat) (invH grad dR0 : Arr K)
    (maxStepSize : K) (hpos : 0 < maxStepSize) :
    ∃ dR : Arr K, stepVector_Newton sqrt n invH grad maxStepSize dR0 = Run.done dR ∧
      ∀ k, dR k =
        if k < n then
          (if norm2 sqrt n (newtonStep n invH grad) > maxStepSize then
            newtonStep n invH grad k * maxStepSize / norm2 sqrt n (newtonStep n invH grad)
           else newtonStep n invH grad k)
        else dR0 k := by
  unfold stepVector_Newton
  have hnp : ¬ maxStepSize ≤ 0 := not_le.mpr hpos
  simp only [if_neg hnp, forLoop_add, zero_add]
  have hr : (∑ i ∈ range n, forLoop n (fun i dR =>
        forLoop n (fun j dR => setAt dR i (dR i - invH (i * n + j) * grad j)) (setAt dR i 0)) dR0 i
      * forLoop n (fun i dR =>
        forLoop n (fun j dR => setAt dR i (dR i - invH (i * n + j) * grad j)) (setAt dR i 0)) dR0 i)
      = dot n (newtonStep n invH grad) (newtonStep n invH grad) := by
    refine sum_congr rfl (fun i hi => ?_)
    rw [newton_loop, if_pos (mem_range.mp hi)]
  rw [hr]
  change ∃ dR : Arr K, (if norm2 sqrt n (newtonStep n invH grad) > maxStepSize then _ else _)
    = Run.done dR ∧ _
  by_cases hgt : norm2 sqrt n (newtonStep n invH grad) > maxStepSize
  · simp only [if_pos hgt]
    refine ⟨_, rfl, fun k => ?_⟩
    have hmap := forLoop_map n
      (fun _ (x : K) =>
        x * maxStepSize / sqrt (dot n (newtonStep n invH grad) (newtonStep n invH grad)))
      (forLoop n (fun i dR =>
        forLoop n (fun j dR => setAt dR i (dR i - invH (i * n + j) * grad j)) (setAt dR i 0)) dR0) k
    simp only [newton_loop] at hmap
    rw [hmap]
    by_cases hk : k < n
    · simp only [if_pos hk]
      rfl
    · simp only [if_neg hk]
  · simp only [if_neg hgt]
    refine ⟨_, rfl, fun k => ?_⟩
    rw [newton_loop]

/-- The only exit of `stepVector_Newton` is the test `maxStepSize <= 0.0`. -/
theorem stepVector_Newton_exit (sqrt : K → K) (n : Nat) (invH grad dR0 : Arr K)
    (maxStepSize : K) (e : OptError) (s : Arr K)
    (h : stepVector_Newton sqrt n invH grad maxStepSize dR0 = Run.exit e s) :
    e = OptError.InvalidConfiguration ∧ maxStepSize ≤ 0 := by
  by_cases hle : maxStepSize ≤ 0
  · unfold stepVector_Newton at h
    simp only [if_pos hle] at h
    cases h
    exact ⟨rfl, hle⟩
  · obtain ⟨dR, hd, _⟩ :=
      stepVector_Newton_done sqrt n invH grad dR0 maxStepSize (not_le.mp hle)
    rw [hd] at h
    cases h

/-- With the identity for `H`, the unclipped Newton step is `−grad`. -/
theorem newtonStep_identity (n : Nat) (H grad : Nat → K) (hI : IsIdentity n H)
    (i : Nat) (hi : i < n) : newtonStep n H grad i = -grad i := by
  unfold newtonStep matVec
  have h1 : ∑ j ∈ range n, H (i * n + j) * grad j
      = ∑ j ∈ range n, (if i = j then grad j else 0) := by
    refine sum_congr rfl (fun j hj => ?_)
    rw [hI i j hi (mem_range.mp hj)]
    by_cases hij : i = j <;> simp [hij]
  rw [h1, sum_ite_eq (range n) i (fun j => grad j), if_pos (mem_range.mpr hi)]

theorem norm2_congr (sqrt : K → K) (n : Nat) (u v : Nat → K)
    (h : ∀ i, i < n → v i = u i) : norm2 sqrt n v = norm2 sqrt n u := by
  show sqrt (dot n v v) = sqrt (dot n u u)
  rw [dot_congr n v v u u h h]

/-- Scaling a vector of norm `r > m > 0` by `m / r` gives a vector of norm `m`. -/
theorem norm2_scaled (sqrt : K → K) (hs : IsSqrt sqrt) (n : Nat) (u v : Nat → K) (m : K)
    (hpos : 0 < m) (hgt : norm2 sqrt n u > m)
    (hv : ∀ i, i < n → v i = u i * m / norm2 sqrt n u) : norm2 sqrt n v = m := by
  have hr0 : norm2 sqrt n u ≠ 0 := ne_of_gt (lt_trans hpos hgt)
  have hrr : norm2 sqrt n u * norm2 sqrt n u = dot n u u := (hs _ (dot_self_nonneg n u)).2
  have hdot : dot n v v = m * m := by
    have h1 : ∀ i ∈ range n, v i * v i
        = (m / norm2 sqrt n u) * (m / norm2 sqrt n u) * (u i * u i) := by
      intro i hi
      rw [hv i (mem_range.mp hi)]
      ring
    have h2 : dot n v v = (m / norm2 sqrt n u) * (m / norm2 sqrt n u) * dot n u u := by
      unfold dot
      rw [sum_congr rfl h1, ← mul_sum]
    rw [h2, ← hrr]
    field_simp
  show sqrt (dot n v v) = m
  rw [hdot]
  exact hs.sqrt_mul_self m (le_of_lt hpos)

/-- C2 (trust-region clipping).  For `maxStepSize > 0`, with `u = −H·grad` and
`r = ‖u‖`: `stepVector_Newton` returns `u` when `r ≤ maxStepSize`, and
`(maxStepSize / r)·u`, a positive multiple of `u` of norm exactly `maxStepSize`,
when `r > maxStepSize`; the norm of the returned step is `min r maxStepSize`.
With `H` the identity, `u = −grad` and `r = ‖grad‖`. -/
theorem stepVector_Newton_clip (sqrt : K → K) (hs : IsSqrt sqrt) (nDim : Nat)
    (invH grad dR0 : Arr K) (maxStepSize : K) (hpos : 0 < maxStepSize) :
    ∃ dR : Arr K, stepVector_Newton sqrt nDim invH grad maxStepSize dR0 = Run.done dR ∧
      (norm2 sqrt nDim (newtonStep nDim invH grad) ≤ maxStepSize →
        ∀ i, i < nDim → dR i = newtonStep nDim invH grad i) ∧
      (norm2 sqrt nDim (newtonStep nDim invH grad) > maxStepSize →
        0 < maxStepSize / norm2 sqrt nDim (newtonStep nDim invH grad) ∧
        (∀ i, i < nDim → dR i
          = maxStepSize / norm2 sqrt nDim (newtonStep nDim invH grad)
              * newtonStep nDim invH grad i) ∧
        norm2 sqrt nDim dR = maxStepSize) ∧
      norm2 sqrt nDim dR = min (norm2 sqrt nDim (newtonStep nDim invH grad)) maxStepSize ∧
      (IsIdentity nDim invH →
        (∀ i, i < nDim → newtonStep nDim invH grad i = -grad i) ∧
        norm2 sqrt nDim (newtonStep nDim invH grad) = norm2 sqrt nDim grad) := by
  obtain ⟨dR, hrun, hget⟩ := stepVector_Newton_done sqrt nDim invH grad dR0 maxStepSize hpos
  have hclip : norm2 sqrt nDim (newtonStep nDim invH grad) > maxStepSize →
      ∀ i, i < nDim → dR i
        = newtonStep nDim invH grad i * maxStepSize
            / norm2 sqrt nDim (newtonStep nDim invH grad) := by
    intro hgt i hi
    rw [hget i, if_pos hi, if_pos hgt]
  have hkeep : ¬ norm2 sqrt nDim (newtonStep nDim invH grad) > maxStepSize →
      ∀ i, i < nDim → dR i = newtonStep nDim invH grad i := by
    intro hgt i hi
    rw [hget i, if_pos hi, if_neg hgt]
  refine ⟨dR, hrun, fun hle => hkeep (not_lt.mpr hle), ?_, ?_, ?_⟩
  · intro hgt
    refine ⟨div_pos hpos (lt_trans hpos hgt), ?_, ?_⟩
    · intro i hi
      rw [hclip hgt i hi]
      ring
    · exact norm2_scaled sqrt hs nDim _ _ maxStepSize hpos hgt (hclip hgt)
  · by_cases hgt : norm2 sqrt nDim (newtonStep nDim invH grad) > maxStepSize
    · rw [min_eq_right (le_of_lt hgt)]
      exact norm2_scaled sqrt hs nDim _ _ maxStepSize hpos hgt (hclip hgt)
    · rw [min_eq_left (not_lt.mp hgt)]
      exact norm2_congr sqrt nDim _ _ (hkeep hgt)
  · intro hI
    refine ⟨fun i hi => newtonStep_identity nDim invH grad hI i hi, ?_⟩
    show sqrt (dot nDim (newtonStep nDim invH grad) (newtonStep nDim invH grad))
      = sqrt (dot nDim grad grad)
    congr 1
    unfold dot
    refine sum_congr rfl (fun i hi => ?_)
    rw [newtonStep_identity nDim invH grad hI i (mem_range.mp hi)]
    ring

theorem isSqrt_real : IsSqrt Real.sqrt :=
  fun x hx => ⟨Real.sqrt_nonneg x, Real.mul_self_sqrt hx⟩

/-- Witness for C2: over the real numbers with `Real.sqrt`, `H` the 2×2 identity,
`grad = (3, 4)` and `maxStepSize = 1`. -/
theorem stepVector_Newton_clip_witness :
    IsSqrt Real.sqrt ∧ (0 : ℝ) < 1 ∧
    ∃ dR : Arr ℝ, stepVector_Newton Real.sqrt 2 (Arr.ofList [1, 0, 0, 1]) (Arr.ofList [3, 4])
        1 (calloc 2) = Run.done dR ∧
      (norm2 Real.sqrt 2
          (newtonStep 2 (Arr.ofList [(1 : ℝ), 0, 0, 1]) (Arr.ofList [(3 : ℝ), 4])) ≤ 1 →
        ∀ i, i < 2 → dR i
          = newtonStep 2 (Arr.ofList [(1 : ℝ), 0, 0, 1]) (Arr.ofList [(3 : ℝ), 4]) i) ∧
      (norm2 Real.sqrt 2
          (newtonStep 2 (Arr.ofList [(1 : ℝ), 0, 0, 1]) (Arr.ofList [(3 : ℝ), 4])) > 1 →
        0 < 1 / norm2 Real.sqrt 2
          (newtonStep 2 (Arr.ofList [(1 : ℝ), 0, 0, 1]) (Arr.ofList [(3 : ℝ), 4])) ∧
        (∀ i, i < 2 → dR i
          = 1 / norm2 Real.sqrt 2
                (newtonStep 2 (Arr.ofList [(1 : ℝ), 0, 0, 1]) (Arr.ofList [(3 : ℝ), 4]))
              * newtonStep 2 (Arr.ofList [(1 : ℝ), 0, 0, 1]) (Arr.ofList [(3 : ℝ), 4]) i) ∧
        norm2 Real.sqrt 2 dR = 1) ∧
      norm2 Real.sqrt 2 dR
        = min (norm2 Real.sqrt 2
            (newtonStep 2 (Arr.ofList [(1 : ℝ), 0, 0, 1]) (Arr.ofList [(3 : ℝ), 4]))) 1 ∧
      (IsIdentity 2 (Arr.ofList [(1 : ℝ), 0, 0, 1]) →
        (∀ i, i < 2 →
          newtonStep 2 (Arr.ofList [(1 : ℝ), 0, 0, 1]) (Arr.ofList [(3 : ℝ), 4]) i
            = -(Arr.ofList [(3 : ℝ), 4]) i) ∧
        norm2 Real.sqrt 2
            (newtonStep 2 (Arr.ofList [(1 : ℝ), 0, 0, 1]) (Arr.ofList [(3 : ℝ), 4]))
          = norm2 Real.sqrt 2 (Arr.ofList [(3 : ℝ), 4])) :=
  ⟨isSqrt_real, one_pos,
    stepVector_Newton_clip Real.sqrt isSqrt_real 2 _ _ _ 1 one_pos⟩

/-- C5 (invalid step size).  `stepVector_Newton` ends with
`InvalidConfiguration` if and only if `maxStepSize ≤ 0`; it never ends with another
error, and for every `maxStepSize > 0` it returns. -/
theorem stepVector_Newton_invalid (sqrt : K → K) (nDim : Nat) (invH grad dR0 : Arr K)
    (maxStepSize : K) :
    ((∃ s, stepVector_Newton sqrt nDim invH grad maxStepSize dR0
        = Run.exit OptError.InvalidConfiguration s) ↔ maxStepSize ≤ 0) ∧
    (∀ e s, stepVector_Newton sqrt nDim invH grad maxStepSize dR0 = Run.exit e s →
        e = OptError.InvalidConfiguration) ∧
    (0 < maxStepSize →
      ∃ dR, stepVector_Newton sqrt nDim invH grad maxStepSize dR0 = Run.done dR) := by
  refine ⟨⟨?_, ?_⟩, ?_, ?_⟩
  · rintro ⟨s, hs⟩
    exact (stepVector_Newton_exit sqrt nDim invH grad dR0 maxStepSize _ s hs).2
  · intro hle
    unfold stepVector_Newton
    simp only [if_pos hle]
    exact ⟨_, rfl⟩
  · intro e s hs
    exact (stepVector_Newton_exit sqrt nDim invH grad dR0 maxStepSize e s hs).1
  · intro hpos
    obtain ⟨dR, hrun, _⟩ := stepVector_Newton_done sqrt nDim invH grad dR0 maxStepSize hpos
    exact ⟨dR, hrun⟩

end Newton

/-! ## Symmetry, positive definiteness and fixed points of the update -/

section Curvature

variable {K : Type} [LinearOrderedField K]

theorem matVecT_of_symmetric (n : Nat) (H v : Nat → K) (hs : IsSymmetric n H)
    (j : Nat) (hj : j < n) : matVecT n H v j = matVec n H v j := by
  unfold matVecT matVec
  exact sum_congr rfl (fun i hi => by rw [hs i j (mem_range.mp hi) hj])

/-- The rank-2 closed form of a symmetric matrix is symmetric. -/
theorem rank2Entry_symmetric (n : Nat) (dR dGrad H : Nat → K) (hs : IsSymmetric n H)
    (p q : Nat) (hp : p < n) (hq : q < n) :
    rank2Entry n dR dGrad H p q = rank2Entry n dR dGrad H q p := by
  unfold rank2Entry
  rw [matVecT_of_symmetric n H dGrad hs q hq, matVecT_of_symmetric n H dGrad hs p hp,
    hs p q hp hq]
  ring

theorem matVec_identity (n : Nat) (H v : Nat → K) (hI : IsIdentity n H)
    (i : Nat) (hi : i < n) : matVec n H v i = v i := by
  have h := newtonStep_identity n H v hI i hi
  unfold newtonStep at h
  exact neg_injective h

theorem isSymmetric_identity (n : Nat) (H : Nat → K) (hI : IsIdentity n H) :
    IsSymmetric n H := by
  intro i j hi hj
  rw [hI i j hi hj, hI j i hj hi]
  by_cases h : i = j
  · subst h
    rfl
  · have h' : ¬ j = i := fun e => h e.symm
    simp [h, h']

/-- A vector of length `n` that is not zero has a positive square. -/
theorem dot_self_pos (n : Nat) (x : Nat → K) (hx : ∃ i, i < n ∧ x i ≠ 0) :
    0 < dot n x x := by
  obtain ⟨i, hi, hne⟩ := hx
  have h1 : 0 < x i * x i := mul_self_pos.mpr hne
  have h2 : x i * x i ≤ dot n x x :=
    single_le_sum (f := fun i => x i * x i) (fun j _ => mul_self_nonneg (x j))
      (mem_range.mpr hi)
  exact lt_of_lt_of_le h1 h2

theorem isPosDef_identity (n : Nat) (H : Nat → K) (hI : IsIdentity n H) :
    IsPosDef n H := by
  intro x hx
  have h : dot n x (matVec n H x) = dot n x x :=
    dot_congr n _ _ _ _ (fun _ _ => rfl) (fun i hi => matVec_identity n H x hI i hi)
  rw [h]
  exact dot_self_pos n x hx

/-- Row `p` of `B·H·Bᵗ + dR⊗dR/α` applied to a vector `x`, in terms of
`y = Bᵗ·x = x − dGrad·(dR·x)/α`. -/
theorem bfgsEntry_mulVec (n : Nat) (dR dGrad H x : Nat → K) (p : Nat) (hp : p < n) :
    ∑ q ∈ range n, bfgsEntry n dR dGrad H p q * x q
      = matVec n H (fun j => x j - dGrad j / dot n dR dGrad * dot n dR x) p
        - dR p / dot n dR dGrad
            * dot n dGrad
                (matVec n H (fun j => x j - dGrad j / dot n dR dGrad * dot n dR x))
        + dR p / dot n dR dGrad * dot n dR x := by
  have hy : ∀ j, j < n → ∑ q ∈ range n, bfgsB dR dGrad (dot n dR dGrad) q j * x q
      = x j - dGrad j / dot n dR dGrad * dot n dR x :=
    fun j hj => sum_bfgsB_col n dR dGrad _ x j hj
  have h1 : ∀ q ∈ range n, bfgsEntry n dR dGrad H p q * x q
      = (∑ i ∈ range n, ∑ j ∈ range n, bfgsB dR dGrad (dot n dR dGrad) p i
            * H (i * n + j) * (bfgsB dR dGrad (dot n dR dGrad) q j * x q))
        + dR p / dot n dR dGrad * (dR q * x q) := by
    intro q _
    unfold bfgsEntry
    rw [add_mul, sum_mul]
    congr 1
    · refine sum_congr rfl (fun i _ => ?_)
      rw [sum_mul]
      refine sum_congr rfl (fun j _ => ?_)
      ring
    · ring
  rw [sum_congr rfl h1, sum_add_distrib, ← mul_sum]
  have h2 : ∑ q ∈ range n, ∑ i ∈ range n, ∑ j ∈ range n,
        bfgsB dR dGrad (dot n dR dGrad) p i * H (i * n + j)
          * (bfgsB dR dGrad (dot n dR dGrad) q j * x q)
      = ∑ i ∈ range n, bfgsB dR dGrad (dot n dR dGrad) p i
          * matVec n H (fun j => x j - dGrad j / dot n dR dGrad * dot n dR x) i := by
    rw [sum_comm]
    refine sum_congr rfl (fun i _ => ?_)
    rw [sum_comm]
    unfold matVec
    rw [mul_sum]
    refine sum_congr rfl (fun j hj => ?_)
    rw [← mul_sum, hy j (mem_range.mp hj)]
    ring
  rw [h2, sum_bfgsB_row n dR dGrad _ _ p hp]
  rfl

/-- The quadratic form of `B·H·Bᵗ + dR⊗dR/α`:
`xᵗ·H'·x = yᵗ·H·y + (dR·x)²/α` with `y = x − dGrad·(dR·x)/α`. -/
theorem bfgs_quadratic_form (n : Nat) (dR dGrad H H' x : Nat → K)
    (hin : ∀ p q, p < n → q < n → H' (p * n + q) = bfgsEntry n dR dGrad H p q) :
    dot n x (matVec n H' x)
      = dot n (fun j => x j - dGrad j / dot n dR dGrad * dot n dR x)
          (matVec n H (fun j => x j - dGrad j / dot n dR dGrad * dot n dR x))
        + dot n dR x * dot n dR x / dot n dR dGrad := by
  have hrow : ∀ p ∈ range n, x p * matVec n H' x p
      = x p * matVec n H (fun j => x j - dGrad j / dot n dR dGrad * dot n dR x) p
        - dot n dGrad (matVec n H (fun j => x j - dGrad j / dot n dR dGrad * dot n dR x))
            / dot n dR dGrad * (dR p * x p)
        + dot n dR x / dot n dR dGrad * (dR p * x p) := by
    intro p hp
    have hp' : p < n := mem_range.mp hp
    have hm : matVec n H' x p = ∑ q ∈ range n, bfgsEntry n dR dGrad H p q * x q :=
      sum_congr rfl (fun q hq => by rw [hin p q hp' (mem_range.mp hq)])
    rw [hm, bfgsEntry_mulVec n dR dGrad H x p hp']
    ring
  have hL : dot n x (matVec n H' x)
      = dot n x (matVec n H (fun j => x j - dGrad j / dot n dR dGrad * dot n dR x))
        - dot n dGrad (matVec n H (fun j => x j - dGrad j / dot n dR dGrad * dot n dR x))
            / dot n dR dGrad * dot n dR x
        + dot n dR x / dot n dR dGrad * dot n dR x := by
    unfold dot
    rw [sum_congr rfl hrow, sum_add_distrib, sum_sub_distrib, ← mul_sum, ← mul_sum]
    rfl
  have hR : dot n (fun j => x j - dGrad j / dot n dR dGrad * dot n dR x)
        (matVec n H (fun j => x j - dGrad j / dot n dR dGrad * dot n dR x))
      = dot n x (matVec n H (fun j => x j - dGrad j / dot n dR dGrad * dot n dR x))
        - dot n dR x / dot n dR dGrad
            * dot n dGrad
                (matVec n H (fun j => x j - dGrad j / dot n dR dGrad * dot n dR x)) := by
    unfold dot
    rw [mul_sum, ← sum_sub_distrib]
    refine sum_congr rfl (fun p _ => ?_)
    ring
  rw [hL, hR]
  ring

/-- The matrix `B·H·Bᵗ + dR⊗dR/α` is positive definite when `H` is and `α > 0`. -/
theorem bfgs_posdef (n : Nat) (dR dGrad H H' : Nat → K) (hpd : IsPosDef n H)
    (hpos : 0 < dot n dR dGrad)
    (hin : ∀ p q, p < n → q < n → H' (p * n + q) = bfgsEntry n dR dGrad H p q) :
    IsPosDef n H' := by
  intro x hx
  rw [bfgs_quadratic_form n dR dGrad H H' x hin]
  have hsq : 0 ≤ dot n dR x * dot n dR x / dot n dR dGrad :=
    div_nonneg (mul_self_nonneg _) (le_of_lt hpos)
  by_cases hy : ∃ j, j < n ∧ x j - dGrad j / dot n dR dGrad * dot n dR x ≠ 0
  · exact add_pos_of_pos_of_nonneg
      (hpd (fun j => x j - dGrad j / dot n dR dGrad * dot n dR x) hy) hsq
  · have hy0 : ∀ j, j < n → x j - dGrad j / dot n dR dGrad * dot n dR x = 0 := by
      intro j hj
      by_contra hne
      exact hy ⟨j, hj, hne⟩
    have hc : dot n dR x ≠ 0 := by
      intro hc
      obtain ⟨i, hi, hne⟩ := hx
      have := hy0 i hi
      rw [hc, mul_zero, sub_zero] at this
      exact hne this
    have hzero : dot n (fun j => x j - dGrad j / dot n dR dGrad * dot n dR x)
        (matVec n H (fun j => x j - dGrad j / dot n dR dGrad * dot n dR x)) = 0 := by
      unfold dot
      refine sum_eq_zero (fun p hp => ?_)
      show (x p - dGrad p / dot n dR dGrad * dot n dR x) * _ = 0
      rw [hy0 p (mem_range.mp hp), zero_mul]
    rw [hzero, zero_add]
    exact div_pos (mul_self_pos.mpr hc) hpos

/-- The quadratic form of `B·H·Bᵗ + dR⊗dR/α` at `dGrad` is `α`. -/
theorem bfgs_quadratic_dGrad (n : Nat) (dR dGrad H H' : Nat → K)
    (h : dot n dR dGrad ≠ 0)
    (hin : ∀ p q, p < n → q < n → H' (p * n + q) = bfgsEntry n dR dGrad H p q) :
    dot n dGrad (matVec n H' dGrad) = dot n dR dGrad := by
  unfold dot
  refine sum_congr rfl (fun p hp => ?_)
  have hm : matVec n H' dGrad p = ∑ q ∈ range n, bfgsEntry n dR dGrad H p q * dGrad q :=
    sum_congr rfl (fun q hq => by rw [hin p q (mem_range.mp hp) (mem_range.mp hq)])
  rw [hm]
  have hs : ∑ q ∈ range n, bfgsEntry n dR dGrad H p q * dGrad q = dR p := by
    rw [bfgsEntry_mulVec n dR dGrad H dGrad p (mem_range.mp hp)]
    have hy : (fun j => dGrad j - dGrad j / dot n dR dGrad * dot n dR dGrad)
        = fun _ => (0 : K) := by
      funext j
      field_simp
    rw [hy]
    have hz : ∀ i, matVec n H (fun _ => (0 : K)) i = 0 := by
      intro i
      unfold matVec
      exact sum_eq_zero (fun j _ => mul_zero _)
    have hd : dot n dGrad (matVec n H (fun _ => (0 : K))) = 0 := by
      unfold dot
      exact sum_eq_zero (fun i _ => by rw [hz i, mul_zero])
    rw [hz, hd]
    field_simp
  rw [hs]
  ring

/-- A vector whose scalar product with another one is not zero is not zero. -/
theorem exists_ne_zero_of_dot (n : Nat) (u v : Nat → K) (h : dot n u v ≠ 0) :
    ∃ i, i < n ∧ v i ≠ 0 := by
  by_contra hno
  apply h
  unfold dot
  refine sum_eq_zero (fun i hi => ?_)
  have : v i = 0 := by
    by_contra hne
    exact hno ⟨i, mem_range.mp hi, hne⟩
  rw [this, mul_zero]

/-- The function `invHessian_BFGS` in terms of its locals `alpha` and `B`. -/
theorem invHessian_BFGS_locals (nDim : Nat) (dR dGrad H : Arr K) :
    invHessian_BFGS nDim dR dGrad H =
      if invHessian_BFGS_alpha nDim dR dGrad = 0 then Run.exit OptError.DegenerateUpdate H
      else
        Run.done (forLoop nDim (fun i invHessian => forLoop nDim (fun j invHessian =>
          setAt invHessian (i * nDim + j)
            (forLoop nDim (fun p G => forLoop nDim (fun q G =>
              let G := setAt G (p * nDim + q) 0
              let G := forLoop nDim (fun i G => forLoop nDim (fun j G =>
                setAt G (p * nDim + q)
                  (G (p * nDim + q)
                    + invHessian_BFGS_B nDim dR dGrad (invHessian_BFGS_alpha nDim dR dGrad)
                        (p * nDim + i)
                      * invHessian_BFGS_B nDim dR dGrad (invHessian_BFGS_alpha nDim dR dGrad)
                        (q * nDim + j)
                      * H (i * nDim + j)))
                G) G
              setAt G (p * nDim + q)
                (G (p * nDim + q) + dR p * dR q / invHessian_BFGS_alpha nDim dR dGrad)) G)
              (calloc (nDim * nDim)) (i * nDim + j))) invHessian) H) :=
  rfl

/-- The entries of the buffer `B`. -/
theorem invHessian_BFGS_B_get (n : Nat) (dR dGrad : Arr K) (alpha : K) (i j : Nat)
    (hi : i < n) (hj : j < n) :
    invHessian_BFGS_B n dR dGrad alpha (i * n + j) = bfgsB dR dGrad alpha i j := by
  have hB : invHessian_BFGS_B n dR dGrad alpha
      = forLoop n (fun i B => forLoop n (fun j B =>
          setAt B (i * n + j) (bfgsB dR dGrad alpha i j)) B) (calloc (n * n)) := by
    unfold invHessian_BFGS_B
    congr 1
    funext i B
    congr 1
    funext j B
    unfold bfgsB
    by_cases hij : i = j
    · simp [hij]
    · simp only [if_neg hij]
      congr 1
      ring
  rw [hB, forLoop_fill_get n n _ _ i j hi hj]

/-- The update leaves the identity alone when `dR = dGrad` is not the zero
vector. -/
theorem invHessian_BFGS_identity (n : Nat) (dR dGrad H : Arr K) (hI : IsIdentity n H)
    (heq : ∀ i, i < n → dR i = dGrad i) (hne : ∃ i, i < n ∧ dGrad i ≠ 0) :
    invHessian_BFGS n dR dGrad H = Run.done H := by
  have hdot : dot n dR dGrad = dot n dGrad dGrad :=
    dot_congr n _ _ _ _ heq (fun _ _ => rfl)
  have h : dot n dR dGrad ≠ 0 := by
    rw [hdot]
    exact ne_of_gt (dot_self_pos n dGrad hne)
  refine invHessian_BFGS_fixed_point n dR dGrad H h (fun i hi => ?_) (fun j hj => ?_)
  · rw [matVec_identity n H dGrad hI i hi, heq i hi]
  · rw [matVecT_of_symmetric n H dGrad (isSymmetric_identity n H hI) j hj,
      matVec_identity n H dGrad hI j hj, heq j hj]

/-- C13 (closed-form check).  For `n = 2`, `dR = dGrad = (1, 0)` and `H` the
identity, `invHessian_BFGS` computes `alpha = 1` and `B = [[0, 0], [0, 1]]`, and
returns with `invHessian` unchanged, the identity.  For every `n`, whenever `H`
is the identity and `dR = dGrad` is not the zero vector, `invHessian_BFGS`
returns with `invHessian` unchanged, the identity. -/
theorem invHessian_BFGS_closed_form :
    (invHessian_BFGS_alpha 2 (Arr.ofList [(1 : K), 0]) (Arr.ofList [(1 : K), 0]) = 1 ∧
      (∀ k, k < 4 →
        invHessian_BFGS_B 2 (Arr.ofList [(1 : K), 0]) (Arr.ofList [(1 : K), 0])
            (invHessian_BFGS_alpha 2 (Arr.ofList [(1 : K), 0]) (Arr.ofList [(1 : K), 0])) k
          = (Arr.ofList [(0 : K), 0, 0, 1]) k) ∧
      invHessian_BFGS 2 (Arr.ofList [(1 : K), 0]) (Arr.ofList [(1 : K), 0])
          (Arr.ofList [(1 : K), 0, 0, 1])
        = Run.done (Arr.ofList [(1 : K), 0, 0, 1]) ∧
      IsIdentity 2 (Arr.ofList [(1 : K), 0, 0, 1])) ∧
    (∀ (n : Nat) (dR dGrad H : Arr K), IsIdentity n H →
      (∀ i, i < n → dR i = dGrad i) → (∃ i, i < n ∧ dGrad i ≠ 0) →
      invHessian_BFGS n dR dGrad H = Run.done H ∧ IsIdentity n H) := by
  have hI : IsIdentity 2 (Arr.ofList [(1 : K), 0, 0, 1]) := by
    intro i j hi hj
    interval_cases i <;> interval_cases j <;> simp [Arr.ofList]
  have ha : invHessian_BFGS_alpha 2 (Arr.ofList [(1 : K), 0]) (Arr.ofList [(1 : K), 0]) = 1 := by
    simp [invHessian_BFGS_alpha, forLoop, Arr.ofList]
  refine ⟨⟨ha, ?_, ?_, hI⟩, fun n dR dGrad H hI heq hne =>
    ⟨invHessian_BFGS_identity n dR dGrad H hI heq hne, hI⟩⟩
  · intro k hk
    rw [ha]
    have h00 := invHessian_BFGS_B_get 2 (Arr.ofList [(1 : K), 0]) (Arr.ofList [(1 : K), 0]) 1
      0 0 (by decide) (by decide)
    have h01 := invHessian_BFGS_B_get 2 (Arr.ofList [(1 : K), 0]) (Arr.ofList [(1 : K), 0]) 1
      0 1 (by decide) (by decide)
    have h10 := invHessian_BFGS_B_get 2 (Arr.ofList [(1 : K), 0]) (Arr.ofList [(1 : K), 0]) 1
      1 0 (by decide) (by decide)
    have h11 := invHessian_BFGS_B_get 2 (Arr.ofList [(1 : K), 0]) (Arr.ofList [(1 : K), 0]) 1
      1 1 (by decide) (by decide)
    interval_cases k
    · rw [show (0 : Nat) = 0 * 2 + 0 from rfl, h00]
      simp [bfgsB, Arr.ofList]
    · rw [show (1 : Nat) = 0 * 2 + 1 from rfl, h01]
      simp [bfgsB, Arr.ofList]
    · rw [show (2 : Nat) = 1 * 2 + 0 from rfl, h10]
      simp [bfgsB, Arr.ofList]
    · rw [show (3 : Nat) = 1 * 2 + 1 from rfl, h11]
      simp [bfgsB, Arr.ofList]
  · exact invHessian_BFGS_identity 2 _ _ _ hI (fun _ _ => rfl)
      ⟨0, by decide, by simp [Arr.ofList]⟩

/-- The matrix that `invHessian_BFGS` writes is symmetric when `H` is. -/
theorem invHessian_BFGS_keeps_symmetric (n : Nat) (dR dGrad H H' : Arr K)
    (hs : IsSymmetric n H) (hrun : invHessian_BFGS n dR dGrad H = Run.done H') :
    IsSymmetric n H' := by
  have h : dot n dR dGrad ≠ 0 := by
    intro h0
    rw [invHessian_BFGS_zero n dR dGrad H h0] at hrun
    cases hrun
  obtain ⟨H2, hrun2, hin, _⟩ := invHessian_BFGS_done n dR dGrad H h
  rw [hrun] at hrun2
  cases hrun2
  intro i j hi hj
  rw [hin i j hi hj, hin j i hj hi, bfgsEntry_eq_rank2 n dR dGrad H h i j hi hj,
    bfgsEntry_eq_rank2 n dR dGrad H h j i hj hi]
  exact rank2Entry_symmetric n dR dGrad H hs i j hi hj

/-- For a positive definite `H` the Newton step that `stepVector_Newton` returns,
clipped or not, is a descent direction. -/
theorem stepVector_Newton_descent (sqrt : K → K) (n : Nat) (H g dR0 : Arr K)
    (maxStepSize : K) (hpd : IsPosDef n H) (hg : ∃ i, i < n ∧ g i ≠ 0)
    (hpos : 0 < maxStepSize) :
    dot n g (newtonStep n H g) < 0 ∧
    ∃ step : Arr K, stepVector_Newton sqrt n H g maxStepSize dR0 = Run.done step ∧
      dot n g step < 0 := by
  have hu : dot n g (newtonStep n H g) < 0 := by
    have h1 : dot n g (newtonStep n H g) = -dot n g (matVec n H g) := by
      unfold dot newtonStep
      rw [← sum_neg_distrib]
      exact sum_congr rfl (fun i _ => by ring)
    rw [h1]
    exact neg_neg_of_pos (hpd g hg)
  refine ⟨hu, ?_⟩
  obtain ⟨step, hrun, hget⟩ := stepVector_Newton_done sqrt n H g dR0 maxStepSize hpos
  refine ⟨step, hrun, ?_⟩
  by_cases hgt : norm2 sqrt n (newtonStep n H g) > maxStepSize
  · have hr : 0 < norm2 sqrt n (newtonStep n H g) := lt_trans hpos hgt
    have h2 : dot n g step
        = maxStepSize / norm2 sqrt n (newtonStep n H g) * dot n g (newtonStep n H g) := by
      unfold dot
      rw [mul_sum]
      refine sum_congr rfl (fun i hi => ?_)
      rw [hget i, if_pos (mem_range.mp hi), if_pos hgt]
      ring
    rw [h2]
    exact mul_neg_of_pos_of_neg (div_pos hpos hr) hu
  · have h2 : dot n g step = dot n g (newtonStep n H g) :=
      dot_congr n _ _ _ _ (fun _ _ => rfl)
        (fun i hi => by rw [hget i, if_pos hi, if_neg hgt])
    rw [h2]
    exact hu

/-- C18 (positive definiteness).  If `xᵗ·H·x > 0` for every `x ≠ 0` and
`α = dR·dGrad > 0`, the matrix `H'` that `invHessian_BFGS` writes satisfies
`xᵗ·H'·x > 0` for every `x ≠ 0`, and for every `g ≠ 0` the Newton step `−H'·g`
and the step `stepVector_Newton` returns (clipped or not) have `g·step < 0`.  If
`α < 0`, then `dGradᵗ·H'·dGrad = α < 0` and `H'` is not positive definite,
whatever `H` is. -/
theorem invHessian_BFGS_posdef (sqrt : K → K) (nDim : Nat) (dR dGrad H : Arr K) :
    (IsPosDef nDim H → 0 < dot nDim dR dGrad →
      ∃ H' : Arr K, invHessian_BFGS nDim dR dGrad H = Run.done H' ∧ IsPosDef nDim H' ∧
        ∀ (g dR0 : Arr K) (maxStepSize : K), (∃ i, i < nDim ∧ g i ≠ 0) → 0 < maxStepSize →
          dot nDim g (newtonStep nDim H' g) < 0 ∧
          ∃ step : Arr K, stepVector_Newton sqrt nDim H' g maxStepSize dR0 = Run.done step ∧
            dot nDim g step < 0) ∧
    (dot nDim dR dGrad < 0 →
      ∃ H' : Arr K, invHessian_BFGS nDim dR dGrad H = Run.done H' ∧
        dot nDim dGrad (matVec nDim H' dGrad) = dot nDim dR dGrad ∧
        ¬ IsPosDef nDim H') := by
  constructor
  · intro hpd hpos
    obtain ⟨H', hrun, hin, _⟩ := invHessian_BFGS_done nDim dR dGrad H (ne_of_gt hpos)
    have hpd' : IsPosDef nDim H' := bfgs_posdef nDim dR dGrad H H' hpd hpos hin
    exact ⟨H', hrun, hpd', fun g dR0 m hg hm =>
      stepVector_Newton_descent sqrt nDim H' g dR0 m hpd' hg hm⟩
  · intro hneg
    obtain ⟨H', hrun, hin, _⟩ := invHessian_BFGS_done nDim dR dGrad H (ne_of_lt hneg)
    have hq := bfgs_quadratic_dGrad nDim dR dGrad H H' (ne_of_lt hneg) hin
    refine ⟨H', hrun, hq, fun hpd => ?_⟩
    have := hpd dGrad (exists_ne_zero_of_dot nDim dR dGrad (ne_of_lt hneg))
    rw [hq] at this
    exact lt_asymm hneg this

/-- The array `[1, 0, 0, 1]` holds the 2×2 identity. -/
theorem isIdentity_two : IsIdentity 2 (Arr.ofList [(1 : ℚ), 0, 0, 1]) := by
  intro i j hi hj
  interval_cases i <;> interval_cases j <;> simp [Arr.ofList]

/-- Witness for C18: the identity for `H`; `dR = (1, 2)` with `dGrad = (3, 1)`
(`α = 5`) for the first part and with `dGrad = (−3, −1)` (`α = −5`) for the
second. -/
theorem invHessian_BFGS_posdef_witness :
    (IsPosDef 2 (Arr.ofList [(1 : ℚ), 0, 0, 1]) ∧
      0 < dot 2 (Arr.ofList [(1 : ℚ), 2]) (Arr.ofList [(3 : ℚ), 1]) ∧
      ∃ H' : Arr ℚ, invHessian_BFGS 2 (Arr.ofList [1, 2]) (Arr.ofList [3, 1])
          (Arr.ofList [1, 0, 0, 1]) = Run.done H' ∧ IsPosDef 2 H' ∧
        ∀ (g dR0 : Arr ℚ) (maxStepSize : ℚ), (∃ i, i < 2 ∧ g i ≠ 0) → 0 < maxStepSize →
          dot 2 g (newtonStep 2 H' g) < 0 ∧
          ∃ step : Arr ℚ, stepVector_Newton Rat.sqrt 2 H' g maxStepSize dR0 = Run.done step ∧
            dot 2 g step < 0) ∧
    (dot 2 (Arr.ofList [(1 : ℚ), 2]) (Arr.ofList [(-3 : ℚ), -1]) < 0 ∧
      ∃ H' : Arr ℚ, invHessian_BFGS 2 (Arr.ofList [1, 2]) (Arr.ofList [-3, -1])
          (Arr.ofList [1, 0, 0, 1]) = Run.done H' ∧
        dot 2 (Arr.ofList [(-3 : ℚ), -1]) (matVec 2 H' (Arr.ofList [(-3 : ℚ), -1]))
          = dot 2 (Arr.ofList [(1 : ℚ), 2]) (Arr.ofList [(-3 : ℚ), -1]) ∧
        ¬ IsPosDef 2 H') :=
  ⟨⟨isPosDef_identity 2 _ isIdentity_two, by decide!,
      (invHessian_BFGS_posdef Rat.sqrt 2 (Arr.ofList [1, 2]) (Arr.ofList [3, 1])
        (Arr.ofList [1, 0, 0, 1])).1 (isPosDef_identity 2 _ isIdentity_two) (by decide!)⟩,
    ⟨by decide!,
      (invHessian_BFGS_posdef Rat.sqrt 2 (Arr.ofList [1, 2]) (Arr.ofList [-3, -1])
        (Arr.ofList [1, 0, 0, 1])).2 (by decide!)⟩⟩

end Curvature

/-! ## Removal of the translation -/

section Translation

variable {K : Type} [LinearOrderedField K]

/-- The averaging loop of `deleteTranslation` computes three sums. -/
theorem average_loop (N : Nat) (f0 f1 f2 : Nat → K) :
    forLoop N (fun i (d : K × K × K) => (d.1 + f0 i, d.2.1 + f1 i, d.2.2 + f2 i)) (0, 0, 0)
      = (∑ i ∈ range N, f0 i, ∑ i ∈ range N, f1 i, ∑ i ∈ range N, f2 i) := by
  induction N with
  | zero => simp [forLoop]
  | succ N ih => rw [forLoop_succ, ih, sum_range_succ, sum_range_succ, sum_range_succ]

/-- The shifting loop of `deleteTranslation` subtracts `d0`, `d1`, `d2` from the
x, y, z cells of the first `m` atoms. -/
theorem shift_loop (m : Nat) (d0 d1 d2 : K) (dR0 : Arr K) (k : Nat) :
    forLoop m (fun i dR =>
      setAt (setAt (setAt dR (i * 3 + 0) (dR (i * 3 + 0) - d0)) (i * 3 + 1)
        (setAt dR (i * 3 + 0) (dR (i * 3 + 0) - d0) (i * 3 + 1) - d1)) (i * 3 + 2)
        (setAt (setAt dR (i * 3 + 0) (dR (i * 3 + 0) - d0)) (i * 3 + 1)
          (setAt dR (i * 3 + 0) (dR (i * 3 + 0) - d0) (i * 3 + 1) - d1) (i * 3 + 2) - d2)) dR0 k
      = if k < m * 3 then
          dR0 k - (if k % 3 = 0 then d0 else if k % 3 = 1 then d1 else d2)
        else dR0 k := by
  induction m generalizing k with
  | zero => rfl
  | succ m ih =>
    rw [forLoop_succ]
    by_cases h2 : k = m * 3 + 2
    · subst h2
      have e1 : m * 3 + 2 ≠ m * 3 + 1 := by omega
      have e0 : m * 3 + 2 ≠ m * 3 + 0 := by omega
      have e3 : (m * 3 + 2) % 3 = 2 := by omega
      have e4 : m * 3 + 2 < (m + 1) * 3 := by omega
      have e5 : ¬ m * 3 + 2 < m * 3 := by omega
      simp only [setAt_same, setAt_other _ _ _ _ e1, setAt_other _ _ _ _ e0, ih, e3, e4, e5,
        if_true, if_false]
      simp
    · rw [setAt_other _ _ _ _ h2]
      by_cases h1 : k = m * 3 + 1
      · subst h1
        have e0 : m * 3 + 1 ≠ m * 3 + 0 := by omega
        have e3 : (m * 3 + 1) % 3 = 1 := by omega
        have e4 : m * 3 + 1 < (m + 1) * 3 := by omega
        have e5 : ¬ m * 3 + 1 < m * 3 := by omega
        simp only [setAt_same, setAt_other _ _ _ _ e0, ih, e3, e4, e5, if_true, if_false]
        simp
      · rw [setAt_other _ _ _ _ h1]
        by_cases h0 : k = m * 3 + 0
        · subst h0
          have e3 : (m * 3 + 0) % 3 = 0 := by omega
          have e4 : m * 3 + 0 < (m + 1) * 3 := by omega
          have e5 : ¬ m * 3 + 0 < m * 3 := by omega
          simp only [setAt_same, ih, e3, e4, e5, if_true, if_false]
        · rw [setAt_other _ _ _ _ h0, ih]
          by_cases hk : k < m * 3
          · have hk' : k < (m + 1) * 3 := by omega
            simp only [if_pos hk, if_pos hk']
          · have hk' : ¬ k < (m + 1) * 3 := by omega
            simp only [if_neg hk, if_neg hk']

/-- What `deleteTranslation` returns when `nDim` is a multiple of 3. -/
theorem deleteTranslation_done (nDim : Nat) (dR : Arr K) (h : nDim % 3 = 0) :
    ∃ dR' : Arr K, deleteTranslation nDim dR = Run.done dR' ∧
      ∀ k, dR' k =
        if k < nDim / 3 * 3 then dR k - axisMean (nDim / 3) dR (k % 3) else dR k := by
  unfold deleteTranslation
  have h' : ¬ nDim % 3 ≠ 0 := not_not.mpr h
  simp only [if_neg h']
  rw [average_loop]
  refine ⟨_, rfl, fun k => ?_⟩
  rw [shift_loop]
  by_cases hk : k < nDim / 3 * 3
  · simp only [if_pos hk]
    congr 1
    have hlt : k % 3 < 3 := Nat.mod_lt k (by norm_num)
    unfold axisMean
    by_cases c0 : k % 3 = 0
    · simp only [c0, if_true, sum_div]
    · by_cases c1 : k % 3 = 1
      · simp only [c1, if_true, sum_div]
        simp
      · have c2 : k % 3 = 2 := by omega
        simp only [c2, sum_div]
        simp
  · simp only [if_neg hk]

/-- C6 (translation removal).  `deleteTranslation` ends with
`DimensionMismatch` if and only if `nDim` is not a multiple of 3.  Otherwise it
returns; with `N = nDim/3` atoms, every cell `dR[3i+a]` (atom `i < N`, axis
`a < 3`) has been replaced by `dR[3i+a]` minus the arithmetic mean of axis `a`
over the `N` atoms, the cells beyond are untouched, and when `N ≥ 1` the mean of
every axis of the result is exactly 0. -/
theorem deleteTranslation_mean (nDim : Nat) (dR : Arr K) :
    ((∃ s, deleteTranslation nDim dR = Run.exit OptError.DimensionMismatch s)
        ↔ nDim % 3 ≠ 0) ∧
    (nDim % 3 = 0 →
      ∃ dR' : Arr K, deleteTranslation nDim dR = Run.done dR' ∧
        (∀ i a, i < nDim / 3 → a < 3 →
          dR' (i * 3 + a) = dR (i * 3 + a) - axisMean (nDim / 3) dR a) ∧
        (∀ k, nDim ≤ k → dR' k = dR k) ∧
        (1 ≤ nDim / 3 → ∀ a, a < 3 → axisMean (nDim / 3) dR' a = 0)) := by
  have hdone : nDim % 3 = 0 →
      ∃ dR' : Arr K, deleteTranslation nDim dR = Run.done dR' ∧
        (∀ i a, i < nDim / 3 → a < 3 →
          dR' (i * 3 + a) = dR (i * 3 + a) - axisMean (nDim / 3) dR a) ∧
        (∀ k, nDim ≤ k → dR' k = dR k) ∧
        (1 ≤ nDim / 3 → ∀ a, a < 3 → axisMean (nDim / 3) dR' a = 0) := by
    intro h
    obtain ⟨dR', hrun, hget⟩ := deleteTranslation_done nDim dR h
    have hcell : ∀ i a, i < nDim / 3 → a < 3 →
        dR' (i * 3 + a) = dR (i * 3 + a) - axisMean (nDim / 3) dR a := by
      intro i a hi ha
      have h1 : i * 3 + a < nDim / 3 * 3 := by omega
      have h2 : (i * 3 + a) % 3 = a := by omega
      rw [hget, if_pos h1, h2]
    refine ⟨dR', hrun, hcell, ?_, ?_⟩
    · intro k hk
      have h1 : ¬ k < nDim / 3 * 3 := by omega
      rw [hget, if_neg h1]
    · intro hN a ha
      have hN0 : ((nDim / 3 : Nat) : K) ≠ 0 := by
        have : 0 < nDim / 3 := hN
        exact_mod_cast (Nat.pos_iff_ne_zero.mp this)
      have hsum : ∑ i ∈ range (nDim / 3), dR' (i * 3 + a)
          = ∑ i ∈ range (nDim / 3), (dR (i * 3 + a) - axisMean (nDim / 3) dR a) :=
        sum_congr rfl (fun i hi => hcell i a (mem_range.mp hi) ha)
      show (∑ i ∈ range (nDim / 3), dR' (i * 3 + a)) / ((nDim / 3 : Nat) : K) = 0
      rw [hsum, sum_sub_distrib, sum_const, card_range, nsmul_eq_mul]
      unfold axisMean
      field_simp
  refine ⟨⟨?_, ?_⟩, hdone⟩
  · rintro ⟨s, hsx⟩ h0
    obtain ⟨dR', hd, _⟩ := hdone h0
    rw [hd] at hsx
    cases hsx
  · intro hne
    unfold deleteTranslation
    simp only [if_pos hne]
    exact ⟨_, rfl⟩

end Translation

/-! ## The convergence test -/

section Convergence

variable {K : Type} [LinearOrderedField K]

theorem runMax_nonneg (v : Nat → K) (m : Nat) : 0 ≤ runMax v m := by
  cases m with
  | zero => exact le_refl 0
  | succ m => exact le_max_of_le_right (abs_nonneg (v m))

/-- For a vector of length `n ≥ 1` the running maximum is the largest absolute
component. -/
theorem runMax_eq_maxAbs (v : Nat → K) (n : Nat) (hn : 0 < n) :
    runMax v n = maxAbs n hn v := by
  unfold maxAbs
  apply le_antisymm
  · have h : ∀ m, 0 < m → ∃ i, i < m ∧ runMax v m = |v i| := by
      intro m
      induction m with
      | zero => intro h0; omega
      | succ m ih =>
        intro _
        by_cases hm : 0 < m
        · obtain ⟨i, hi, he⟩ := ih hm
          rcases max_cases (runMax v m) |v m| with ⟨h1, _⟩ | ⟨h1, _⟩
          · exact ⟨i, by omega, by show max (runMax v m) |v m| = |v i|; rw [h1, he]⟩
          · exact ⟨m, by omega, h1⟩
        · have hm0 : m = 0 := by omega
          subst hm0
          exact ⟨0, by omega, max_eq_right (abs_nonneg (v 0))⟩
    obtain ⟨i, hi, he⟩ := h n hn
    rw [he]
    exact le_sup' (fun i => |v i|) (mem_range.mpr hi)
  · apply sup'_le
    intro i hi
    have h : ∀ m, i < m → |v i| ≤ runMax v m := by
      intro m
      induction m with
      | zero => intro h0; omega
      | succ m ih =>
        intro him
        by_cases hlt : i < m
        · exact le_max_of_le_left (ih hlt)
        · have : i = m := by omega
          subst this
          exact le_max_right _ _
    exact h n (mem_range.mp hi)

/-- The state of the convergence loop after `m` passes. -/
theorem criteria_loop (m : Nat) (G dR : Arr K) :
    forLoop m (fun i (c : Criteria K) =>
      { force_max := (if |dR i| > (if |G i| > c.force_max then
            { c with force_max := |G i| } else c).step_max then
          { (if |G i| > c.force_max then { c with force_max := |G i| } else c) with
            step_max := |dR i| }
          else (if |G i| > c.force_max then { c with force_max := |G i| } else c)).force_max
        force_rms := (if |dR i| > (if |G i| > c.force_max then
            { c with force_max := |G i| } else c).step_max then
          { (if |G i| > c.force_max then { c with force_max := |G i| } else c) with
            step_max := |dR i| }
          else (if |G i| > c.force_max then { c with force_max := |G i| } else c)).force_rms
            + G i * G i
        step_max := (if |dR i| > (if |G i| > c.force_max then
            { c with force_max := |G i| } else c).step_max then
          { (if |G i| > c.force_max then { c with force_max := |G i| } else c) with
            step_max := |dR i| }
          else (if |G i| > c.force_max then { c with force_max := |G i| } else c)).step_max
        step_rms := (if |dR i| > (if |G i| > c.force_max then
            { c with force_max := |G i| } else c).step_max then
          { (if |G i| > c.force_max then { c with force_max := |G i| } else c) with
            step_max := |dR i| }
          else (if |G i| > c.force_max then { c with force_max := |G i| } else c)).step_rms
            + dR i * dR i })
      { force_max := 0, force_rms := 0, step_max := 0, step_rms := 0 }
    = { force_max := runMax G m, force_rms := ∑ i ∈ range m, G i * G i,
        step_max := runMax dR m, step_rms := ∑ i ∈ range m, dR i * dR i } := by
  induction m with
  | zero => simp [forLoop, runMax]
  | succ m ih =>
    rw [forLoop_succ, ih]
    have hG : (if |G m| > runMax (↑G) m then |G m| else runMax (↑G) m)
        = max (runMax (↑G) m) |G m| := by
      by_cases h : |G m| > runMax (↑G) m
      · rw [if_pos h, max_eq_right (le_of_lt h)]
      · rw [if_neg h, max_eq_left (not_lt.mp h)]
    have hR : (if |dR m| > runMax (↑dR) m then |dR m| else runMax (↑dR) m)
        = max (runMax (↑dR) m) |dR m| := by
      by_cases h : |dR m| > runMax (↑dR) m
      · rw [if_pos h, max_eq_right (le_of_lt h)]
      · rw [if_neg h, max_eq_left (not_lt.mp h)]
    by_cases h1 : |G m| > runMax (↑G) m <;> by_cases h2 : |dR m| > runMax (↑dR) m <;>
      simp [h1, h2, runMax, sum_range_succ, max_eq_right (le_of_lt _), max_eq_left (not_lt.mp _)]

/-- The four metrics `optimize` computes are the largest absolute component and
the root mean square of `G` and of `dR`. -/
theorem convergenceCriteria_eq (sqrt : K → K) (nDim : Nat) (hn : 0 < nDim) (G dR : Arr K) :
    convergenceCriteria sqrt nDim G dR
      = { force_max := maxAbs nDim hn G, force_rms := rms sqrt nDim G,
          step_max := maxAbs nDim hn dR, step_rms := rms sqrt nDim dR } := by
  unfold convergenceCriteria
  simp only []
  rw [criteria_loop, runMax_eq_maxAbs G nDim hn, runMax_eq_maxAbs dR nDim hn]
  rfl

/-- C3 (convergence verdict).  For a gradient `G` and a step `dR` of length
`n ≥ 1`, the loop-exit test of `optimize` declares convergence (the `do … while`
does not run again) if and only if `max_i |G[i]| ≤ OPT_CONV_FORCEMAX`,
`sqrt(Σ G[i]²/n) ≤ OPT_CONV_FORCERMS`, `max_i |dR[i]| ≤ OPT_CONV_DISPMAX` and
`sqrt(Σ dR[i]²/n) ≤ OPT_CONV_DISPRMS`.  Hence four metrics equal to their
thresholds give convergence, and one metric above its threshold gives none. -/
theorem convergence_verdict (c : Constants K) (sqrt : K → K) (nDim : Nat) (hn : 0 < nDim)
    (G dR : Arr K) :
    (¬ loopAgain c (convergenceCriteria sqrt nDim G dR) ↔
      maxAbs nDim hn G ≤ c.OPT_CONV_FORCEMAX ∧ rms sqrt nDim G ≤ c.OPT_CONV_FORCERMS ∧
      maxAbs nDim hn dR ≤ c.OPT_CONV_DISPMAX ∧ rms sqrt nDim dR ≤ c.OPT_CONV_DISPRMS) ∧
    (maxAbs nDim hn G = c.OPT_CONV_FORCEMAX ∧ rms sqrt nDim G = c.OPT_CONV_FORCERMS ∧
      maxAbs nDim hn dR = c.OPT_CONV_DISPMAX ∧ rms sqrt nDim dR = c.OPT_CONV_DISPRMS →
      ¬ loopAgain c (convergenceCriteria sqrt nDim G dR)) ∧
    (maxAbs nDim hn G > c.OPT_CONV_FORCEMAX ∨ rms sqrt nDim G > c.OPT_CONV_FORCERMS ∨
      maxAbs nDim hn dR > c.OPT_CONV_DISPMAX ∨ rms sqrt nDim dR > c.OPT_CONV_DISPRMS →
      loopAgain c (convergenceCriteria sqrt nDim G dR)) := by
  rw [convergenceCriteria_eq sqrt nDim hn G dR]
  unfold loopAgain
  refine ⟨?_, ?_, ?_⟩
  · simp only [not_or, not_lt, gt_iff_lt]
  · rintro ⟨h1, h2, h3, h4⟩
    simp only [not_or, not_lt, gt_iff_lt]
    exact ⟨le_of_eq h1, le_of_eq h2, le_of_eq h3, le_of_eq h4⟩
  · exact fun h => h

/-- Witness for C3: three components, over the rational numbers. -/
theorem convergence_verdict_witness :
    0 < 3 ∧
    ((¬ loopAgain exampleConstants
          (convergenceCriteria Rat.sqrt 3 (Arr.ofList [8, 0, 0]) (Arr.ofList [-1, 0, 0])) ↔
        maxAbs 3 (Nat.succ_pos 2) (Arr.ofList [(8 : ℚ), 0, 0])
            ≤ exampleConstants.OPT_CONV_FORCEMAX ∧
        rms Rat.sqrt 3 (Arr.ofList [(8 : ℚ), 0, 0]) ≤ exampleConstants.OPT_CONV_FORCERMS ∧
        maxAbs 3 (Nat.succ_pos 2) (Arr.ofList [(-1 : ℚ), 0, 0])
            ≤ exampleConstants.OPT_CONV_DISPMAX ∧
        rms Rat.sqrt 3 (Arr.ofList [(-1 : ℚ), 0, 0]) ≤ exampleConstants.OPT_CONV_DISPRMS) ∧
      (maxAbs 3 (Nat.succ_pos 2) (Arr.ofList [(8 : ℚ), 0, 0])
            = exampleConstants.OPT_CONV_FORCEMAX ∧
        rms Rat.sqrt 3 (Arr.ofList [(8 : ℚ), 0, 0]) = exampleConstants.OPT_CONV_FORCERMS ∧
        maxAbs 3 (Nat.succ_pos 2) (Arr.ofList [(-1 : ℚ), 0, 0])
            = exampleConstants.OPT_CONV_DISPMAX ∧
        rms Rat.sqrt 3 (Arr.ofList [(-1 : ℚ), 0, 0]) = exampleConstants.OPT_CONV_DISPRMS →
        ¬ loopAgain exampleConstants
          (convergenceCriteria Rat.sqrt 3 (Arr.ofList [8, 0, 0]) (Arr.ofList [-1, 0, 0]))) ∧
      (maxAbs 3 (Nat.succ_pos 2) (Arr.ofList [(8 : ℚ), 0, 0])
            > exampleConstants.OPT_CONV_FORCEMAX ∨
        rms Rat.sqrt 3 (Arr.ofList [(8 : ℚ), 0, 0]) > exampleConstants.OPT_CONV_FORCERMS ∨
        maxAbs 3 (Nat.succ_pos 2) (Arr.ofList [(-1 : ℚ), 0, 0])
            > exampleConstants.OPT_CONV_DISPMAX ∨
        rms Rat.sqrt 3 (Arr.ofList [(-1 : ℚ), 0, 0]) > exampleConstants.OPT_CONV_DISPRMS →
        loopAgain exampleConstants
          (convergenceCriteria Rat.sqrt 3 (Arr.ofList [8, 0, 0]) (Arr.ofList [-1, 0, 0])))) :=
  ⟨Nat.succ_pos 2,
    convergence_verdict exampleConstants Rat.sqrt 3 (Nat.succ_pos 2) _ _⟩

end Convergence

/-! ## The driver -/

section Driver

variable {K : Type} [LinearOrderedField K] {Orb : Type}

theorem updateGeometry_nAtom (dR : Arr K) (mol : Molecule_t K) :
    (updateGeometry dR mol).nAtom = mol.nAtom := by
  have h : ∀ n : Nat, (forLoop n (fun i (mol : Molecule_t K) =>
      let mol := { mol with x := setAt mol.x i (mol.x i + dR (i * 3 + 0)) }
      let mol := { mol with y := setAt mol.y i (mol.y i + dR (i * 3 + 1)) }
      { mol with z := setAt mol.z i (mol.z i + dR (i * 3 + 2)) }) mol).nAtom = mol.nAtom := by
    intro n
    induction n with
    | zero => rfl
    | succ n ih => rw [forLoop_succ]; exact ih
  exact h mol.nAtom

theorem preOracle_frame (c : Constants K) (s : OptState K Orb) :
    (preOracle c s).mol = s.mol ∧ (preOracle c s).orb = s.orb ∧
    (preOracle c s).nIter = s.nIter ∧ (preOracle c s).uhfCalls = s.uhfCalls ∧
    (preOracle c s).steps = s.steps ∧ (preOracle c s).savedSCFGuess = s.savedSCFGuess ∧
    (preOracle c s).nDim = s.nDim ∧ (preOracle c s).opt.optMax = s.opt.optMax ∧
    (preOracle c s).opt.SCFGuess
      = (if s.nIter > 0 then c.SCFGUESS_CACB else s.opt.SCFGuess) := by
  unfold preOracle
  by_cases h : s.nIter > 0 <;> simp [h]

/-- The block `scf calculation`: it ends the process exactly when the oracle
returns 0, and changes only `opt->SCFGuess`, `Etot`, the orbitals and the count of
oracle calls. -/
theorem scfCalculation_cases (c : Constants K) (o : Oracles K Orb) (s : OptState K Orb) :
    ∃ s', (scfCalculation c o s
        = (if oracleEnergy c o s = 0 then Run.exit OptError.OracleNonConvergence s'
           else Run.done s')) ∧
      s'.mol = s.mol ∧ s'.opt = (preOracle c s).opt ∧ s'.nIter = s.nIter ∧
      s'.uhfCalls = s.uhfCalls + 1 ∧ s'.steps = s.steps ∧
      s'.savedSCFGuess = s.savedSCFGuess ∧ s'.nDim = s.nDim := by
  obtain ⟨h1, h2, h3, h4, h5, h6, h7, _, _⟩ := preOracle_frame c s
  refine ⟨{ (preOracle c s) with
      Etot := (o.uhf (preOracle c s).mol (preOracle c s).opt (preOracle c s).orb).1
      orb := (o.uhf (preOracle c s).mol (preOracle c s).opt (preOracle c s).orb).2
      uhfCalls := (preOracle c s).uhfCalls + 1 }, ?_, h1, rfl, h3, ?_, h5, h6, h7⟩
  · rfl
  · show (preOracle c s).uhfCalls + 1 = s.uhfCalls + 1
    rw [h4]

theorem computeGradient_frame (o : Oracles K Orb) (s : OptState K Orb) :
    (computeGradient o s).mol = s.mol ∧ (computeGradient o s).opt = s.opt ∧
    (computeGradient o s).nIter = s.nIter ∧ (computeGradient o s).uhfCalls = s.uhfCalls ∧
    (computeGradient o s).steps = s.steps ∧
    (computeGradient o s).savedSCFGuess = s.savedSCFGuess ∧
    (computeGradient o s).nDim = s.nDim :=
  ⟨rfl, rfl, rfl, rfl, rfl, rfl, rfl⟩

/-- The block that updates the inverse Hessian changes only `invH`, and can end
the process only with `DegenerateUpdate`. -/
theorem updateInvHessian_cases (s : OptState K Orb) :
    ∃ s', (updateInvHessian s = Run.done s' ∨
        updateInvHessian s = Run.exit OptError.DegenerateUpdate s') ∧
      s'.mol = s.mol ∧ s'.opt = s.opt ∧ s'.nIter = s.nIter ∧
      s'.uhfCalls = s.uhfCalls ∧ s'.steps = s.steps ∧
      s'.savedSCFGuess = s.savedSCFGuess ∧ s'.nDim = s.nDim := by
  unfold updateInvHessian
  by_cases h : s.nIter > 0
  · simp only [if_pos h]
    cases hb : invHessian_BFGS s.nDim s.dR s.dG s.invH with
    | done invH => exact ⟨_, Or.inl rfl, rfl, rfl, rfl, rfl, rfl, rfl, rfl⟩
    | exit e invH =>
      have he := (invHessian_BFGS_exit s.nDim s.dR s.dG s.invH e invH hb).1
      subst he
      exact ⟨_, Or.inr rfl, rfl, rfl, rfl, rfl, rfl, rfl, rfl⟩
  · simp only [if_neg h]
    exact ⟨_, Or.inl rfl, rfl, rfl, rfl, rfl, rfl, rfl, rfl⟩

/-- The block that computes the step changes only `dR`, and can end the process
only with `InvalidConfiguration`. -/
theorem computeStep_cases (c : Constants K) (o : Oracles K Orb) (s : OptState K Orb) :
    ∃ s', (computeStep c o s = Run.done s' ∨
        computeStep c o s = Run.exit OptError.InvalidConfiguration s') ∧
      s'.mol = s.mol ∧ s'.opt = s.opt ∧ s'.nIter = s.nIter ∧
      s'.uhfCalls = s.uhfCalls ∧ s'.steps = s.steps ∧
      s'.savedSCFGuess = s.savedSCFGuess ∧ s'.nDim = s.nDim := by
  unfold computeStep
  cases hb : stepVector_Newton o.sqrt s.nDim s.invH s.G c.MAXSTEPSIZE s.dR with
  | done dR => exact ⟨_, Or.inl rfl, rfl, rfl, rfl, rfl, rfl, rfl, rfl⟩
  | exit e dR =>
    have he := (stepVector_Newton_exit o.sqrt s.nDim s.invH s.G s.dR c.MAXSTEPSIZE e dR hb).1
    subst he
    exact ⟨_, Or.inr rfl, rfl, rfl, rfl, rfl, rfl, rfl, rfl⟩

theorem finishIteration_frame (o : Oracles K Orb) (s : OptState K Orb) :
    (finishIteration o s).mol = updateGeometry s.dR s.mol ∧
    (finishIteration o s).opt = s.opt ∧
    (finishIteration o s).nIter = s.nIter + 1 ∧
    (finishIteration o s).uhfCalls = s.uhfCalls ∧
    (finishIteration o s).steps = s.steps + 1 ∧
    (finishIteration o s).savedSCFGuess = s.savedSCFGuess ∧
    (finishIteration o s).nDim = s.nDim :=
  ⟨rfl, rfl, rfl, rfl, rfl, rfl, rfl⟩

/-- What one pass through the body of the loop does to the variables the
theorems below are about. -/
theorem iterationCore_cases (c : Constants K) (o : Oracles K Orb) (s : OptState K Orb) :
    (∃ s', iterationCore c o s = Run.done s' ∧
        oracleEnergy c o s ≠ 0 ∧
        s'.nIter = s.nIter + 1 ∧ s'.uhfCalls = s.uhfCalls + 1 ∧ s'.steps = s.steps + 1 ∧
        s'.opt = (preOracle c s).opt ∧ s'.savedSCFGuess = s.savedSCFGuess ∧
        s'.nDim = s.nDim ∧ s'.mol.nAtom = s.mol.nAtom) ∨
    (∃ e s', iterationCore c o s = Run.exit e s' ∧
        e ≠ OptError.IterationBudgetExceeded ∧
        (oracleEnergy c o s = 0 ↔ e = OptError.OracleNonConvergence) ∧
        s'.nIter = s.nIter ∧ s'.uhfCalls = s.uhfCalls + 1 ∧ s'.steps = s.steps ∧
        s'.opt = (preOracle c s).opt ∧ s'.savedSCFGuess = s.savedSCFGuess ∧
        s'.nDim = s.nDim ∧ s'.mol = s.mol) := by
  obtain ⟨s1, hrun1, m1, o1, n1, u1, t1, g1, d1⟩ := scfCalculation_cases c o s
  unfold iterationCore
  by_cases hE : oracleEnergy c o s = 0
  · rw [if_pos hE] at hrun1
    right
    refine ⟨OptError.OracleNonConvergence, s1, ?_, by decide, ⟨fun _ => rfl, fun _ => hE⟩,
      n1, u1, t1, o1, g1, d1, m1⟩
    rw [hrun1]
    rfl
  · rw [if_neg hE] at hrun1
    rw [hrun1]
    obtain ⟨m2, o2, n2, u2, t2, g2, d2⟩ := computeGradient_frame o s1
    obtain ⟨s3, hrun3, m3, o3, n3, u3, t3, g3, d3⟩ :=
      updateInvHessian_cases (computeGradient o s1)
    rcases hrun3 with hrun3 | hrun3
    · obtain ⟨s4, hrun4, m4, o4, n4, u4, t4, g4, d4⟩ := computeStep_cases c o s3
      obtain ⟨m5, o5, n5, u5, t5, g5, d5⟩ := finishIteration_frame o s4
      rcases hrun4 with hrun4 | hrun4
      · left
        refine ⟨finishIteration o s4, ?_, hE, ?_, ?_, ?_, ?_, ?_, ?_, ?_⟩
        · show (updateInvHessian (computeGradient o s1)).andThen _ = _
          rw [hrun3]
          show (computeStep c o s3).andThen _ = _
          rw [hrun4]
          rfl
        · rw [n5, n4, n3, n2, n1]
        · rw [u5, u4, u3, u2, u1]
        · rw [t5, t4, t3, t2, t1]
        · rw [o5, o4, o3, o2, o1]
        · rw [g5, g4, g3, g2, g1]
        · rw [d5, d4, d3, d2, d1]
        · rw [m5, updateGeometry_nAtom, m4, m3, m2, m1]
      · right
        refine ⟨OptError.InvalidConfiguration, s4, ?_, by decide,
          ⟨fun h => absurd h hE, fun h => by cases h⟩, ?_, ?_, ?_, ?_, ?_, ?_, ?_⟩
        · show (updateInvHessian (computeGradient o s1)).andThen _ = _
          rw [hrun3]
          show (computeStep c o s3).andThen _ = _
          rw [hrun4]
          rfl
        · rw [n4, n3, n2, n1]
        · rw [u4, u3, u2, u1]
        · rw [t4, t3, t2, t1]
        · rw [o4, o3, o2, o1]
        · rw [g4, g3, g2, g1]
        · rw [d4, d3, d2, d1]
        · rw [m4, m3, m2, m1]
    · right
      refine ⟨OptError.DegenerateUpdate, s3, ?_, by decide,
        ⟨fun h => absurd h hE, fun h => by cases h⟩, ?_, ?_, ?_, ?_, ?_, ?_, ?_⟩
      · show (updateInvHessian (computeGradient o s1)).andThen _ = _
        rw [hrun3]
        rfl
      · rw [n3, n2, n1]
      · rw [u3, u2, u1]
      · rw [t3, t2, t1]
      · rw [o3, o2, o1]
      · rw [g3, g2, g1]
      · rw [d3, d2, d1]
      · rw [m3, m2, m1]

theorem iteration_done (c : Constants K) (o : Oracles K Orb) (s s' : OptState K Orb) :
    iteration c o s = Run.done s' ↔
      iterationCore c o s = Run.done s' ∧ ¬ ((s'.nIter : Int) > s'.opt.optMax) := by
  unfold iteration
  cases h : iterationCore c o s with
  | exit e s1 => simp
  | done s1 =>
    by_cases hb : (s1.nIter : Int) > s1.opt.optMax
    · simp only [if_pos hb]
      constructor
      · intro h1; cases h1
      · rintro ⟨h1, h2⟩
        cases h1
        exact absurd hb h2
    · simp only [if_neg hb]
      constructor
      · intro h1
        cases h1
        exact ⟨rfl, hb⟩
      · rintro ⟨h1, _⟩
        exact h1

theorem iteration_exit (c : Constants K) (o : Oracles K Orb) (s s' : OptState K Orb)
    (e : OptError) :
    iteration c o s = Run.exit e s' ↔
      iterationCore c o s = Run.exit e s' ∨
      (iterationCore c o s = Run.done s' ∧ (s'.nIter : Int) > s'.opt.optMax ∧
        e = OptError.IterationBudgetExceeded) := by
  unfold iteration
  cases h : iterationCore c o s with
  | exit e1 s1 => simp
  | done s1 =>
    by_cases hb : (s1.nIter : Int) > s1.opt.optMax
    · simp only [if_pos hb]
      constructor
      · intro h1
        cases h1
        exact Or.inr ⟨rfl, hb, rfl⟩
      · rintro (h1 | ⟨h1, _, h3⟩)
        · cases h1
        · cases h1
          rw [h3]
    · simp only [if_neg hb]
      constructor
      · intro h1; cases h1
      · rintro (h1 | ⟨h1, h2, _⟩)
        · cases h1
        · cases h1
          exact absurd h2 hb

/-- How pass `k + 1` is reached: pass `k` returned and the loop test asked for
another pass. -/
theorem loopHead_succ (c : Constants K) (o : Oracles K Orb) (mol : Molecule_t K)
    (opt : option_t) (orb0 : Orb) (k : Nat) (s' : OptState K Orb) :
    loopHead c o mol opt orb0 (k + 1) = some s' ↔
      ∃ s, loopHead c o mol opt orb0 k = some s ∧ iteration c o s = Run.done s' ∧
        loopAgain c s'.crit := by
  show (match loopHead c o mol opt orb0 k with
    | none => none
    | some s =>
      match iteration c o s with
      | Run.exit _ _ => none
      | Run.done s => if loopAgain c s.crit then some s else none) = some s' ↔ _
  cases h : loopHead c o mol opt orb0 k with
  | none => simp
  | some s =>
    show (match iteration c o s with
      | Run.exit _ _ => none
      | Run.done s => if loopAgain c s.crit then some s else none) = some s' ↔ _
    cases hi : iteration c o s with
    | exit e s1 =>
      constructor
      · intro h1; cases h1
      · rintro ⟨s2, h2, h3, _⟩
        cases h2
        rw [hi] at h3
        cases h3
    | done s1 =>
      show (if loopAgain c s1.crit then some s1 else none) = some s' ↔ _
      by_cases hl : loopAgain c s1.crit
      · simp only [if_pos hl]
        constructor
        · intro h1
          cases h1
          exact ⟨s, rfl, hi, hl⟩
        · rintro ⟨s2, h2, h3, _⟩
          cases h2
          rw [hi] at h3
          cases h3
          rfl
      · simp only [if_neg hl]
        constructor
        · intro h1; cases h1
        · rintro ⟨s2, h2, h3, h4⟩
          cases h2
          rw [hi] at h3
          cases h3
          exact absurd h4 hl

theorem initialState_inv (c : Constants K) (mol : Molecule_t K) (opt : option_t) (orb0 : Orb) :
    HeadInv c mol opt 0 (initialState mol opt orb0 : OptState K Orb) := by
  refine ⟨rfl, rfl, rfl, rfl, rfl, rfl, ?_, Nat.zero_le _, rfl, rfl⟩
  simp [initialState]

/-- One pass that returns and is followed by another takes the invariant of the
loop head from `k` to `k + 1`. -/
theorem HeadInv_step (c : Constants K) (o : Oracles K Orb) (mol : Molecule_t K)
    (opt : option_t) (k : Nat) (s s' : OptState K Orb) (hinv : HeadInv c mol opt k s)
    (hit : iteration c o s = Run.done s') : HeadInv c mol opt (k + 1) s' := by
  obtain ⟨hn, hu, ht, hg, hm, hmu, hq, hk, hd, ha⟩ := hinv
  obtain ⟨hcore, hb⟩ := (iteration_done c o s s').mp hit
  obtain ⟨_, _, _, _, _, _, _, hpm, hpg⟩ := preOracle_frame c s
  rcases iterationCore_cases c o s with ⟨s1, h1, _, n1, u1, t1, o1, g1, d1, a1⟩ |
    ⟨e, s1, h1, _⟩
  · rw [hcore] at h1
    cases h1
    have hmax : s'.opt.optMax = opt.optMax := by rw [o1, hpm, hm]
    refine ⟨by rw [n1, hn], by rw [u1, hu], by rw [t1, ht], by rw [g1, hg], hmax, ?_, ?_, ?_,
      by rw [d1, hd], by rw [a1, ha]⟩
    · rw [o1]
      unfold preOracle
      by_cases h0 : s.nIter > 0 <;> simp [h0, hmu]
    · rw [o1, hpg, hn, hq]
      by_cases h0 : k > 0
      · have h1 : ¬ k + 1 ≤ 1 := by omega
        simp [h0, h1]
      · have h1 : k + 1 ≤ 1 := by omega
        have h2 : k ≤ 1 := by omega
        simp [h0, h1, h2]
    · rw [n1, hn, hmax] at hb
      omega
  · rw [hcore] at h1
    cases h1

theorem loopHead_inv (c : Constants K) (o : Oracles K Orb) (mol : Molecule_t K)
    (opt : option_t) (orb0 : Orb) (k : Nat) (s : OptState K Orb)
    (h : loopHead c o mol opt orb0 k = some s) : HeadInv c mol opt k s := by
  induction k generalizing s with
  | zero =>
    have : s = initialState mol opt orb0 := by
      have h' : some (initialState mol opt orb0) = some s := h
      cases h'
      rfl
    rw [this]
    exact initialState_inv c mol opt orb0
  | succ k ih =>
    obtain ⟨s0, h0, hit, _⟩ := (loopHead_succ c o mol opt orb0 k s).mp h
    exact HeadInv_step c o mol opt k s0 s (ih s0 h0) hit

/-- The run from the start is the run from any loop head it reaches, with the
fuel that is left. -/
theorem optimizeLoop_from_head (c : Constants K) (o : Oracles K Orb) (mol : Molecule_t K)
    (opt : option_t) (orb0 : Orb) (k : Nat) (s : OptState K Orb)
    (h : loopHead c o mol opt orb0 k = some s) (fuel : Nat) :
    optimizeLoop c o (fuel + k) (initialState mol opt orb0) = optimizeLoop c o fuel s := by
  induction k generalizing s fuel with
  | zero =>
    have h' : some (initialState mol opt orb0) = some s := h
    cases h'
    rfl
  | succ k ih =>
    obtain ⟨s0, h0, hit, hl⟩ := (loopHead_succ c o mol opt orb0 k s).mp h
    have e1 : fuel + (k + 1) = (fuel + 1) + k := by omega
    rw [e1, ih s0 h0 (fuel + 1)]
    show (match iteration c o s0 with
      | Run.exit err s => some (Run.exit err s)
      | Run.done s => if loopAgain c s.crit then optimizeLoop c o fuel s
          else some (Run.done s)) = _
    rw [hit]
    simp only [if_pos hl]

/-- Every run of the loop ends in some pass: that pass either ends the process,
or returns with the loop test satisfied. -/
theorem optimizeLoop_outcome (c : Constants K) (o : Oracles K Orb) (mol : Molecule_t K)
    (opt : option_t) (orb0 : Orb) (f : Nat) :
    ∀ (k : Nat) (s : OptState K Orb), loopHead c o mol opt orb0 k = some s →
      k + f = opt.optMax.toNat + 1 → 1 ≤ f →
      ∃ k2 s2, loopHead c o mol opt orb0 k2 = some s2 ∧
        ((∃ e s', iteration c o s2 = Run.exit e s' ∧
            optimizeLoop c o f s = some (Run.exit e s')) ∨
         (∃ s', iteration c o s2 = Run.done s' ∧ ¬ loopAgain c s'.crit ∧
            optimizeLoop c o f s = some (Run.done s'))) := by
  induction f with
  | zero => intro k s _ _ h1; omega
  | succ f ih =>
    intro k s hk hf _
    have hstep : optimizeLoop c o (f + 1) s = (match iteration c o s with
      | Run.exit err s => some (Run.exit err s)
      | Run.done s => if loopAgain c s.crit then optimizeLoop c o f s
          else some (Run.done s)) := rfl
    cases hit : iteration c o s with
    | exit e s' =>
      refine ⟨k, s, hk, Or.inl ⟨e, s', hit, ?_⟩⟩
      rw [hstep, hit]
    | done s' =>
      by_cases hl : loopAgain c s'.crit
      · have hk' : loopHead c o mol opt orb0 (k + 1) = some s' :=
          (loopHead_succ c o mol opt orb0 k s').mpr ⟨s, hk, hit, hl⟩
        have hinv := loopHead_inv c o mol opt orb0 (k + 1) s' hk'
        have hle : k + 1 ≤ opt.optMax.toNat := hinv.2.2.2.2.2.2.2.1
        obtain ⟨k2, s2, h2, hres⟩ := ih (k + 1) s' hk' (by omega) (by omega)
        refine ⟨k2, s2, h2, ?_⟩
        rw [hstep, hit]
        simp only [if_pos hl]
        exact hres
      · refine ⟨k, s, hk, Or.inr ⟨s', hit, hl, ?_⟩⟩
        rw [hstep, hit]
        simp only [if_neg hl]

/-- Every run of `optimize` ends in some pass of the loop: either that pass ends
the process, or it returns with the loop test satisfied and `optimize` returns
after restoring the guess option. -/
theorem optimize_outcome (c : Constants K) (o : Oracles K Orb) (mol : Molecule_t K)
    (opt : option_t) (orb0 : Orb) :
    ∃ k s, loopHead c o mol opt orb0 k = some s ∧
      ((∃ e s', iteration c o s = Run.exit e s' ∧
          optimize c o mol opt orb0 = some (Run.exit e s')) ∨
       (∃ s', iteration c o s = Run.done s' ∧ ¬ loopAgain c s'.crit ∧
          optimize c o mol opt orb0 = some (Run.done (restoreGuess s')))) := by
  obtain ⟨k, s, hk, hres⟩ := optimizeLoop_outcome c o mol opt orb0 (opt.optMax.toNat + 1)
    0 (initialState mol opt orb0) rfl (by omega) (by omega)
  refine ⟨k, s, hk, ?_⟩
  rcases hres with ⟨e, s', hit, hrun⟩ | ⟨s', hit, hl, hrun⟩
  · refine Or.inl ⟨e, s', hit, ?_⟩
    unfold optimize
    rw [hrun]
  · refine Or.inr ⟨s', hit, hl, ?_⟩
    unfold optimize
    rw [hrun]

/-- The driver always comes to an end: the fuel `optMax + 1` of the model is never
exhausted. -/
theorem optimize_returns (c : Constants K) (o : Oracles K Orb) (mol : Molecule_t K)
    (opt : option_t) (orb0 : Orb) : ∃ r, optimize c o mol opt orb0 = some r := by
  obtain ⟨k, s, _, hres⟩ := optimize_outcome c o mol opt orb0
  rcases hres with ⟨e, s', _, hrun⟩ | ⟨s', _, _, hrun⟩
  · exact ⟨_, hrun⟩
  · exact ⟨_, hrun⟩

/-- The run of `optimize`, seen from a loop head it reaches. -/
theorem optimize_from_head (c : Constants K) (o : Oracles K Orb) (mol : Molecule_t K)
    (opt : option_t) (orb0 : Orb) (k : Nat) (s : OptState K Orb)
    (h : loopHead c o mol opt orb0 k = some s) :
    optimize c o mol opt orb0 =
      (match iteration c o s with
        | Run.exit err s => some (Run.exit err s)
        | Run.done s =>
          if loopAgain c s.crit then
            (match optimizeLoop c o (opt.optMax.toNat - k) s with
              | some (Run.done s) => some (Run.done (restoreGuess s))
              | r => r)
          else some (Run.done (restoreGuess s))) := by
  have hle : k ≤ opt.optMax.toNat := (loopHead_inv c o mol opt orb0 k s h).2.2.2.2.2.2.2.1
  have e1 : opt.optMax.toNat + 1 = (opt.optMax.toNat - k + 1) + k := by omega
  unfold optimize
  rw [e1, optimizeLoop_from_head c o mol opt orb0 k s h]
  show (match (match iteration c o s with
      | Run.exit err s => some (Run.exit err s)
      | Run.done s => if loopAgain c s.crit then optimizeLoop c o (opt.optMax.toNat - k) s
          else some (Run.done s)) with
    | some (Run.done s) => some (Run.done (restoreGuess s))
    | r => r) = _
  cases iteration c o s with
  | exit e s' => rfl
  | done s' =>
    by_cases hl : loopAgain c s'.crit
    · simp only [if_pos hl]
    · simp only [if_neg hl]

/-- C7 (oracle non-convergence).  If the run of `optimize` reaches pass number
`k` of the loop (counted from 0) and the energy oracle returns exactly 0 in that
pass, the process ends there with `OracleNonConvergence`; `mol` is what it was
when the pass started and only the `k` steps of the earlier passes have been
applied.  For `k = 0` the molecule is the one the caller supplied. -/
theorem optimize_oracle_nonconvergence (c : Constants K) (o : Oracles K Orb)
    (mol : Molecule_t K) (opt : option_t) (orb0 : Orb) (k : Nat) (s : OptState K Orb)
    (hk : loopHead c o mol opt orb0 k = some s) (hE : oracleEnergy c o s = 0) :
    ∃ s', optimize c o mol opt orb0 = some (Run.exit OptError.OracleNonConvergence s') ∧
      s'.mol = s.mol ∧ s'.steps = k ∧ (k = 0 → s'.mol = mol) := by
  have hinv := loopHead_inv c o mol opt orb0 k s hk
  rcases iterationCore_cases c o s with ⟨s1, _, hne, _⟩ |
    ⟨e, s1, h1, _, hiff, _, _, t1, _, _, _, m1⟩
  · exact absurd hE hne
  · have he : e = OptError.OracleNonConvergence := hiff.mp hE
    subst he
    have hit : iteration c o s = Run.exit OptError.OracleNonConvergence s1 :=
      (iteration_exit c o s s1 _).mpr (Or.inl h1)
    refine ⟨s1, ?_, m1, by rw [t1]; exact hinv.2.2.1, ?_⟩
    · rw [optimize_from_head c o mol opt orb0 k s hk, hit]
    · intro h0
      subst h0
      have h' : some (initialState mol opt orb0) = some s := hk
      cases h'
      rw [m1]
      rfl

/-- Witness for C7: the energy oracle returns 0 in the first pass (`k = 0`). -/
theorem optimize_oracle_nonconvergence_witness :
    loopHead exampleConstants failingOracles exampleMolecule (exampleOptions 5) () 0
        = some (initialState exampleMolecule (exampleOptions 5) ()) ∧
    oracleEnergy exampleConstants failingOracles
        (initialState exampleMolecule (exampleOptions 5) ()) = 0 ∧
    ∃ s', optimize exampleConstants failingOracles exampleMolecule (exampleOptions 5) ()
        = some (Run.exit OptError.OracleNonConvergence s') ∧
      s'.mol = (initialState exampleMolecule (exampleOptions 5) ()
        : OptState ℚ Unit).mol ∧
      s'.steps = 0 ∧ (0 = 0 → s'.mol = exampleMolecule) :=
  ⟨rfl, rfl,
    optimize_oracle_nonconvergence exampleConstants failingOracles exampleMolecule
      (exampleOptions 5) () 0 _ rfl rfl⟩

/-- C10 (guess option at the end of the run, as the code has it).  Every run of
`optimize` comes to an end.  When `optimize` returns, `opt->SCFGuess` is the value
it had on entry.  When the process ends at an `exit(-1)`, `opt->SCFGuess` is the
value on entry if that happens in the first pass of the loop, and `SCFGUESS_CACB`
if it happens in a later pass. -/
theorem optimize_guess_at_end (c : Constants K) (o : Oracles K Orb)
    (mol : Molecule_t K) (opt : option_t) (orb0 : Orb) :
    ∃ r, optimize c o mol opt orb0 = some r ∧
      (∀ s, r = Run.done s → s.opt.SCFGuess = opt.SCFGuess) ∧
      (∀ e s, r = Run.exit e s →
        s.opt.SCFGuess = if s.uhfCalls ≤ 1 then opt.SCFGuess else c.SCFGUESS_CACB) := by
  obtain ⟨k, s, hk, hres⟩ := optimize_outcome c o mol opt orb0
  obtain ⟨hn, hu, _, hg, _, _, hq, _, _, _⟩ := loopHead_inv c o mol opt orb0 k s hk
  obtain ⟨_, _, _, _, _, _, _, _, hpg⟩ := preOracle_frame c s
  have hguess : (preOracle c s).opt.SCFGuess
      = if k + 1 ≤ 1 then opt.SCFGuess else c.SCFGUESS_CACB := by
    rw [hpg, hn, hq]
    by_cases h0 : k > 0
    · have h1 : ¬ k + 1 ≤ 1 := by omega
      simp [h0, h1]
    · have h1 : k + 1 ≤ 1 := by omega
      have h2 : k ≤ 1 := by omega
      simp [h0, h1, h2]
  rcases hres with ⟨e, s', hit, hrun⟩ | ⟨s', hit, _, hrun⟩
  · refine ⟨_, hrun, fun s2 h2 => (by cases h2), fun e2 s2 h2 => ?_⟩
    cases h2
    rcases (iteration_exit c o s s' e).mp hit with hcore | ⟨hcore, _, _⟩
    · rcases iterationCore_cases c o s with ⟨s1, h1, _⟩ |
        ⟨e1, s1, h1, _, _, _, u1, _, o1, _, _, _⟩
      · rw [hcore] at h1
        cases h1
      · rw [hcore] at h1
        cases h1
        rw [o1, u1, hu]
        exact hguess
    · rcases iterationCore_cases c o s with ⟨s1, h1, _, _, u1, _, o1, _, _, _⟩ |
        ⟨e1, s1, h1, _⟩
      · rw [hcore] at h1
        cases h1
        rw [o1, u1, hu]
        exact hguess
      · rw [hcore] at h1
        cases h1
  · refine ⟨_, hrun, fun s2 h2 => ?_, fun e2 s2 h2 => (by cases h2)⟩
    cases h2
    obtain ⟨hcore, _⟩ := (iteration_done c o s s').mp hit
    rcases iterationCore_cases c o s with ⟨s1, h1, _, _, _, _, _, g1, _, _⟩ |
      ⟨e1, s1, h1, _⟩
    · rw [hcore] at h1
      cases h1
      show s'.savedSCFGuess = opt.SCFGuess
      rw [g1, hg]
    · rw [hcore] at h1
      cases h1

theorem coreAt_succ (c : Constants K) (o : Oracles K Orb) (mol : Molecule_t K)
    (opt : option_t) (orb0 : Orb) (k : Nat) (s' : OptState K Orb) :
    coreAt c o mol opt orb0 (k + 1) = some s' ↔
      ∃ s, coreAt c o mol opt orb0 k = some s ∧ iterationCore c o s = Run.done s' := by
  show (match coreAt c o mol opt orb0 k with
    | none => none
    | some s =>
      match iterationCore c o s with
      | Run.exit _ _ => none
      | Run.done s => some s) = some s' ↔ _
  cases h : coreAt c o mol opt orb0 k with
  | none => simp
  | some s =>
    show (match iterationCore c o s with
      | Run.exit _ _ => none
      | Run.done s => some s) = some s' ↔ _
    cases hi : iterationCore c o s with
    | exit e s1 =>
      constructor
      · intro h1; cases h1
      · rintro ⟨s2, h2, h3⟩
        cases h2
        rw [hi] at h3
        cases h3
    | done s1 =>
      constructor
      · intro h1
        cases h1
        exact ⟨s, rfl, hi⟩
      · rintro ⟨s2, h2, h3⟩
        cases h2
        rw [hi] at h3
        cases h3
        rfl

/-- A pass of the loop body that returns with `nIter` within the budget is a pass
of the whole loop body. -/
theorem iteration_of_core (c : Constants K) (o : Oracles K Orb) (mol : Molecule_t K)
    (opt : option_t) (k : Nat) (s s' : OptState K Orb) (hinv : HeadInv c mol opt k s)
    (hcore : iterationCore c o s = Run.done s') :
    s'.nIter = k + 1 ∧ s'.uhfCalls = k + 1 ∧ s'.steps = k + 1 ∧
    s'.opt.optMax = opt.optMax ∧
    (k + 1 ≤ opt.optMax.toNat → iteration c o s = Run.done s') ∧
    (opt.optMax.toNat < k + 1 →
      iteration c o s = Run.exit OptError.IterationBudgetExceeded s') := by
  obtain ⟨hn, hu, ht, _, hm, _, _, _, _, _⟩ := hinv
  obtain ⟨_, _, _, _, _, _, _, hpm, _⟩ := preOracle_frame c s
  rcases iterationCore_cases c o s with ⟨s1, h1, _, n1, u1, t1, o1, _, _, _⟩ |
    ⟨e, s1, h1, _⟩
  · rw [hcore] at h1
    cases h1
    have hmax : s'.opt.optMax = opt.optMax := by rw [o1, hpm, hm]
    refine ⟨by rw [n1, hn], by rw [u1, hu], by rw [t1, ht], hmax, ?_, ?_⟩
    · intro hle
      refine (iteration_done c o s s').mpr ⟨hcore, ?_⟩
      rw [n1, hn, hmax]
      omega
    · intro hlt
      refine (iteration_exit c o s s' _).mpr (Or.inr ⟨hcore, ?_, rfl⟩)
      rw [n1, hn, hmax]
      omega
  · rw [hcore] at h1
    cases h1

/-- As long as the criteria have not passed and the budget is not used up, the run
of `optimize` goes through the states of the free-running loop body. -/
theorem loopHead_of_coreAt (c : Constants K) (o : Oracles K Orb) (mol : Molecule_t K)
    (opt : option_t) (orb0 : Orb) (k : Nat) :
    k ≤ opt.optMax.toNat →
    (∀ j, 1 ≤ j → j ≤ k → ¬ passAt c o mol opt orb0 j) →
    ∀ s, coreAt c o mol opt orb0 k = some s → loopHead c o mol opt orb0 k = some s := by
  induction k with
  | zero =>
    intro _ _ s h
    exact h
  | succ k ih =>
    intro hle hnp s' h'
    obtain ⟨s, hs, hcore⟩ := (coreAt_succ c o mol opt orb0 k s').mp h'
    have hhead : loopHead c o mol opt orb0 k = some s :=
      ih (by omega) (fun j h1 h2 => hnp j h1 (by omega)) s hs
    have hinv := loopHead_inv c o mol opt orb0 k s hhead
    have hit := (iteration_of_core c o mol opt k s s' hinv hcore).2.2.2.2.1 hle
    have hl : loopAgain c s'.crit := by
      by_contra hno
      exact hnp (k + 1) (by omega) (le_refl _) ⟨s', h', hno⟩
    exact (loopHead_succ c o mol opt orb0 k s').mpr ⟨s, hhead, hit, hl⟩

/-- If the criteria pass for the first time at the end of iteration `k`, within the
budget, `optimize` returns after exactly `k` iterations. -/
theorem optimize_first_pass (c : Constants K) (o : Oracles K Orb) (mol : Molecule_t K)
    (opt : option_t) (orb0 : Orb) (k : Nat) (h1 : 1 ≤ k) (hle : k ≤ opt.optMax.toNat)
    (hpass : passAt c o mol opt orb0 k)
    (hfirst : ∀ j, 1 ≤ j → j < k → ¬ passAt c o mol opt orb0 j) :
    ∃ s, optimize c o mol opt orb0 = some (Run.done s) ∧
      s.nIter = k ∧ s.uhfCalls = k ∧ s.steps = k := by
  obtain ⟨k0, rfl⟩ : ∃ k0, k = k0 + 1 := ⟨k - 1, by omega⟩
  obtain ⟨s', h', hno⟩ := hpass
  obtain ⟨s, hs, hcore⟩ := (coreAt_succ c o mol opt orb0 k0 s').mp h'
  have hhead : loopHead c o mol opt orb0 k0 = some s :=
    loopHead_of_coreAt c o mol opt orb0 k0 (by omega)
      (fun j hj1 hj2 => hfirst j hj1 (by omega)) s hs
  have hinv := loopHead_inv c o mol opt orb0 k0 s hhead
  obtain ⟨n1, u1, t1, _, hit, _⟩ := iteration_of_core c o mol opt k0 s s' hinv hcore
  refine ⟨restoreGuess s', ?_, n1, u1, t1⟩
  rw [optimize_from_head c o mol opt orb0 k0 s hhead, hit hle]
  simp only [if_neg hno]

/-- C8 (iteration budget verdict).  For `optMax ≥ 1` and a run in which no fatal
condition other than the iteration budget ends the process: `optimize` ends with
`IterationBudgetExceeded` if and only if the four convergence criteria do not all
pass at the end of any of the first `optMax` iterations; and if they all pass for
the first time at the end of iteration `k ≤ optMax`, `optimize` returns (converged)
after exactly `k` iterations. -/
theorem optimize_budget_verdict (c : Constants K) (o : Oracles K Orb)
    (mol : Molecule_t K) (opt : option_t) (orb0 : Orb) (hmax : 1 ≤ opt.optMax)
    (hfatal : ∀ e s, optimize c o mol opt orb0 = some (Run.exit e s) →
      e = OptError.IterationBudgetExceeded) :
    ((∃ s, optimize c o mol opt orb0 = some (Run.exit OptError.IterationBudgetExceeded s)) ↔
      ∀ k : Nat, 1 ≤ k → (k : Int) ≤ opt.optMax → ¬ passAt c o mol opt orb0 k) ∧
    (∀ k : Nat, 1 ≤ k → (k : Int) ≤ opt.optMax → passAt c o mol opt orb0 k →
      (∀ j, 1 ≤ j → j < k → ¬ passAt c o mol opt orb0 j) →
      ∃ s, optimize c o mol opt orb0 = some (Run.done s) ∧
        s.nIter = k ∧ s.uhfCalls = k ∧ s.steps = k) := by
  have hB : ∀ k : Nat, 1 ≤ k → (k : Int) ≤ opt.optMax → passAt c o mol opt orb0 k →
      (∀ j, 1 ≤ j → j < k → ¬ passAt c o mol opt orb0 j) →
      ∃ s, optimize c o mol opt orb0 = some (Run.done s) ∧
        s.nIter = k ∧ s.uhfCalls = k ∧ s.steps = k := by
    intro k h1 hle hpass hfirst
    exact optimize_first_pass c o mol opt orb0 k h1 (by omega) hpass hfirst
  refine ⟨⟨?_, ?_⟩, hB⟩
  · rintro ⟨s, hrun⟩ k h1 hle hpass
    have hex : ∃ k : Nat, 1 ≤ k ∧ (k : Int) ≤ opt.optMax ∧ passAt c o mol opt orb0 k :=
      ⟨k, h1, hle, hpass⟩
    classical
    obtain ⟨m1, m2, m3⟩ := Nat.find_spec hex
    have hmin : ∀ j, 1 ≤ j → j < Nat.find hex → ¬ passAt c o mol opt orb0 j := by
      intro j hj1 hj2 hj3
      exact Nat.find_min hex hj2 ⟨hj1, by omega, hj3⟩
    obtain ⟨s2, hrun2, _⟩ := hB (Nat.find hex) m1 m2 m3 hmin
    rw [hrun] at hrun2
    cases hrun2
  · intro hnp
    have hnp' : ∀ j, 1 ≤ j → j ≤ opt.optMax.toNat → ¬ passAt c o mol opt orb0 j :=
      fun j h1 h2 => hnp j h1 (by omega)
    have hcore : ∀ k, k ≤ opt.optMax.toNat →
        ∃ s, coreAt c o mol opt orb0 k = some s ∧ loopHead c o mol opt orb0 k = some s := by
      intro k
      induction k with
      | zero => intro _; exact ⟨_, rfl, rfl⟩
      | succ k ih =>
        intro hle
        obtain ⟨s, hs, hhead⟩ := ih (by omega)
        rcases iterationCore_cases c o s with ⟨s1, h1, _⟩ | ⟨e, s1, h1, hne, _⟩
        · have hs1 : coreAt c o mol opt orb0 (k + 1) = some s1 :=
            (coreAt_succ c o mol opt orb0 k s1).mpr ⟨s, hs, h1⟩
          exact ⟨s1, hs1, loopHead_of_coreAt c o mol opt orb0 (k + 1) hle
            (fun j hj1 hj2 => hnp' j hj1 (by omega)) s1 hs1⟩
        · have hit : iteration c o s = Run.exit e s1 :=
            (iteration_exit c o s s1 e).mpr (Or.inl h1)
          have hrun : optimize c o mol opt orb0 = some (Run.exit e s1) := by
            rw [optimize_from_head c o mol opt orb0 k s hhead, hit]
          exact absurd (hfatal e s1 hrun) hne
    obtain ⟨s, _, hhead⟩ := hcore opt.optMax.toNat (le_refl _)
    have hinv := loopHead_inv c o mol opt orb0 _ s hhead
    rcases iterationCore_cases c o s with ⟨s1, h1, _⟩ | ⟨e, s1, h1, hne, _⟩
    · have hit := (iteration_of_core c o mol opt _ s s1 hinv h1).2.2.2.2.2 (by omega)
      refine ⟨s1, ?_⟩
      rw [optimize_from_head c o mol opt orb0 _ s hhead, hit]
    · have hit : iteration c o s = Run.exit e s1 :=
        (iteration_exit c o s s1 e).mpr (Or.inl h1)
      have hrun : optimize c o mol opt orb0 = some (Run.exit e s1) := by
        rw [optimize_from_head c o mol opt orb0 _ s hhead, hit]
      exact absurd (hfatal e s1 hrun) hne

/-- The number of passes of a run: the energy oracle is called, and the geometry
is updated, at most `optMax + 1` times (once when `optMax ≤ 0`). -/
theorem optimize_pass_count (c : Constants K) (o : Oracles K Orb)
    (mol : Molecule_t K) (opt : option_t) (orb0 : Orb) :
    ∃ r, optimize c o mol opt orb0 = some r ∧
      r.state.uhfCalls ≤ opt.optMax.toNat + 1 ∧ r.state.steps ≤ r.state.uhfCalls := by
  obtain ⟨k, s, hk, hres⟩ := optimize_outcome c o mol opt orb0
  obtain ⟨_, hu, ht, _, _, _, _, hle, _, _⟩ := loopHead_inv c o mol opt orb0 k s hk
  have hcount : ∀ (r : Run (OptState K Orb)) (s' : OptState K Orb),
      (iterationCore c o s = r) → r.state = s' →
      s'.uhfCalls ≤ opt.optMax.toNat + 1 ∧ s'.steps ≤ s'.uhfCalls := by
    intro r s' hr hs'
    rcases iterationCore_cases c o s with ⟨s1, h1, _, _, u1, t1, _⟩ |
      ⟨e1, s1, h1, _, _, _, u1, t1, _⟩
    · rw [h1] at hr
      subst hr
      have : s1 = s' := hs'
      subst this
      rw [u1, t1, hu, ht]
      omega
    · rw [h1] at hr
      subst hr
      have : s1 = s' := hs'
      subst this
      rw [u1, t1, hu, ht]
      omega
  rcases hres with ⟨e, s', hit, hrun⟩ | ⟨s', hit, _, hrun⟩
  · refine ⟨_, hrun, ?_⟩
    rcases (iteration_exit c o s s' e).mp hit with hcore | ⟨hcore, _, _⟩
    · exact hcount _ s' hcore rfl
    · exact hcount _ s' hcore rfl
  · refine ⟨_, hrun, ?_⟩
    obtain ⟨hcore, _⟩ := (iteration_done c o s s').mp hit
    exact hcount _ s' hcore rfl

/-- The example run with `optMax = 1` ends with `IterationBudgetExceeded`. -/
theorem harmonic_run_error :
    (optimize exampleConstants harmonicOracles exampleMolecule (exampleOptions 1) ()).map
        Run.error = some (some OptError.IterationBudgetExceeded) := by
  decide!

/-- Witness for C8: the example run with `optMax = 1`, which ends with
`IterationBudgetExceeded`. -/
theorem optimize_budget_verdict_witness :
    (1 : Int) ≤ (exampleOptions 1).optMax ∧
    (∀ e s, optimize exampleConstants harmonicOracles exampleMolecule (exampleOptions 1) ()
        = some (Run.exit e s) → e = OptError.IterationBudgetExceeded) ∧
    ((∃ s, optimize exampleConstants harmonicOracles exampleMolecule (exampleOptions 1) ()
          = some (Run.exit OptError.IterationBudgetExceeded s)) ↔
        ∀ k : Nat, 1 ≤ k → (k : Int) ≤ (exampleOptions 1).optMax →
          ¬ passAt exampleConstants harmonicOracles exampleMolecule (exampleOptions 1) () k) ∧
    (∀ k : Nat, 1 ≤ k → (k : Int) ≤ (exampleOptions 1).optMax →
      passAt exampleConstants harmonicOracles exampleMolecule (exampleOptions 1) () k →
      (∀ j, 1 ≤ j → j < k →
        ¬ passAt exampleConstants harmonicOracles exampleMolecule (exampleOptions 1) () j) →
      ∃ s, optimize exampleConstants harmonicOracles exampleMolecule (exampleOptions 1) ()
          = some (Run.done s) ∧
        s.nIter = k ∧ s.uhfCalls = k ∧ s.steps = k) :=
  have hf : ∀ e s, optimize exampleConstants harmonicOracles exampleMolecule
      (exampleOptions 1) () = some (Run.exit e s) → e = OptError.IterationBudgetExceeded := by
    intro e s h
    have h2 := harmonic_run_error
    rw [h] at h2
    have h3 : some (some e) = some (some OptError.IterationBudgetExceeded) := h2
    injection h3 with h4
    injection h4
  ⟨by decide, hf,
    optimize_budget_verdict exampleConstants harmonicOracles exampleMolecule
      (exampleOptions 1) () (by decide) hf⟩

/-- Evaluation for C9.  With `optMax = 1` and forces that do not meet the
thresholds, `optimize` ends with `IterationBudgetExceeded` only after it has
called the energy oracle twice and applied two steps to the molecule: the loop
body runs `optMax + 1` times.  The first atom has moved from `x = 4` to `x = 2`,
and the four metrics of the second pass are 6, 2, 1 and 1/3. -/
theorem optimize_runs_optMax_plus_one :
    (optimize exampleConstants harmonicOracles exampleMolecule (exampleOptions 1) ()).map
        (fun r => (r.error, r.state.nIter, r.state.uhfCalls, r.state.steps))
      = some (some OptError.IterationBudgetExceeded, 2, 2, 2) ∧
    (optimize exampleConstants harmonicOracles exampleMolecule (exampleOptions 1) ()).map
        (fun r => (r.state.mol.x 0, r.state.crit.force_max, r.state.crit.force_rms,
          r.state.crit.step_max, r.state.crit.step_rms))
      = some (2, 6, 2, 1, 1 / 3) := by
  decide!

/-- Counterexample for C10 as stated.  The caller's guess option is 0; the energy
oracle fails in the second pass of the loop; the process ends with
`OracleNonConvergence` while `opt->SCFGuess` is `SCFGUESS_CACB = 2`. -/
theorem optimize_guess_not_restored :
    (optimize exampleConstants warmStartFailingOracles exampleMolecule (exampleOptions 5) ()).map
        (fun r => (r.error, r.state.opt.SCFGuess))
      = some (some OptError.OracleNonConvergence, 2) ∧
    (exampleOptions 5).SCFGuess = 0 := by
  decide!

/-! ### The content of one pass, and the invariants of the inverse Hessian -/

/-- The loop that constructs the gradient vector: `G = −F` and `dG = −F − G_old`
on the `3·nAtom` cells it writes. -/
theorem gradientLoop_get (nAtom : Nat) (fx fy fz dG G : Arr K) (k : Nat) :
    (gradientLoop nAtom fx fy fz dG G).1 k
      = (if k < nAtom * 3 then -forceVec (fx, fy, fz) k - G k else dG k) ∧
    (gradientLoop nAtom fx fy fz dG G).2 k
      = (if k < nAtom * 3 then -forceVec (fx, fy, fz) k else G k) := by
  unfold gradientLoop
  revert k
  induction nAtom with
  | zero =>
    intro k
    simp [forLoop]
  | succ m ih =>
    intro k
    rw [forLoop_succ]
    have i0 := (ih (m * 3 + 0)).2
    have i1 := (ih (m * 3 + 1)).2
    have i2 := (ih (m * 3 + 2)).2
    rw [if_neg (by omega)] at i0 i1 i2
    obtain ⟨ih1, ih2⟩ := ih k
    simp only [setAt_get, i0, i1, i2, ih1, ih2]
    have hdiv : ∀ a, a < 3 → (m * 3 + a) / 3 = m := fun a ha => by omega
    have hmod : ∀ a, a < 3 → (m * 3 + a) % 3 = a := fun a ha => by omega
    by_cases h2 : k = m * 3 + 2
    · subst h2
      have hlt : m * 3 + 2 < (m + 1) * 3 := by omega
      simp [hlt, forceVec, hdiv 2 (by decide), hmod 2 (by decide)]
    · by_cases h1 : k = m * 3 + 1
      · subst h1
        have hlt : m * 3 + 1 < (m + 1) * 3 := by omega
        simp [hlt, forceVec, hdiv 1 (by decide), hmod 1 (by decide)]
      · by_cases h0 : k = m * 3 + 0
        · subst h0
          have hlt : m * 3 + 0 < (m + 1) * 3 := by omega
          simp [hlt, forceVec, hdiv 0 (by decide), hmod 0 (by decide)]
        · simp only [if_neg h2, if_neg h1, if_neg h0]
          by_cases hk : k < m * 3
          · have hlt : k < (m + 1) * 3 := by omega
            simp [hk, hlt]
          · have hlt : ¬ k < (m + 1) * 3 := by omega
            simp [hk, hlt]

/-- The loop that updates the molecular geometry adds the step to the position of
each atom. -/
theorem updateGeometry_get (dR : Arr K) (mol : Molecule_t K) (i : Nat) :
    (updateGeometry dR mol).x i
      = (if i < mol.nAtom then mol.x i + dR (i * 3 + 0) else mol.x i) ∧
    (updateGeometry dR mol).y i
      = (if i < mol.nAtom then mol.y i + dR (i * 3 + 1) else mol.y i) ∧
    (updateGeometry dR mol).z i
      = (if i < mol.nAtom then mol.z i + dR (i * 3 + 2) else mol.z i) := by
  unfold updateGeometry
  generalize mol.nAtom = n
  revert i
  induction n with
  | zero =>
    intro i
    simp [forLoop]
  | succ m ih =>
    intro i
    rw [forLoop_succ]
    obtain ⟨jx, jy, jz⟩ := ih m
    rw [if_neg (lt_irrefl m)] at jx jy jz
    obtain ⟨ix, iy, iz⟩ := ih i
    simp only [setAt_get, jx, jy, jz, ix, iy, iz]
    by_cases h : i = m
    · subst h
      simp
    · by_cases hk : i < m
      · have hlt : i < m + 1 := by omega
        simp [h, hk, hlt]
      · have hlt : ¬ i < m + 1 := by omega
        simp [h, hk, hlt]

/-- The loop of `optimize` that initialises the inverse Hessian writes the
identity matrix. -/
theorem initialState_identity (mol : Molecule_t K) (opt : option_t) (orb0 : Orb) :
    IsIdentity (mol.nAtom * 3) (initialState mol opt orb0 : OptState K Orb).invH := by
  intro i j hi hj
  have hB : (initialState mol opt orb0 : OptState K Orb).invH
      = forLoop (mol.nAtom * 3) (fun i invH => forLoop (mol.nAtom * 3) (fun j invH =>
          setAt invH (i * (mol.nAtom * 3) + j) (if i = j then (1 : K) else 0)) invH)
          (calloc (mol.nAtom * 3 * (mol.nAtom * 3))) := by
    show forLoop _ _ _ = _
    congr 1
    funext i B
    congr 1
    funext j B
    by_cases hij : i = j <;> simp [hij]
  rw [hB, forLoop_fill_get (mol.nAtom * 3) (mol.nAtom * 3) _ _ i j hi hj]

/-- A pass in which the energy oracle does not return 0 goes on to the update of
the inverse Hessian, in a state `s2` that differs from `s` in the guess option,
the energy, the orbitals, the forces and the gradient vectors. -/
theorem iterationCore_stages (c : Constants K) (o : Oracles K Orb) (s : OptState K Orb)
    (hE : oracleEnergy c o s ≠ 0) :
    ∃ s2 : OptState K Orb,
      iterationCore c o s = (updateInvHessian s2).andThen
        (fun s => (computeStep c o s).andThen (fun s => Run.done (finishIteration o s))) ∧
      s2.dG = (passGradient c o s).1 ∧ s2.G = (passGradient c o s).2 ∧
      s2.invH = s.invH ∧ s2.dR = s.dR ∧ s2.nIter = s.nIter ∧ s2.nDim = s.nDim ∧
      s2.mol = s.mol ∧ s2.opt = (preOracle c s).opt ∧ s2.uhfCalls = s.uhfCalls + 1 ∧
      s2.steps = s.steps ∧ s2.savedSCFGuess = s.savedSCFGuess ∧
      s2.fx = (passForces c o s).1 ∧ s2.fy = (passForces c o s).2.1 ∧
      s2.fz = (passForces c o s).2.2 := by
  have hrun : scfCalculation c o s = Run.done
      { (preOracle c s) with
        Etot := (o.uhf (preOracle c s).mol (preOracle c s).opt (preOracle c s).orb).1
        orb := (o.uhf (preOracle c s).mol (preOracle c s).opt (preOracle c s).orb).2
        uhfCalls := (preOracle c s).uhfCalls + 1 } := by
    show (if oracleEnergy c o s = 0 then _ else _) = _
    rw [if_neg hE]
    rfl
  refine ⟨computeGradient o { (preOracle c s) with
        Etot := (o.uhf (preOracle c s).mol (preOracle c s).opt (preOracle c s).orb).1
        orb := (o.uhf (preOracle c s).mol (preOracle c s).opt (preOracle c s).orb).2
        uhfCalls := (preOracle c s).uhfCalls + 1 }, ?_, ?_⟩
  · unfold iterationCore
    rw [hrun]
    rfl
  · unfold passGradient passForces
    unfold preOracle
    by_cases h : s.nIter > 0
    · simp only [if_pos h]
      exact ⟨rfl, rfl, rfl, rfl, rfl, rfl, rfl, rfl, rfl, rfl, rfl, rfl, rfl, rfl⟩
    · simp only [if_neg h]
      exact ⟨rfl, rfl, rfl, rfl, rfl, rfl, rfl, rfl, rfl, rfl, rfl, rfl, rfl, rfl⟩

/-- The test `maxStepSize <= 0.0` of `stepVector_Newton` ends the process. -/
theorem stepVector_Newton_nonpos (sqrt : K → K) (n : Nat) (invH grad dR0 : Arr K)
    (maxStepSize : K) (h : maxStepSize ≤ 0) :
    ∃ dR, stepVector_Newton sqrt n invH grad maxStepSize dR0
      = Run.exit OptError.InvalidConfiguration dR := by
  unfold stepVector_Newton
  simp only [if_pos h]
  exact ⟨_, rfl⟩

/-- What a pass through the body of the loop that returns has done: the gradient
vectors come from the forces of the pass, the inverse Hessian is updated with the
step of the pass before and the change of the gradient when `nIter > 0`, the step
is the Newton step, and it is applied to the molecule. -/
theorem iterationCore_content (c : Constants K) (o : Oracles K Orb) (s s' : OptState K Orb)
    (h : iterationCore c o s = Run.done s') :
    oracleEnergy c o s ≠ 0 ∧ 0 < c.MAXSTEPSIZE ∧
    s'.dG = (passGradient c o s).1 ∧ s'.G = (passGradient c o s).2 ∧
    (if s.nIter > 0 then invHessian_BFGS s.nDim s.dR s'.dG s.invH = Run.done s'.invH
      else s'.invH = s.invH) ∧
    stepVector_Newton o.sqrt s.nDim s'.invH s'.G c.MAXSTEPSIZE s.dR = Run.done s'.dR ∧
    s'.mol = updateGeometry s'.dR s.mol ∧
    s'.crit = convergenceCriteria o.sqrt s.nDim s'.G s'.dR ∧
    s'.fx = (passForces c o s).1 ∧ s'.fy = (passForces c o s).2.1 ∧
    s'.fz = (passForces c o s).2.2 := by
  have hE : oracleEnergy c o s ≠ 0 := by
    rcases iterationCore_cases c o s with ⟨s1, h1, hE, _⟩ | ⟨e, s1, h1, _⟩
    · exact hE
    · rw [h] at h1
      cases h1
  obtain ⟨s2, hrun, hdG, hG, hH, hdR, hn, hd, hm, _, _, _, _, hfx, hfy, hfz⟩ :=
    iterationCore_stages c o s hE
  rw [hrun] at h
  have hinv : ∃ s3 : OptState K Orb, updateInvHessian s2 = Run.done s3 ∧
      (if s.nIter > 0 then invHessian_BFGS s.nDim s.dR s2.dG s.invH = Run.done s3.invH
        else s3.invH = s.invH) ∧
      s3.dG = s2.dG ∧ s3.G = s2.G ∧ s3.dR = s2.dR ∧ s3.nDim = s2.nDim ∧ s3.mol = s2.mol ∧
      s3.fx = s2.fx ∧ s3.fy = s2.fy ∧ s3.fz = s2.fz := by
    unfold updateInvHessian at h ⊢
    by_cases h0 : s2.nIter > 0
    · have h0' : s.nIter > 0 := by rw [← hn]; exact h0
      simp only [if_pos h0] at h ⊢
      simp only [if_pos h0']
      rw [← hd, ← hdR, ← hH]
      cases hb : invHessian_BFGS s2.nDim s2.dR s2.dG s2.invH with
      | done invH => exact ⟨_, rfl, rfl, rfl, rfl, rfl, rfl, rfl, rfl, rfl, rfl⟩
      | exit e invH =>
        rw [hb] at h
        cases h
    · have h0' : ¬ s.nIter > 0 := by rw [← hn]; exact h0
      simp only [if_neg h0] at h ⊢
      simp only [if_neg h0']
      exact ⟨_, rfl, hH, rfl, rfl, rfl, rfl, rfl, rfl, rfl, rfl⟩
  obtain ⟨s3, hrun3, hb3, dG3, G3, dR3, d3, m3, fx3, fy3, fz3⟩ := hinv
  rw [hrun3] at h
  have hstep : ∃ s4 : OptState K Orb, computeStep c o s3 = Run.done s4 ∧
      stepVector_Newton o.sqrt s3.nDim s3.invH s3.G c.MAXSTEPSIZE s3.dR = Run.done s4.dR ∧
      s4.dG = s3.dG ∧ s4.G = s3.G ∧ s4.invH = s3.invH ∧ s4.nDim = s3.nDim ∧
      s4.mol = s3.mol ∧ s4.fx = s3.fx ∧ s4.fy = s3.fy ∧ s4.fz = s3.fz := by
    have h' : (computeStep c o s3).andThen (fun s => Run.done (finishIteration o s))
        = Run.done s' := h
    unfold computeStep at h' ⊢
    cases hb : stepVector_Newton o.sqrt s3.nDim s3.invH s3.G c.MAXSTEPSIZE s3.dR with
    | done dR => exact ⟨_, rfl, rfl, rfl, rfl, rfl, rfl, rfl, rfl, rfl, rfl⟩
    | exit e dR =>
      rw [hb] at h'
      cases h'
  obtain ⟨s4, hrun4, hb4, dG4, G4, H4, d4, m4, fx4, fy4, fz4⟩ := hstep
  have h' : (computeStep c o s3).andThen (fun s => Run.done (finishIteration o s))
      = Run.done s' := h
  rw [hrun4] at h'
  have hs' : s' = finishIteration o s4 := by
    have hfin : Run.done (finishIteration o s4) = Run.done s' := h'
    cases hfin
    rfl
  have hpos : 0 < c.MAXSTEPSIZE := by
    by_contra hle
    obtain ⟨dR, hx⟩ := stepVector_Newton_nonpos o.sqrt s3.nDim s3.invH s3.G s3.dR
      c.MAXSTEPSIZE (not_lt.mp hle)
    rw [hx] at hb4
    cases hb4
  have e1 : s'.dG = s4.dG := by rw [hs']; rfl
  have e2 : s'.G = s4.G := by rw [hs']; rfl
  have e3 : s'.invH = s4.invH := by rw [hs']; rfl
  have e4 : s'.dR = s4.dR := by rw [hs']; rfl
  have e5 : s'.mol = updateGeometry s4.dR s4.mol := by rw [hs']; rfl
  have e6 : s'.crit = convergenceCriteria o.sqrt s4.nDim s4.G s4.dR := by rw [hs']; rfl
  have e7 : s'.fx = s4.fx := by rw [hs']; rfl
  have e8 : s'.fy = s4.fy := by rw [hs']; rfl
  have e9 : s'.fz = s4.fz := by rw [hs']; rfl
  refine ⟨hE, hpos, ?_, ?_, ?_, ?_, ?_, ?_, ?_, ?_, ?_⟩
  · rw [e1, dG4, dG3, hdG]
  · rw [e2, G4, G3, hG]
  · rw [e1, dG4, dG3, e3, H4]
    exact hb3
  · rw [e3, e2, e4, H4, G4, ← hd, ← d3, ← hdR, ← dR3]
    exact hb4
  · rw [e5, e4, m4, m3, hm]
  · rw [e6, e2, e4, d4, d3, hd]
  · rw [e7, fx4, fx3, hfx]
  · rw [e8, fy4, fy3, hfy]
  · rw [e9, fz4, fz3, hfz]

/-- A pass returns when the energy oracle does not return 0, the maximum step is
positive and, when `nIter > 0`, the step of the pass before is not perpendicular
to the change of the gradient. -/
theorem iterationCore_returns (c : Constants K) (o : Oracles K Orb) (s : OptState K Orb)
    (hE : oracleEnergy c o s ≠ 0) (hpos : 0 < c.MAXSTEPSIZE)
    (hα : s.nIter > 0 → dot s.nDim s.dR (passGradient c o s).1 ≠ 0) :
    ∃ s', iterationCore c o s = Run.done s' := by
  obtain ⟨s2, hrun, hdG, hG, hH, hdR, hn, hd, hm, _⟩ := iterationCore_stages c o s hE
  rw [hrun]
  have hinv : ∃ s3 : OptState K Orb, updateInvHessian s2 = Run.done s3 := by
    unfold updateInvHessian
    by_cases h0 : s2.nIter > 0
    · simp only [if_pos h0]
      have hne : dot s2.nDim s2.dR s2.dG ≠ 0 := by
        rw [hd, hdR, hdG]
        exact hα (by rw [← hn]; exact h0)
      obtain ⟨H', hb, _⟩ := invHessian_BFGS_done s2.nDim s2.dR s2.dG s2.invH hne
      rw [hb]
      exact ⟨_, rfl⟩
    · simp only [if_neg h0]
      exact ⟨_, rfl⟩
  obtain ⟨s3, hrun3⟩ := hinv
  rw [hrun3]
  obtain ⟨dR, hb, _⟩ := stepVector_Newton_done o.sqrt s3.nDim s3.invH s3.G s3.dR
    c.MAXSTEPSIZE hpos
  refine ⟨finishIteration o { s3 with dR := dR }, ?_⟩
  show (computeStep c o s3).andThen (fun s => Run.done (finishIteration o s)) = _
  unfold computeStep
  rw [hb]
  rfl

/-- A pass after the first ends the process with `DegenerateUpdate` when the
energy oracle does not return 0 and the step of the pass before is perpendicular
to the change of the gradient. -/
theorem iterationCore_degenerate (c : Constants K) (o : Oracles K Orb) (s : OptState K Orb)
    (hE : oracleEnergy c o s ≠ 0) (hn0 : s.nIter > 0)
    (hα : dot s.nDim s.dR (passGradient c o s).1 = 0) :
    ∃ s', iterationCore c o s = Run.exit OptError.DegenerateUpdate s' ∧
      s'.nIter = s.nIter ∧ s'.uhfCalls = s.uhfCalls + 1 ∧ s'.steps = s.steps ∧
      s'.mol = s.mol ∧ s'.dG = (passGradient c o s).1 := by
  obtain ⟨s2, hrun, hdG, hG, hH, hdR, hn, hd, hm, _, hu, ht, _⟩ :=
    iterationCore_stages c o s hE
  rw [hrun]
  have h0 : s2.nIter > 0 := by rw [hn]; exact hn0
  have hz : dot s2.nDim s2.dR s2.dG = 0 := by rw [hd, hdR, hdG]; exact hα
  refine ⟨{ s2 with invH := s2.invH }, ?_, hn, hu, ht, hm, hdG⟩
  unfold updateInvHessian
  simp only [if_pos h0]
  rw [invHessian_BFGS_zero s2.nDim s2.dR s2.dG s2.invH hz]
  rfl

/-- The state in which the energy oracle is called in pass `k` of a run. -/
theorem preOracle_at_head (c : Constants K) (o : Oracles K Orb) (mol : Molecule_t K)
    (opt : option_t) (orb0 : Orb) (k : Nat) (s : OptState K Orb)
    (hk : loopHead c o mol opt orb0 k = some s) :
    preOracle c s = { s with opt := warmStartSchedule c opt k } := by
  obtain ⟨hn, _, _, _, hm, hmu, hq, _, _, _⟩ := loopHead_inv c o mol opt orb0 k s hk
  unfold preOracle warmStartSchedule
  cases s with
  | mk smol sopt _ _ _ _ _ _ _ _ _ _ _ snIter _ _ _ =>
    cases sopt with
    | mk g mu om =>
      simp only at hn hm hmu hq
      subst hn hm hmu
      by_cases h0 : snIter = 0
      · subst h0
        simp at hq
        simp [hq]
      · have hpos : snIter > 0 := Nat.pos_of_ne_zero h0
        simp [hpos, h0]

/-- C11 (warm-start schedule).  In every pass `k` (counted from 0) that a run of
`optimize` reaches, the energy oracle is called with the caller's options in
which the guess option is the caller's `SCFGuess` when `k = 0` and
`SCFGUESS_CACB` when `k ≥ 1`, whatever the caller's value is; the pass ends the
process if the oracle returns 0 and goes on otherwise, and these options are the
ones left in `opt`. -/
theorem optimize_warm_start (c : Constants K) (o : Oracles K Orb) (mol : Molecule_t K)
    (opt : option_t) (orb0 : Orb) (k : Nat) (s : OptState K Orb)
    (hk : loopHead c o mol opt orb0 k = some s) :
    (warmStartSchedule c opt k).SCFGuess
      = (if k = 0 then opt.SCFGuess else c.SCFGUESS_CACB) ∧
    scfCalculation c o s
      = (if (o.uhf s.mol (warmStartSchedule c opt k) s.orb).1 = 0 then
          Run.exit OptError.OracleNonConvergence
            { s with
              opt := warmStartSchedule c opt k
              Etot := (o.uhf s.mol (warmStartSchedule c opt k) s.orb).1
              orb := (o.uhf s.mol (warmStartSchedule c opt k) s.orb).2
              uhfCalls := s.uhfCalls + 1 }
         else
          Run.done
            { s with
              opt := warmStartSchedule c opt k
              Etot := (o.uhf s.mol (warmStartSchedule c opt k) s.orb).1
              orb := (o.uhf s.mol (warmStartSchedule c opt k) s.orb).2
              uhfCalls := s.uhfCalls + 1 }) := by
  refine ⟨rfl, ?_⟩
  have hpre := preOracle_at_head c o mol opt orb0 k s hk
  have hrun : scfCalculation c o s
      = (if (o.uhf (preOracle c s).mol (preOracle c s).opt (preOracle c s).orb).1 = 0 then
          Run.exit OptError.OracleNonConvergence
            { (preOracle c s) with
              Etot := (o.uhf (preOracle c s).mol (preOracle c s).opt (preOracle c s).orb).1
              orb := (o.uhf (preOracle c s).mol (preOracle c s).opt (preOracle c s).orb).2
              uhfCalls := (preOracle c s).uhfCalls + 1 }
         else
          Run.done
            { (preOracle c s) with
              Etot := (o.uhf (preOracle c s).mol (preOracle c s).opt (preOracle c s).orb).1
              orb := (o.uhf (preOracle c s).mol (preOracle c s).opt (preOracle c s).orb).2
              uhfCalls := (preOracle c s).uhfCalls + 1 }) := rfl
  rw [hrun, hpre]

/-- A run that returns is `Run.done` of its final memory. -/
theorem Run.done_of_error {σ : Type} (r : Run σ) (h : r.error = none) :
    r = Run.done r.state := by
  cases r with
  | done s => rfl
  | exit e s => cases h

/-- Witness for C11: the second pass (`k = 1`) of the example run; the caller's
guess option is 0 and the oracle is called with `SCFGUESS_CACB = 2`. -/
theorem optimize_warm_start_witness :
    ∃ s : OptState ℚ Unit,
      loopHead exampleConstants harmonicOracles exampleMolecule (exampleOptions 5) () 1
        = some s ∧
      (warmStartSchedule exampleConstants (exampleOptions 5) 1).SCFGuess
        = (if 1 = 0 then (exampleOptions 5).SCFGuess else exampleConstants.SCFGUESS_CACB) ∧
      scfCalculation exampleConstants harmonicOracles s
        = (if (harmonicOracles.uhf s.mol
              (warmStartSchedule exampleConstants (exampleOptions 5) 1) s.orb).1 = 0 then
            Run.exit OptError.OracleNonConvergence
              { s with
                opt := warmStartSchedule exampleConstants (exampleOptions 5) 1
                Etot := (harmonicOracles.uhf s.mol
                  (warmStartSchedule exampleConstants (exampleOptions 5) 1) s.orb).1
                orb := (harmonicOracles.uhf s.mol
                  (warmStartSchedule exampleConstants (exampleOptions 5) 1) s.orb).2
                uhfCalls := s.uhfCalls + 1 }
           else
            Run.done
              { s with
                opt := warmStartSchedule exampleConstants (exampleOptions 5) 1
                Etot := (harmonicOracles.uhf s.mol
                  (warmStartSchedule exampleConstants (exampleOptions 5) 1) s.orb).1
                orb := (harmonicOracles.uhf s.mol
                  (warmStartSchedule exampleConstants (exampleOptions 5) 1) s.orb).2
                uhfCalls := s.uhfCalls + 1 }) :=
  have h : (loopHead exampleConstants harmonicOracles exampleMolecule (exampleOptions 5) ()
      1).isSome = true := by decide!
  ⟨_, (Option.some_get h).symm,
    optimize_warm_start exampleConstants harmonicOracles exampleMolecule (exampleOptions 5) ()
      1 _ (Option.some_get h).symm⟩

/-- The gradient vector of a pass is the negated atom-major force vector, and the
change of the gradient is its difference with the gradient of the pass before. -/
theorem passGradient_get (c : Constants K) (o : Oracles K Orb) (s : OptState K Orb)
    (k : Nat) (hk : k < s.mol.nAtom * 3) :
    (passGradient c o s).1 k = -forceVec (passForces c o s) k - s.G k ∧
    (passGradient c o s).2 k = -forceVec (passForces c o s) k := by
  obtain ⟨h1, h2⟩ := gradientLoop_get s.mol.nAtom (passForces c o s).1 (passForces c o s).2.1
    (passForces c o s).2.2 s.dG s.G k
  rw [if_pos hk] at h1 h2
  exact ⟨h1, h2⟩

/-- The first pass through the loop body, when the energy oracle does not return 0
and `MAXSTEPSIZE > 0`. -/
theorem iterationCore_first (c : Constants K) (o : Oracles K Orb) (mol : Molecule_t K)
    (opt : option_t) (orb0 : Orb)
    (hE : oracleEnergy c o (initialState mol opt orb0) ≠ 0) (hpos : 0 < c.MAXSTEPSIZE) :
    ∃ s1 : OptState K Orb,
      iterationCore c o (initialState mol opt orb0) = Run.done s1 ∧
      s1.invH = (initialState mol opt orb0 : OptState K Orb).invH ∧
      IsIdentity (mol.nAtom * 3) s1.invH ∧
      (∀ k, k < mol.nAtom * 3 →
        s1.G k = -forceVec (passForces c o (initialState mol opt orb0)) k) ∧
      s1.crit = convergenceCriteria o.sqrt (mol.nAtom * 3) s1.G s1.dR ∧
      (∀ k, k < mol.nAtom * 3 → s1.dR k =
        if norm2 o.sqrt (mol.nAtom * 3)
            (forceVec (passForces c o (initialState mol opt orb0))) ≤ c.MAXSTEPSIZE then
          forceVec (passForces c o (initialState mol opt orb0)) k
        else
          c.MAXSTEPSIZE / norm2 o.sqrt (mol.nAtom * 3)
              (forceVec (passForces c o (initialState mol opt orb0)))
            * forceVec (passForces c o (initialState mol opt orb0)) k) ∧
      (∀ i, i < mol.nAtom →
        s1.mol.x i = mol.x i + s1.dR (i * 3 + 0) ∧
        s1.mol.y i = mol.y i + s1.dR (i * 3 + 1) ∧
        s1.mol.z i = mol.z i + s1.dR (i * 3 + 2)) := by
  obtain ⟨s1, hrun⟩ := iterationCore_returns c o (initialState mol opt orb0) hE hpos
    (fun h => absurd h (lt_irrefl 0))
  obtain ⟨_, _, _, hG, hH, hstep, hmol, hcrit, _⟩ :=
    iterationCore_content c o (initialState mol opt orb0) s1 hrun
  have hH' : s1.invH = (initialState mol opt orb0 : OptState K Orb).invH := by
    have hn0 : ¬ (initialState mol opt orb0 : OptState K Orb).nIter > 0 := lt_irrefl 0
    rw [if_neg hn0] at hH
    exact hH
  have hI : IsIdentity (mol.nAtom * 3) s1.invH := by
    rw [hH']
    exact initialState_identity mol opt orb0
  have hu : ∀ k, k < mol.nAtom * 3 →
      newtonStep (mol.nAtom * 3) s1.invH s1.G k
        = forceVec (passForces c o (initialState mol opt orb0)) k := by
    intro k hk
    rw [newtonStep_identity (mol.nAtom * 3) s1.invH s1.G hI k hk, hG,
      (passGradient_get c o (initialState mol opt orb0) k hk).2, neg_neg]
  have hnorm : norm2 o.sqrt (mol.nAtom * 3) (newtonStep (mol.nAtom * 3) s1.invH s1.G)
      = norm2 o.sqrt (mol.nAtom * 3)
          (forceVec (passForces c o (initialState mol opt orb0))) :=
    norm2_congr o.sqrt (mol.nAtom * 3) _ _ hu
  obtain ⟨dR, hd, hget⟩ := stepVector_Newton_done o.sqrt (mol.nAtom * 3) s1.invH s1.G
    (initialState mol opt orb0 : OptState K Orb).dR c.MAXSTEPSIZE hpos
  have hdR : s1.dR = dR := by
    have h2 : stepVector_Newton o.sqrt (mol.nAtom * 3) s1.invH s1.G c.MAXSTEPSIZE
        (initialState mol opt orb0 : OptState K Orb).dR = Run.done s1.dR := hstep
    rw [hd] at h2
    cases h2
    rfl
  refine ⟨s1, hrun, hH', hI, fun k hk => ?_, hcrit, fun k hk => ?_, fun i hi => ?_⟩
  · rw [hG]
    exact (passGradient_get c o (initialState mol opt orb0) k hk).2
  · rw [hdR, hget k, if_pos hk, hnorm, hu k hk]
    by_cases hle : norm2 o.sqrt (mol.nAtom * 3)
        (forceVec (passForces c o (initialState mol opt orb0))) ≤ c.MAXSTEPSIZE
    · rw [if_pos hle, if_neg (not_lt.mpr hle)]
    · rw [if_neg hle, if_pos (not_le.mp hle)]
      ring
  · obtain ⟨hx, hy, hz⟩ := updateGeometry_get s1.dR mol i
    rw [if_pos hi] at hx hy hz
    rw [hmol]
    exact ⟨hx, hy, hz⟩

/-- C14 (first iteration).  When the energy oracle does not return 0 in the
first pass and `MAXSTEPSIZE > 0`, the first pass through the loop body returns;
the inverse Hessian it uses is the identity written at the start (the BFGS update
is skipped); the step `dR` it applies is the atom-major force vector `F` when
`‖F‖ ≤ MAXSTEPSIZE` and `(MAXSTEPSIZE/‖F‖)·F` otherwise; and atom `i` ends the
pass at `(x[i] + dR[3i], y[i] + dR[3i+1], z[i] + dR[3i+2])`. -/
theorem optimize_first_iteration (c : Constants K) (o : Oracles K Orb) (mol : Molecule_t K)
    (opt : option_t) (orb0 : Orb)
    (hE : oracleEnergy c o (initialState mol opt orb0) ≠ 0) (hpos : 0 < c.MAXSTEPSIZE) :
    ∃ s1 : OptState K Orb,
      iterationCore c o (initialState mol opt orb0) = Run.done s1 ∧
      s1.invH = (initialState mol opt orb0 : OptState K Orb).invH ∧
      IsIdentity (mol.nAtom * 3) s1.invH ∧
      (∀ k, k < mol.nAtom * 3 → s1.dR k =
        if norm2 o.sqrt (mol.nAtom * 3)
            (forceVec (passForces c o (initialState mol opt orb0))) ≤ c.MAXSTEPSIZE then
          forceVec (passForces c o (initialState mol opt orb0)) k
        else
          c.MAXSTEPSIZE / norm2 o.sqrt (mol.nAtom * 3)
              (forceVec (passForces c o (initialState mol opt orb0)))
            * forceVec (passForces c o (initialState mol opt orb0)) k) ∧
      (∀ i, i < mol.nAtom →
        s1.mol.x i = mol.x i + s1.dR (i * 3 + 0) ∧
        s1.mol.y i = mol.y i + s1.dR (i * 3 + 1) ∧
        s1.mol.z i = mol.z i + s1.dR (i * 3 + 2)) := by
  obtain ⟨s1, hrun, hH, hI, _, _, hdR, hmol⟩ := iterationCore_first c o mol opt orb0 hE hpos
  exact ⟨s1, hrun, hH, hI, hdR, hmol⟩

/-- Witness for C14: the first pass of the example run, in which `F = (−8, 0, …)`
is clipped to `(−1, 0, …)`. -/
theorem optimize_first_iteration_witness :
    oracleEnergy exampleConstants harmonicOracles
        (initialState exampleMolecule (exampleOptions 5) ()) ≠ 0 ∧
    0 < exampleConstants.MAXSTEPSIZE ∧
    ∃ s1 : OptState ℚ Unit,
      iterationCore exampleConstants harmonicOracles
          (initialState exampleMolecule (exampleOptions 5) ()) = Run.done s1 ∧
      s1.invH = (initialState exampleMolecule (exampleOptions 5) () : OptState ℚ Unit).invH ∧
      IsIdentity (exampleMolecule.nAtom * 3) s1.invH ∧
      (∀ k, k < exampleMolecule.nAtom * 3 → s1.dR k =
        if norm2 harmonicOracles.sqrt (exampleMolecule.nAtom * 3)
            (forceVec (passForces exampleConstants harmonicOracles
              (initialState exampleMolecule (exampleOptions 5) ())))
            ≤ exampleConstants.MAXSTEPSIZE then
          forceVec (passForces exampleConstants harmonicOracles
            (initialState exampleMolecule (exampleOptions 5) ())) k
        else
          exampleConstants.MAXSTEPSIZE / norm2 harmonicOracles.sqrt (exampleMolecule.nAtom * 3)
              (forceVec (passForces exampleConstants harmonicOracles
                (initialState exampleMolecule (exampleOptions 5) ())))
            * forceVec (passForces exampleConstants harmonicOracles
                (initialState exampleMolecule (exampleOptions 5) ())) k) ∧
      (∀ i, i < exampleMolecule.nAtom →
        s1.mol.x i = exampleMolecule.x i + s1.dR (i * 3 + 0) ∧
        s1.mol.y i = exampleMolecule.y i + s1.dR (i * 3 + 1) ∧
        s1.mol.z i = exampleMolecule.z i + s1.dR (i * 3 + 2)) :=
  ⟨by decide!, by decide!,
    optimize_first_iteration exampleConstants harmonicOracles exampleMolecule
      (exampleOptions 5) () (by decide!) (by decide!)⟩

/-- What a run of `invHessian_BFGS` that returns has written. -/
theorem invHessian_BFGS_of_run (n : Nat) (dR dGrad H H' : Arr K)
    (hrun : invHessian_BFGS n dR dGrad H = Run.done H') :
    dot n dR dGrad ≠ 0 ∧
    (∀ p q, p < n → q < n → H' (p * n + q) = bfgsEntry n dR dGrad H p q) ∧
    (∀ p, p < n → matVec n H' dGrad p = dR p) := by
  have h : dot n dR dGrad ≠ 0 := by
    intro h0
    rw [invHessian_BFGS_zero n dR dGrad H h0] at hrun
    cases hrun
  obtain ⟨H2, hrun2, hin, _⟩ := invHessian_BFGS_done n dR dGrad H h
  rw [hrun] at hrun2
  cases hrun2
  refine ⟨h, hin, fun p hp => ?_⟩
  unfold matVec
  rw [← bfgsEntry_secant n dR dGrad H h p]
  exact sum_congr rfl (fun q hq => by rw [hin p q hp (mem_range.mp hq)])

/-- What a run of `stepVector_Newton` that returns has written. -/
theorem stepVector_Newton_of_run (sqrt : K → K) (n : Nat) (invH grad dR0 dR : Arr K)
    (maxStepSize : K)
    (hrun : stepVector_Newton sqrt n invH grad maxStepSize dR0 = Run.done dR) :
    0 < maxStepSize ∧
    ∀ k, dR k =
      if k < n then
        (if norm2 sqrt n (newtonStep n invH grad) > maxStepSize then
          newtonStep n invH grad k * maxStepSize / norm2 sqrt n (newtonStep n invH grad)
         else newtonStep n invH grad k)
      else dR0 k := by
  have hpos : 0 < maxStepSize := by
    by_contra hle
    obtain ⟨d, hx⟩ := stepVector_Newton_nonpos sqrt n invH grad dR0 maxStepSize (not_lt.mp hle)
    rw [hx] at hrun
    cases hrun
  obtain ⟨d, hd, hget⟩ := stepVector_Newton_done sqrt n invH grad dR0 maxStepSize hpos
  rw [hrun] at hd
  cases hd
  exact ⟨hpos, hget⟩

/-- The pass that leads from one loop head to the next. -/
theorem loopHead_core (c : Constants K) (o : Oracles K Orb) (mol : Molecule_t K)
    (opt : option_t) (orb0 : Orb) (k : Nat) (s0 s1 : OptState K Orb)
    (h0 : loopHead c o mol opt orb0 k = some s0)
    (h1 : loopHead c o mol opt orb0 (k + 1) = some s1) :
    iterationCore c o s0 = Run.done s1 ∧ loopAgain c s1.crit := by
  obtain ⟨s, hs, hit, hl⟩ := (loopHead_succ c o mol opt orb0 k s1).mp h1
  rw [h0] at hs
  cases hs
  exact ⟨((iteration_done c o s0 s1).mp hit).1, hl⟩

/-- C15 (driver secant wiring).  Let pass `k + 1` (counted from 0) of a run of
`optimize` start in state `s1`, after pass `k` that started in `s0`, and return
with state `s2`.  Then `s1.dR` is the clipped Newton step of pass `k` that was
applied to the molecule, `G` is the negated atom-major force vector in both
passes, `invHessian_BFGS` is called in pass `k + 1` with `dR = s1.dR` and
`dGrad = G_{k+1} − G_k`, the inverse Hessian it returns maps `G_{k+1} − G_k` to
`s1.dR`, and the step of pass `k + 1` is the clipped `−H·G_{k+1}` for that
inverse Hessian. -/
theorem optimize_secant_wiring (c : Constants K) (o : Oracles K Orb) (mol : Molecule_t K)
    (opt : option_t) (orb0 : Orb) (k : Nat) (s0 s1 s2 : OptState K Orb)
    (h0 : loopHead c o mol opt orb0 k = some s0)
    (h1 : loopHead c o mol opt orb0 (k + 1) = some s1)
    (h2 : iterationCore c o s1 = Run.done s2) :
    stepVector_Newton o.sqrt (mol.nAtom * 3) s1.invH s1.G c.MAXSTEPSIZE s0.dR
      = Run.done s1.dR ∧
    s1.mol = updateGeometry s1.dR s0.mol ∧
    (∀ j, j < mol.nAtom * 3 → s1.G j = -forceVec (passForces c o s0) j) ∧
    (∀ j, j < mol.nAtom * 3 → s2.G j = -forceVec (passForces c o s1) j) ∧
    (∀ j, j < mol.nAtom * 3 → s2.dG j = s2.G j - s1.G j) ∧
    invHessian_BFGS (mol.nAtom * 3) s1.dR s2.dG s1.invH = Run.done s2.invH ∧
    (∀ i, i < mol.nAtom * 3 →
      matVec (mol.nAtom * 3) s2.invH (fun j => s2.G j - s1.G j) i = s1.dR i) ∧
    (∀ j, j < mol.nAtom * 3 → s2.dR j =
      if norm2 o.sqrt (mol.nAtom * 3) (newtonStep (mol.nAtom * 3) s2.invH s2.G)
          > c.MAXSTEPSIZE then
        newtonStep (mol.nAtom * 3) s2.invH s2.G j * c.MAXSTEPSIZE
          / norm2 o.sqrt (mol.nAtom * 3) (newtonStep (mol.nAtom * 3) s2.invH s2.G)
      else newtonStep (mol.nAtom * 3) s2.invH s2.G j) ∧
    s2.mol = updateGeometry s2.dR s1.mol := by
  obtain ⟨hcore, _⟩ := loopHead_core c o mol opt orb0 k s0 s1 h0 h1
  obtain ⟨_, _, _, _, _, _, _, _, hd0, ha0⟩ := loopHead_inv c o mol opt orb0 k s0 h0
  obtain ⟨hn1, _, _, _, _, _, _, _, hd1, ha1⟩ := loopHead_inv c o mol opt orb0 (k + 1) s1 h1
  obtain ⟨_, _, _, hG1, _, hstep1, hmol1, _⟩ := iterationCore_content c o s0 s1 hcore
  obtain ⟨_, _, hdG2, hG2, hH2, hstep2, hmol2, _⟩ := iterationCore_content c o s1 s2 h2
  rw [hd0] at hstep1
  rw [hd1] at hstep2 hH2
  have hpos1 : s1.nIter > 0 := by rw [hn1]; exact Nat.succ_pos k
  rw [if_pos hpos1] at hH2
  have hG1' : ∀ j, j < mol.nAtom * 3 → s1.G j = -forceVec (passForces c o s0) j := by
    intro j hj
    rw [hG1]
    exact (passGradient_get c o s0 j (by rw [ha0]; exact hj)).2
  have hG2' : ∀ j, j < mol.nAtom * 3 → s2.G j = -forceVec (passForces c o s1) j := by
    intro j hj
    rw [hG2]
    exact (passGradient_get c o s1 j (by rw [ha1]; exact hj)).2
  have hdG2' : ∀ j, j < mol.nAtom * 3 → s2.dG j = s2.G j - s1.G j := by
    intro j hj
    rw [hdG2, hG2' j hj]
    exact (passGradient_get c o s1 j (by rw [ha1]; exact hj)).1
  obtain ⟨_, _, hsec⟩ := invHessian_BFGS_of_run (mol.nAtom * 3) s1.dR s2.dG s1.invH s2.invH hH2
  obtain ⟨_, hget⟩ := stepVector_Newton_of_run o.sqrt (mol.nAtom * 3) s2.invH s2.G s1.dR s2.dR
    c.MAXSTEPSIZE hstep2
  refine ⟨hstep1, hmol1, hG1', hG2', hdG2', hH2, fun i hi => ?_, fun j hj => ?_, hmol2⟩
  · rw [← hsec i hi]
    unfold matVec
    exact sum_congr rfl (fun j hj => by rw [hdG2' j (mem_range.mp hj)])
  · rw [hget j, if_pos hj]

/-- The second pass of the example run starts in `harmonicHead1`. -/
theorem harmonic_head1 :
    loopHead exampleConstants harmonicOracles exampleMolecule (exampleOptions 5) () (0 + 1)
      = some harmonicHead1 :=
  (loopHead_succ exampleConstants harmonicOracles exampleMolecule (exampleOptions 5) () 0
    harmonicHead1).mpr
    ⟨initialState exampleMolecule (exampleOptions 5) (), rfl,
      (iteration_done exampleConstants harmonicOracles
        (initialState exampleMolecule (exampleOptions 5) ()) harmonicHead1).mpr
        ⟨Run.done_of_error (iterationCore exampleConstants harmonicOracles
            (initialState exampleMolecule (exampleOptions 5) ())) (by decide!),
          by decide!⟩,
      by decide!⟩

/-- The second pass of the example run returns with `harmonicHead2`. -/
theorem harmonic_core2 :
    iterationCore exampleConstants harmonicOracles harmonicHead1 = Run.done harmonicHead2 :=
  Run.done_of_error (iterationCore exampleConstants harmonicOracles harmonicHead1)
    (by decide!)

/-- Witness for C15: the first two passes of the example run (`k = 0`); the
change of the gradient is `(−2, 0, …)` and the first step `(−1, 0, …)`. -/
theorem optimize_secant_wiring_witness :
    ∃ s0 s1 s2 : OptState ℚ Unit,
    loopHead exampleConstants harmonicOracles exampleMolecule (exampleOptions 5) () 0
      = some s0 ∧
    loopHead exampleConstants harmonicOracles exampleMolecule (exampleOptions 5) () (0 + 1)
      = some s1 ∧
    iterationCore exampleConstants harmonicOracles s1 = Run.done s2 ∧
    stepVector_Newton harmonicOracles.sqrt (exampleMolecule.nAtom * 3) s1.invH s1.G exampleConstants.MAXSTEPSIZE s0.dR
      = Run.done s1.dR ∧
    s1.mol = updateGeometry s1.dR s0.mol ∧
    (∀ j, j < exampleMolecule.nAtom * 3 → s1.G j = -forceVec (passForces exampleConstants harmonicOracles s0) j) ∧
    (∀ j, j < exampleMolecule.nAtom * 3 → s2.G j = -forceVec (passForces exampleConstants harmonicOracles s1) j) ∧
    (∀ j, j < exampleMolecule.nAtom * 3 → s2.dG j = s2.G j - s1.G j) ∧
    invHessian_BFGS (exampleMolecule.nAtom * 3) s1.dR s2.dG s1.invH = Run.done s2.invH ∧
    (∀ i, i < exampleMolecule.nAtom * 3 →
      matVec (exampleMolecule.nAtom * 3) s2.invH (fun j => s2.G j - s1.G j) i = s1.dR i) ∧
    (∀ j, j < exampleMolecule.nAtom * 3 → s2.dR j =
      if norm2 harmonicOracles.sqrt (exampleMolecule.nAtom * 3) (newtonStep (exampleMolecule.nAtom * 3) s2.invH s2.G)
          > exampleConstants.MAXSTEPSIZE then
        newtonStep (exampleMolecule.nAtom * 3) s2.invH s2.G j * exampleConstants.MAXSTEPSIZE
          / norm2 harmonicOracles.sqrt (exampleMolecule.nAtom * 3) (newtonStep (exampleMolecule.nAtom * 3) s2.invH s2.G)
      else newtonStep (exampleMolecule.nAtom * 3) s2.invH s2.G j) ∧
    s2.mol = updateGeometry s2.dR s1.mol :=
  ⟨initialState exampleMolecule (exampleOptions 5) (), harmonicHead1, harmonicHead2, rfl,
    harmonic_head1, harmonic_core2,
    optimize_secant_wiring exampleConstants harmonicOracles exampleMolecule (exampleOptions 5)
      () 0 (initialState exampleMolecule (exampleOptions 5) ()) harmonicHead1 harmonicHead2
      rfl harmonic_head1 harmonic_core2⟩

/-- Forces that agree on every atom give the same atom-major force vector. -/
theorem forceVec_congr (N : Nat) (f g : Arr K × Arr K × Arr K)
    (h : ∀ i, i < N → f.1 i = g.1 i ∧ f.2.1 i = g.2.1 i ∧ f.2.2 i = g.2.2 i)
    (k : Nat) (hk : k < N * 3) : forceVec f k = forceVec g k := by
  have hi : k / 3 < N := by omega
  obtain ⟨h1, h2, h3⟩ := h (k / 3) hi
  unfold forceVec
  rw [h1, h2, h3]

/-- A pass `k + 1` in which the energy oracle does not return 0 and the forces are
those of pass `k` ends the process with `DegenerateUpdate`: the change of the
gradient is the zero vector. -/
theorem optimize_same_forces (c : Constants K) (o : Oracles K Orb) (mol : Molecule_t K)
    (opt : option_t) (orb0 : Orb) (k : Nat) (s0 s1 : OptState K Orb)
    (h0 : loopHead c o mol opt orb0 k = some s0)
    (h1 : loopHead c o mol opt orb0 (k + 1) = some s1)
    (hE : oracleEnergy c o s1 ≠ 0)
    (hF : ∀ i, i < mol.nAtom →
      (passForces c o s1).1 i = (passForces c o s0).1 i ∧
      (passForces c o s1).2.1 i = (passForces c o s0).2.1 i ∧
      (passForces c o s1).2.2 i = (passForces c o s0).2.2 i) :
    ∃ s, optimize c o mol opt orb0 = some (Run.exit OptError.DegenerateUpdate s) ∧
      s.nIter = k + 1 ∧ s.uhfCalls = k + 2 ∧ s.steps = k + 1 ∧
      ∀ j, j < mol.nAtom * 3 → s.dG j = 0 := by
  obtain ⟨hcore, _⟩ := loopHead_core c o mol opt orb0 k s0 s1 h0 h1
  obtain ⟨_, _, _, _, _, _, _, _, _, ha0⟩ := loopHead_inv c o mol opt orb0 k s0 h0
  obtain ⟨hn1, hu1, ht1, _, _, _, _, _, hd1, ha1⟩ :=
    loopHead_inv c o mol opt orb0 (k + 1) s1 h1
  obtain ⟨_, _, _, hG1, _⟩ := iterationCore_content c o s0 s1 hcore
  have hdG : ∀ j, j < mol.nAtom * 3 → (passGradient c o s1).1 j = 0 := by
    intro j hj
    rw [(passGradient_get c o s1 j (by rw [ha1]; exact hj)).1, hG1,
      (passGradient_get c o s0 j (by rw [ha0]; exact hj)).2,
      forceVec_congr mol.nAtom _ _ hF j hj]
    ring
  have hα : dot s1.nDim s1.dR (passGradient c o s1).1 = 0 := by
    rw [hd1]
    unfold dot
    exact sum_eq_zero (fun j hj => by rw [hdG j (mem_range.mp hj), mul_zero])
  obtain ⟨s, hrun, hn, hu, ht, _, hdGs⟩ :=
    iterationCore_degenerate c o s1 hE (by rw [hn1]; exact Nat.succ_pos k) hα
  have hit : iteration c o s1 = Run.exit OptError.DegenerateUpdate s :=
    (iteration_exit c o s1 s OptError.DegenerateUpdate).mpr (Or.inl hrun)
  refine ⟨s, ?_, by rw [hn, hn1], by rw [hu, hu1], by rw [ht, ht1], fun j hj => ?_⟩
  · rw [optimize_from_head c o mol opt orb0 (k + 1) s1 h1, hit]
  · rw [hdGs]
    exact hdG j hj

/-- C16 (constant-force termination).  For a single atom, an energy oracle that
never returns 0, a force oracle that returns the same forces `F` whatever the
geometry, `MAXSTEPSIZE > 0` and `optMax ≥ 1`: the first pass returns with
`G = −F`, the clipped step and the four metrics computed from them; if the four
metrics are within their thresholds `optimize` returns after that pass, and
otherwise the process ends with `DegenerateUpdate` in the second pass, where the
change of the gradient is the zero vector.  For any molecule, a pass `k + 1` in
which the energy oracle does not return 0 and the forces are those of pass `k`
ends the process with `DegenerateUpdate`. -/
theorem optimize_constant_force (c : Constants K) (o : Oracles K Orb) (mol : Molecule_t K)
    (opt : option_t) (orb0 : Orb) :
    (∀ F : Arr K × Arr K × Arr K, mol.nAtom = 1 →
      (∀ m p b, (o.uhf m p b).1 ≠ 0) → (∀ m p b, o.uhf_force m p b = F) →
      0 < c.MAXSTEPSIZE → 1 ≤ opt.optMax →
      ∃ s1 : OptState K Orb,
        iterationCore c o (initialState mol opt orb0) = Run.done s1 ∧
        (∀ j, j < 3 → s1.G j = -forceVec F j) ∧
        (∀ j, j < 3 → s1.dR j =
          if norm2 o.sqrt 3 (forceVec F) ≤ c.MAXSTEPSIZE then forceVec F j
          else c.MAXSTEPSIZE / norm2 o.sqrt 3 (forceVec F) * forceVec F j) ∧
        s1.crit = convergenceCriteria o.sqrt 3 s1.G s1.dR ∧
        (¬ loopAgain c s1.crit →
          ∃ s, optimize c o mol opt orb0 = some (Run.done s) ∧
            s.nIter = 1 ∧ s.uhfCalls = 1 ∧ s.steps = 1) ∧
        (loopAgain c s1.crit →
          ∃ s, optimize c o mol opt orb0 = some (Run.exit OptError.DegenerateUpdate s) ∧
            s.nIter = 1 ∧ s.uhfCalls = 2 ∧ s.steps = 1 ∧ ∀ j, j < 3 → s.dG j = 0)) ∧
    (∀ (k : Nat) (s0 s1 : OptState K Orb),
      loopHead c o mol opt orb0 k = some s0 → loopHead c o mol opt orb0 (k + 1) = some s1 →
      oracleEnergy c o s1 ≠ 0 →
      (∀ i, i < mol.nAtom →
        (passForces c o s1).1 i = (passForces c o s0).1 i ∧
        (passForces c o s1).2.1 i = (passForces c o s0).2.1 i ∧
        (passForces c o s1).2.2 i = (passForces c o s0).2.2 i) →
      ∃ s, optimize c o mol opt orb0 = some (Run.exit OptError.DegenerateUpdate s) ∧
        s.nIter = k + 1 ∧ s.uhfCalls = k + 2 ∧ s.steps = k + 1 ∧
        ∀ j, j < mol.nAtom * 3 → s.dG j = 0) := by
  refine ⟨?_, fun k s0 s1 h0 h1 hE hF => optimize_same_forces c o mol opt orb0 k s0 s1 h0 h1 hE hF⟩
  intro F hatom hE hF hpos hmax
  have hEs : ∀ s : OptState K Orb, oracleEnergy c o s ≠ 0 := fun s => hE _ _ _
  have hFs : ∀ s : OptState K Orb, passForces c o s = F := fun s => hF _ _ _
  obtain ⟨s1, hrun, _, _, hG, hcrit, hdR, _⟩ :=
    iterationCore_first c o mol opt orb0 (hEs _) hpos
  rw [hFs, hatom] at hG hdR
  rw [hatom] at hcrit
  have hinv := initialState_inv c mol opt orb0
  have hle : 0 + 1 ≤ opt.optMax.toNat := by omega
  obtain ⟨hn1, hu1, ht1, _, hit, _⟩ :=
    iteration_of_core c o mol opt 0 (initialState mol opt orb0) s1 hinv hrun
  have hit1 := hit hle
  refine ⟨s1, hrun, hG, hdR, hcrit, fun hconv => ?_, fun hagain => ?_⟩
  · refine ⟨restoreGuess s1, ?_, hn1, hu1, ht1⟩
    rw [optimize_from_head c o mol opt orb0 0 (initialState mol opt orb0) rfl, hit1]
    simp only [if_neg hconv]
  · have h1 : loopHead c o mol opt orb0 (0 + 1) = some s1 :=
      (loopHead_succ c o mol opt orb0 0 s1).mpr ⟨_, rfl, hit1, hagain⟩
    obtain ⟨s, hs, hn, hu, ht, hdG⟩ := optimize_same_forces c o mol opt orb0 0
      (initialState mol opt orb0) s1 rfl h1 (hEs _) (fun i _ => by rw [hFs, hFs]; exact ⟨rfl, rfl, rfl⟩)
    rw [hatom] at hdG
    exact ⟨s, hs, hn, hu, ht, hdG⟩

/-- The budget test does not change the variables. -/
theorem iteration_state (c : Constants K) (o : Oracles K Orb) (s : OptState K Orb) :
    (iteration c o s).state = (iterationCore c o s).state := by
  unfold iteration
  cases h : iterationCore c o s with
  | exit e s1 => rfl
  | done s1 =>
    by_cases hb : (s1.nIter : Int) > s1.opt.optMax
    · simp only [if_pos hb]
      rfl
    · simp only [if_neg hb]

/-- The inverse Hessian at the end of a pass, whether the pass returns or ends the
process: it is the one the pass started with, or the one `invHessian_BFGS` wrote
from it. -/
theorem iterationCore_invH (c : Constants K) (o : Oracles K Orb) (s : OptState K Orb) :
    (iterationCore c o s).state.invH = s.invH ∨
    ∃ dG : Arr K,
      invHessian_BFGS s.nDim s.dR dG s.invH = Run.done (iterationCore c o s).state.invH := by
  by_cases hE : oracleEnergy c o s = 0
  · left
    obtain ⟨s1, hrun1, _⟩ := scfCalculation_cases c o s
    have hrun : scfCalculation c o s = Run.exit OptError.OracleNonConvergence
        { (preOracle c s) with
          Etot := (o.uhf (preOracle c s).mol (preOracle c s).opt (preOracle c s).orb).1
          orb := (o.uhf (preOracle c s).mol (preOracle c s).opt (preOracle c s).orb).2
          uhfCalls := (preOracle c s).uhfCalls + 1 } := by
      show (if oracleEnergy c o s = 0 then _ else _) = _
      rw [if_pos hE]
      rfl
    have hcore : iterationCore c o s = Run.exit OptError.OracleNonConvergence
        { (preOracle c s) with
          Etot := (o.uhf (preOracle c s).mol (preOracle c s).opt (preOracle c s).orb).1
          orb := (o.uhf (preOracle c s).mol (preOracle c s).opt (preOracle c s).orb).2
          uhfCalls := (preOracle c s).uhfCalls + 1 } := by
      unfold iterationCore
      rw [hrun]
      rfl
    rw [hcore]
    show (preOracle c s).invH = s.invH
    unfold preOracle
    by_cases h : s.nIter > 0
    · simp only [if_pos h]
    · simp only [if_neg h]
  · obtain ⟨s2, hrun, _, _, hH, hdR, hn, hd, _⟩ := iterationCore_stages c o s hE
    rw [hrun]
    have hstep : ∀ s3 : OptState K Orb,
        ((computeStep c o s3).andThen (fun s => Run.done (finishIteration o s))).state.invH
          = s3.invH := by
      intro s3
      unfold computeStep
      cases hb : stepVector_Newton o.sqrt s3.nDim s3.invH s3.G c.MAXSTEPSIZE s3.dR with
      | done dR => rfl
      | exit e dR => rfl
    unfold updateInvHessian
    by_cases h0 : s2.nIter > 0
    · simp only [if_pos h0]
      cases hb : invHessian_BFGS s2.nDim s2.dR s2.dG s2.invH with
      | done invH =>
        right
        refine ⟨s2.dG, ?_⟩
        rw [← hd, ← hdR, ← hH, hb]
        show Run.done invH = Run.done
          ((computeStep c o { s2 with invH := invH }).andThen
            (fun s => Run.done (finishIteration o s))).state.invH
        rw [hstep]
      | exit e invH =>
        left
        have hx := (invHessian_BFGS_exit s2.nDim s2.dR s2.dG s2.invH e invH hb).2.1
        show invH = s.invH
        rw [hx, hH]
    · simp only [if_neg h0]
      left
      show ((computeStep c o s2).andThen (fun s => Run.done (finishIteration o s))).state.invH
        = s.invH
      rw [hstep, hH]

/-- A pass keeps the inverse Hessian symmetric, whether it returns or ends the
process. -/
theorem iterationCore_symmetric (c : Constants K) (o : Oracles K Orb) (s : OptState K Orb)
    (hs : IsSymmetric s.nDim s.invH) :
    IsSymmetric s.nDim (iterationCore c o s).state.invH := by
  rcases iterationCore_invH c o s with h | ⟨dG, h⟩
  · rw [h]
    exact hs
  · exact invHessian_BFGS_keeps_symmetric s.nDim s.dR dG s.invH _ hs h

/-- The inverse Hessian is symmetric at every loop head. -/
theorem loopHead_symmetric (c : Constants K) (o : Oracles K Orb) (mol : Molecule_t K)
    (opt : option_t) (orb0 : Orb) (k : Nat) :
    ∀ s, loopHead c o mol opt orb0 k = some s → IsSymmetric (mol.nAtom * 3) s.invH := by
  induction k with
  | zero =>
    intro s h
    have hs : s = initialState mol opt orb0 := by
      have h' : some (initialState mol opt orb0) = some s := h
      cases h'
      rfl
    rw [hs]
    exact isSymmetric_identity _ _ (initialState_identity mol opt orb0)
  | succ k ih =>
    intro s1 h1
    obtain ⟨s0, h0, hit, _⟩ := (loopHead_succ c o mol opt orb0 k s1).mp h1
    obtain ⟨_, _, _, _, _, _, _, _, hd0, _⟩ := loopHead_inv c o mol opt orb0 k s0 h0
    have hcore := ((iteration_done c o s0 s1).mp hit).1
    have hsym := iterationCore_symmetric c o s0 (by rw [hd0]; exact ih s0 h0)
    rw [hcore, hd0] at hsym
    exact hsym

/-- C17 (symmetry).  For a symmetric `H` and `dR·dGrad ≠ 0`, `invHessian_BFGS`
returns and the matrix it has written is symmetric.  In a run of `optimize`,
which starts from the identity, the inverse Hessian is symmetric at the start of
every pass of the loop and at the end of it, whether the pass returns or ends the
process, and so it is when the run ends. -/
theorem optimize_invH_symmetric (c : Constants K) (o : Oracles K Orb) (mol : Molecule_t K)
    (opt : option_t) (orb0 : Orb) :
    (∀ (n : Nat) (dR dGrad H : Arr K), IsSymmetric n H → dot n dR dGrad ≠ 0 →
      ∃ H' : Arr K, invHessian_BFGS n dR dGrad H = Run.done H' ∧ IsSymmetric n H') ∧
    (∀ (k : Nat) (s : OptState K Orb), loopHead c o mol opt orb0 k = some s →
      IsSymmetric (mol.nAtom * 3) s.invH ∧
      IsSymmetric (mol.nAtom * 3) (iterationCore c o s).state.invH) ∧
    (∃ r, optimize c o mol opt orb0 = some r ∧ IsSymmetric (mol.nAtom * 3) r.state.invH) := by
  have hpass : ∀ (k : Nat) (s : OptState K Orb), loopHead c o mol opt orb0 k = some s →
      IsSymmetric (mol.nAtom * 3) s.invH ∧
      IsSymmetric (mol.nAtom * 3) (iterationCore c o s).state.invH := by
    intro k s h
    obtain ⟨_, _, _, _, _, _, _, _, hd, _⟩ := loopHead_inv c o mol opt orb0 k s h
    have hs := loopHead_symmetric c o mol opt orb0 k s h
    have hsym := iterationCore_symmetric c o s (by rw [hd]; exact hs)
    rw [hd] at hsym
    exact ⟨hs, hsym⟩
  refine ⟨fun n dR dGrad H hs h => ?_, hpass, ?_⟩
  · obtain ⟨H', hrun, _⟩ := invHessian_BFGS_done n dR dGrad H h
    exact ⟨H', hrun, invHessian_BFGS_keeps_symmetric n dR dGrad H H' hs hrun⟩
  · obtain ⟨k, s, hk, hout⟩ := optimize_outcome c o mol opt orb0
    have hsym := (hpass k s hk).2
    rw [← iteration_state] at hsym
    rcases hout with ⟨e, s', hit, hopt⟩ | ⟨s', hit, _, hopt⟩
    · refine ⟨_, hopt, ?_⟩
      rw [hit] at hsym
      exact hsym
    · refine ⟨_, hopt, ?_⟩
      rw [hit] at hsym
      exact hsym

/-- Witness for C16: one atom under the constant force `(3, 0, 4)`. -/
theorem optimize_constant_force_witness :
    singleAtom.nAtom = 1 ∧
    (∀ m p b, ((constantOracles (Arr.ofList [3], Arr.ofList [0], Arr.ofList [4])).uhf m p b).1
      ≠ 0) ∧
    (∀ m p b, (constantOracles (Arr.ofList [3], Arr.ofList [0], Arr.ofList [4])).uhf_force m p b
      = (Arr.ofList [3], Arr.ofList [0], Arr.ofList [4])) ∧
    0 < exampleConstants.MAXSTEPSIZE ∧ 1 ≤ (exampleOptions 5).optMax ∧
    ∃ s1 : OptState ℚ Unit,
      iterationCore exampleConstants
          (constantOracles (Arr.ofList [3], Arr.ofList [0], Arr.ofList [4]))
          (initialState singleAtom (exampleOptions 5) ()) = Run.done s1 ∧
      (∀ j, j < 3 → s1.G j = -forceVec (Arr.ofList [(3 : ℚ)], Arr.ofList [0], Arr.ofList [4]) j) ∧
      (∀ j, j < 3 → s1.dR j =
        if norm2 (constantOracles (Arr.ofList [3], Arr.ofList [0], Arr.ofList [4])).sqrt 3
            (forceVec (Arr.ofList [(3 : ℚ)], Arr.ofList [0], Arr.ofList [4]))
            ≤ exampleConstants.MAXSTEPSIZE then
          forceVec (Arr.ofList [(3 : ℚ)], Arr.ofList [0], Arr.ofList [4]) j
        else
          exampleConstants.MAXSTEPSIZE
            / norm2 (constantOracles (Arr.ofList [3], Arr.ofList [0], Arr.ofList [4])).sqrt 3
                (forceVec (Arr.ofList [(3 : ℚ)], Arr.ofList [0], Arr.ofList [4]))
            * forceVec (Arr.ofList [(3 : ℚ)], Arr.ofList [0], Arr.ofList [4]) j) ∧
      s1.crit = convergenceCriteria
        (constantOracles (Arr.ofList [3], Arr.ofList [0], Arr.ofList [4])).sqrt 3 s1.G s1.dR ∧
      (¬ loopAgain exampleConstants s1.crit →
        ∃ s, optimize exampleConstants
            (constantOracles (Arr.ofList [3], Arr.ofList [0], Arr.ofList [4]))
            singleAtom (exampleOptions 5) () = some (Run.done s) ∧
          s.nIter = 1 ∧ s.uhfCalls = 1 ∧ s.steps = 1) ∧
      (loopAgain exampleConstants s1.crit →
        ∃ s, optimize exampleConstants
            (constantOracles (Arr.ofList [3], Arr.ofList [0], Arr.ofList [4]))
            singleAtom (exampleOptions 5) ()
            = some (Run.exit OptError.DegenerateUpdate s) ∧
          s.nIter = 1 ∧ s.uhfCalls = 2 ∧ s.steps = 1 ∧ ∀ j, j < 3 → s.dG j = 0) :=
  ⟨rfl, fun _ _ _ => by simp [constantOracles], fun _ _ _ => rfl, by decide!, by decide!,
    (optimize_constant_force exampleConstants
      (constantOracles (Arr.ofList [3], Arr.ofList [0], Arr.ofList [4]))
      singleAtom (exampleOptions 5) ()).1 (Arr.ofList [3], Arr.ofList [0], Arr.ofList [4])
      rfl (fun _ _ _ => by simp [constantOracles]) (fun _ _ _ => rfl) (by decide!) (by decide!)⟩

theorem dot_comm (n : Nat) (u v : Nat → K) : dot n u v = dot n v u :=
  sum_congr rfl (fun _ _ => mul_comm _ _)

/-- The scalar product with the translation along axis `a` is the sum over the
atoms of the components on that axis. -/
theorem dot_axisVec (N : Nat) (v : Nat → K) (a : Nat) (ha : a < 3) :
    dot (N * 3) (axisVec a) v = ∑ i ∈ range N, v (i * 3 + a) := by
  unfold dot
  induction N with
  | zero => simp
  | succ m ih =>
    have h3 : (m + 1) * 3 = m * 3 + 1 + 1 + 1 := by ring
    rw [h3, sum_range_succ, sum_range_succ, sum_range_succ, ih, sum_range_succ]
    have e0 : (m * 3) % 3 = 0 := by omega
    have e1 : (m * 3 + 1) % 3 = 1 := by omega
    have e2 : (m * 3 + 1 + 1) % 3 = 2 := by omega
    unfold axisVec
    rw [e0, e1, e2]
    interval_cases a
    · simp
    · simp
    · simp [add_assoc]

/-- The sum over the atoms of one axis of the atom-major force vector. -/
theorem sum_forceVec (N : Nat) (f : Arr K × Arr K × Arr K) :
    ∑ i ∈ range N, forceVec f (i * 3 + 0) = ∑ i ∈ range N, f.1 i ∧
    ∑ i ∈ range N, forceVec f (i * 3 + 1) = ∑ i ∈ range N, f.2.1 i ∧
    ∑ i ∈ range N, forceVec f (i * 3 + 2) = ∑ i ∈ range N, f.2.2 i := by
  refine ⟨sum_congr rfl (fun i _ => ?_), sum_congr rfl (fun i _ => ?_),
    sum_congr rfl (fun i _ => ?_)⟩
  · have h1 : (i * 3 + 0) % 3 = 0 := by omega
    have h2 : (i * 3 + 0) / 3 = i := by omega
    simp [forceVec, h1, h2]
  · have h1 : (i * 3 + 1) % 3 = 1 := by omega
    have h2 : (i * 3 + 1) / 3 = i := by omega
    simp [forceVec, h1, h2]
  · have h1 : (i * 3 + 2) % 3 = 2 := by omega
    have h2 : (i * 3 + 2) / 3 = i := by omega
    simp [forceVec, h1, h2]

/-- Balanced forces are orthogonal to every rigid translation. -/
theorem dot_axisVec_forceVec (N : Nat) (f : Arr K × Arr K × Arr K) (hb : Balanced N f)
    (a : Nat) (ha : a < 3) : dot (N * 3) (axisVec a) (forceVec f) = 0 := by
  rw [dot_axisVec N _ a ha]
  obtain ⟨h0, h1, h2⟩ := sum_forceVec N f
  obtain ⟨b0, b1, b2⟩ := hb
  interval_cases a
  · rw [h0, b0]
  · rw [h1, b1]
  · rw [h2, b2]

/-- The update keeps a vector `t` fixed, `H'·t = t`, when `H·t = t` and `t` is
orthogonal to `dR` and to `dGrad`. -/
theorem bfgs_fixes_vector (n : Nat) (dR dGrad H H' t : Nat → K)
    (hin : ∀ p q, p < n → q < n → H' (p * n + q) = bfgsEntry n dR dGrad H p q)
    (hH : ∀ p, p < n → matVec n H t p = t p)
    (h1 : dot n dR t = 0) (h2 : dot n dGrad t = 0) (p : Nat) (hp : p < n) :
    matVec n H' t p = t p := by
  have hm : matVec n H' t p = ∑ q ∈ range n, bfgsEntry n dR dGrad H p q * t q :=
    sum_congr rfl (fun q hq => by rw [hin p q hp (mem_range.mp hq)])
  rw [hm, bfgsEntry_mulVec n dR dGrad H t p hp]
  have hy : (fun j => t j - dGrad j / dot n dR dGrad * dot n dR t) = t := by
    funext j
    rw [h1]
    ring
  rw [hy, hH p hp, dot_congr n dGrad (matVec n H t) dGrad t (fun _ _ => rfl) hH, h2, h1]
  ring

/-- The Newton step of a symmetric `H` with `H·t = t` is orthogonal to `t` when
the gradient is. -/
theorem newtonStep_orthogonal (n : Nat) (H g t : Nat → K) (hs : IsSymmetric n H)
    (hH : ∀ p, p < n → matVec n H t p = t p) (hg : dot n t g = 0) :
    dot n t (newtonStep n H g) = 0 := by
  have h1 : dot n t (newtonStep n H g) = -dot n (matVec n H t) g := by
    unfold dot newtonStep matVec
    rw [← sum_neg_distrib]
    have h2 : ∑ i ∈ range n, t i * -∑ j ∈ range n, H (i * n + j) * g j
        = -∑ i ∈ range n, ∑ j ∈ range n, H (j * n + i) * t i * g j := by
      rw [← sum_neg_distrib]
      refine sum_congr rfl (fun i hi => ?_)
      rw [mul_neg, mul_sum]
      congr 1
      refine sum_congr rfl (fun j hj => ?_)
      rw [hs i j (mem_range.mp hi) (mem_range.mp hj)]
      ring
    rw [h2, sum_comm, ← sum_neg_distrib]
    refine sum_congr rfl (fun j _ => ?_)
    rw [sum_mul]
  rw [h1, dot_congr n (matVec n H t) g t g hH (fun _ _ => rfl), hg, neg_zero]

/-- The step that `stepVector_Newton` returns is orthogonal to `t` when the
unclipped Newton step is. -/
theorem stepVector_Newton_orthogonal (sqrt : K → K) (n : Nat) (H g dR0 dR : Arr K)
    (maxStepSize : K) (t : Nat → K)
    (hrun : stepVector_Newton sqrt n H g maxStepSize dR0 = Run.done dR)
    (hu : dot n t (newtonStep n H g) = 0) : dot n t dR = 0 := by
  obtain ⟨_, hget⟩ := stepVector_Newton_of_run sqrt n H g dR0 dR maxStepSize hrun
  by_cases hgt : norm2 sqrt n (newtonStep n H g) > maxStepSize
  · have h2 : dot n t dR
        = maxStepSize / norm2 sqrt n (newtonStep n H g) * dot n t (newtonStep n H g) := by
      unfold dot
      rw [mul_sum]
      refine sum_congr rfl (fun i hi => ?_)
      rw [hget i, if_pos (mem_range.mp hi), if_pos hgt]
      ring
    rw [h2, hu, mul_zero]
  · have h2 : dot n t dR = dot n t (newtonStep n H g) :=
      dot_congr n _ _ _ _ (fun _ _ => rfl)
        (fun i hi => by rw [hget i, if_pos hi, if_neg hgt])
    rw [h2, hu]

/-- The function `deleteTranslation` keeps the size of the array. -/
theorem deleteTranslation_size (nDim : Nat) (dR dR' : Arr K)
    (h : deleteTranslation nDim dR = Run.done dR') : dR'.size = dR.size := by
  unfold deleteTranslation at h
  by_cases h0 : nDim % 3 ≠ 0
  · simp only [if_pos h0] at h
    cases h
  · simp only [if_neg h0] at h
    cases h
    apply forLoop_size
    intro i a
    rfl

/-- A step whose components sum to zero over the atoms on each axis is returned
unchanged by `deleteTranslation`. -/
theorem deleteTranslation_noop (N : Nat) (dR : Arr K)
    (h : ∀ a, a < 3 → ∑ i ∈ range N, dR (i * 3 + a) = 0) :
    deleteTranslation (N * 3) dR = Run.done dR := by
  have h3 : N * 3 % 3 = 0 := by omega
  have hN : N * 3 / 3 = N := by omega
  obtain ⟨dR', hrun, hget⟩ := deleteTranslation_done (N * 3) dR h3
  have heq : dR' = dR := by
    refine Arr.ext_get _ _ (deleteTranslation_size (N * 3) dR dR' hrun) (fun k => ?_)
    rw [hget k]
    by_cases hk : k < N * 3 / 3 * 3
    · rw [if_pos hk]
      have hmean : axisMean (N * 3 / 3) dR (k % 3) = 0 := by
        unfold axisMean
        rw [hN, h (k % 3) (Nat.mod_lt k (by norm_num)), zero_div]
      rw [hmean, sub_zero]
    · rw [if_neg hk]
  rw [hrun, heq]

/-- The identity fixes every vector. -/
theorem initialState_driftInv (mol : Molecule_t K) (opt : option_t) (orb0 : Orb) :
    DriftInv mol (initialState mol opt orb0 : OptState K Orb) := by
  have hI := initialState_identity (K := K) mol opt orb0
  refine ⟨isSymmetric_identity _ _ hI, fun a _ p hp => matVec_identity _ _ _ hI p hp,
    fun a _ => ?_, fun a _ => ?_, rfl, rfl, rfl⟩
  · unfold dot
    exact sum_eq_zero (fun i _ => mul_zero _)
  · unfold dot
    exact sum_eq_zero (fun i _ => mul_zero _)

/-- A pass with balanced forces that returns keeps the invariant, and its step has
zero sum over the atoms on each axis. -/
theorem driftInv_step (c : Constants K) (o : Oracles K Orb) (mol : Molecule_t K)
    (s s' : OptState K Orb) (hd : s.nDim = mol.nAtom * 3) (ha : s.mol.nAtom = mol.nAtom)
    (hinv : DriftInv mol s) (hrun : iterationCore c o s = Run.done s')
    (hbal : Balanced mol.nAtom (passForces c o s)) : DriftInv mol s' := by
  obtain ⟨hsym, hfix, hdR, hG, hx, hy, hz⟩ := hinv
  obtain ⟨_, _, hdG', hG', hH', hstep, hmol, _⟩ := iterationCore_content c o s s' hrun
  rw [hd] at hH' hstep
  have hGget : ∀ k, k < mol.nAtom * 3 → s'.G k = -forceVec (passForces c o s) k := by
    intro k hk
    rw [hG']
    exact (passGradient_get c o s k (by rw [ha]; exact hk)).2
  have hdGget : ∀ k, k < mol.nAtom * 3 → s'.dG k = s'.G k - s.G k := by
    intro k hk
    rw [hdG', hGget k hk]
    exact (passGradient_get c o s k (by rw [ha]; exact hk)).1
  have hG0 : ∀ a, a < 3 → dot (mol.nAtom * 3) (axisVec a) s'.G = 0 := by
    intro a ha3
    have h1 : dot (mol.nAtom * 3) (axisVec a) s'.G
        = -dot (mol.nAtom * 3) (axisVec a) (forceVec (passForces c o s)) := by
      unfold dot
      rw [← sum_neg_distrib]
      refine sum_congr rfl (fun k hk => ?_)
      rw [hGget k (mem_range.mp hk)]
      ring
    rw [h1, dot_axisVec_forceVec mol.nAtom _ hbal a ha3, neg_zero]
  have hdG0 : ∀ a, a < 3 → dot (mol.nAtom * 3) (axisVec a) s'.dG = 0 := by
    intro a ha3
    have h1 : dot (mol.nAtom * 3) (axisVec a) s'.dG
        = dot (mol.nAtom * 3) (axisVec a) s'.G - dot (mol.nAtom * 3) (axisVec a) s.G := by
      unfold dot
      rw [← sum_sub_distrib]
      refine sum_congr rfl (fun k hk => ?_)
      rw [hdGget k (mem_range.mp hk)]
      ring
    rw [h1, hG0 a ha3, hG a ha3, sub_zero]
  have hH2 : IsSymmetric (mol.nAtom * 3) s'.invH ∧
      ∀ a, a < 3 → ∀ p, p < mol.nAtom * 3 →
        matVec (mol.nAtom * 3) s'.invH (axisVec a) p = axisVec a p := by
    by_cases h0 : s.nIter > 0
    · rw [if_pos h0] at hH'
      obtain ⟨_, hin, _⟩ :=
        invHessian_BFGS_of_run (mol.nAtom * 3) s.dR s'.dG s.invH s'.invH hH'
      refine ⟨invHessian_BFGS_keeps_symmetric _ _ _ _ _ hsym hH', fun a ha3 p hp => ?_⟩
      refine bfgs_fixes_vector (mol.nAtom * 3) s.dR s'.dG s.invH s'.invH (axisVec a) hin
        (hfix a ha3) ?_ ?_ p hp
      · rw [dot_comm]
        exact hdR a ha3
      · rw [dot_comm]
        exact hdG0 a ha3
    · rw [if_neg h0] at hH'
      rw [hH']
      exact ⟨hsym, hfix⟩
  have hstep0 : ∀ a, a < 3 → dot (mol.nAtom * 3) (axisVec a) s'.dR = 0 := by
    intro a ha3
    exact stepVector_Newton_orthogonal o.sqrt (mol.nAtom * 3) s'.invH s'.G s.dR s'.dR
      c.MAXSTEPSIZE (axisVec a) hstep
      (newtonStep_orthogonal (mol.nAtom * 3) s'.invH s'.G (axisVec a) hH2.1 (hH2.2 a ha3)
        (hG0 a ha3))
  have hsum : ∀ a, a < 3 → ∑ i ∈ range mol.nAtom, s'.dR (i * 3 + a) = 0 := by
    intro a ha3
    rw [← dot_axisVec mol.nAtom s'.dR a ha3]
    exact hstep0 a ha3
  have hpos : ∀ i, i < mol.nAtom →
      s'.mol.x i = s.mol.x i + s'.dR (i * 3 + 0) ∧
      s'.mol.y i = s.mol.y i + s'.dR (i * 3 + 1) ∧
      s'.mol.z i = s.mol.z i + s'.dR (i * 3 + 2) := by
    intro i hi
    obtain ⟨gx, gy, gz⟩ := updateGeometry_get s'.dR s.mol i
    rw [ha, if_pos hi] at gx gy gz
    rw [hmol]
    exact ⟨gx, gy, gz⟩
  refine ⟨hH2.1, hH2.2, hstep0, hG0, ?_, ?_, ?_⟩
  · rw [← hx, ← add_zero (∑ i ∈ range mol.nAtom, s.mol.x i), ← hsum 0 (by decide),
      ← sum_add_distrib]
    exact sum_congr rfl (fun i hi => (hpos i (mem_range.mp hi)).1)
  · rw [← hy, ← add_zero (∑ i ∈ range mol.nAtom, s.mol.y i), ← hsum 1 (by decide),
      ← sum_add_distrib]
    exact sum_congr rfl (fun i hi => (hpos i (mem_range.mp hi)).2.1)
  · rw [← hz, ← add_zero (∑ i ∈ range mol.nAtom, s.mol.z i), ← hsum 2 (by decide),
      ← sum_add_distrib]
    exact sum_congr rfl (fun i hi => (hpos i (mem_range.mp hi)).2.2)

/-- With balanced forces in every pass, the invariant holds at every loop head. -/
theorem loopHead_driftInv (c : Constants K) (o : Oracles K Orb) (mol : Molecule_t K)
    (opt : option_t) (orb0 : Orb)
    (hbal : ∀ k s, loopHead c o mol opt orb0 k = some s → oracleEnergy c o s ≠ 0 →
      Balanced mol.nAtom (passForces c o s)) (k : Nat) :
    ∀ s, loopHead c o mol opt orb0 k = some s → DriftInv mol s := by
  induction k with
  | zero =>
    intro s h
    have hs : s = initialState mol opt orb0 := by
      have h' : some (initialState mol opt orb0) = some s := h
      cases h'
      rfl
    rw [hs]
    exact initialState_driftInv mol opt orb0
  | succ k ih =>
    intro s1 h1
    obtain ⟨s0, h0, hit, _⟩ := (loopHead_succ c o mol opt orb0 k s1).mp h1
    obtain ⟨_, _, _, _, _, _, _, _, hd0, ha0⟩ := loopHead_inv c o mol opt orb0 k s0 h0
    have hcore := ((iteration_done c o s0 s1).mp hit).1
    have hE := (iterationCore_content c o s0 s1 hcore).1
    exact driftInv_step c o mol s0 s1 hd0 ha0 (ih s0 h0) hcore (hbal k s0 h0 hE)

/-- C19 (no rigid-translation drift).  If the forces that the force oracle returns
sum to zero over the atoms on each axis in every pass of a run in which it is
called, then the step `dR` that any pass of the run applies to the molecule has
zero sum over the atoms on each axis, the centroid of the molecule is after the
pass what it was when `optimize` was called, and `deleteTranslation` applied to
the step returns it unchanged. -/
theorem optimize_no_translation_drift (c : Constants K) (o : Oracles K Orb)
    (mol : Molecule_t K) (opt : option_t) (orb0 : Orb)
    (hbal : ∀ k s, loopHead c o mol opt orb0 k = some s → oracleEnergy c o s ≠ 0 →
      Balanced mol.nAtom (passForces c o s)) :
    ∀ (k : Nat) (s s' : OptState K Orb), loopHead c o mol opt orb0 k = some s →
      iterationCore c o s = Run.done s' →
      s'.mol = updateGeometry s'.dR s.mol ∧
      (∀ a, a < 3 → ∑ i ∈ range mol.nAtom, s'.dR (i * 3 + a) = 0) ∧
      centroid s.mol = centroid mol ∧ centroid s'.mol = centroid mol ∧
      deleteTranslation (mol.nAtom * 3) s'.dR = Run.done s'.dR := by
  intro k s s' hk hrun
  obtain ⟨_, _, _, _, _, _, _, _, hd, ha⟩ := loopHead_inv c o mol opt orb0 k s hk
  have hinv := loopHead_driftInv c o mol opt orb0 hbal k s hk
  obtain ⟨hE, _, _, _, _, _, hmol, _⟩ := iterationCore_content c o s s' hrun
  have hinv' := driftInv_step c o mol s s' hd ha hinv hrun (hbal k s hk hE)
  have ha' : s'.mol.nAtom = mol.nAtom := by rw [hmol, updateGeometry_nAtom, ha]
  have hsum : ∀ a, a < 3 → ∑ i ∈ range mol.nAtom, s'.dR (i * 3 + a) = 0 := by
    intro a ha3
    rw [← dot_axisVec mol.nAtom s'.dR a ha3]
    exact hinv'.2.2.1 a ha3
  obtain ⟨_, _, _, _, hx, hy, hz⟩ := hinv
  obtain ⟨_, _, _, _, hx', hy', hz'⟩ := hinv'
  refine ⟨hmol, hsum, ?_, ?_, deleteTranslation_noop mol.nAtom s'.dR hsum⟩
  · unfold centroid
    rw [ha, hx, hy, hz]
  · unfold centroid
    rw [ha', hx', hy', hz']

/-- The example forces are balanced. -/
theorem balancedForces_balanced : Balanced 2 balancedForces := by
  unfold Balanced
  decide!

/-- The first pass of the run on two atoms under the example forces returns. -/
theorem balanced_first_pass :
    iterationCore exampleConstants (constantOracles balancedForces)
        (initialState twoAtoms (exampleOptions 5) ())
      = Run.done (iterationCore exampleConstants (constantOracles balancedForces)
          (initialState twoAtoms (exampleOptions 5) ())).state :=
  Run.done_of_error _ (by decide!)

/-- Witness for C19: two atoms under balanced forces that do not depend on the
geometry; the first pass of the run. -/
theorem optimize_no_translation_drift_witness :
    (∀ k s, loopHead exampleConstants (constantOracles balancedForces) twoAtoms
        (exampleOptions 5) () k = some s →
      oracleEnergy exampleConstants (constantOracles balancedForces) s ≠ 0 →
      Balanced twoAtoms.nAtom
        (passForces exampleConstants (constantOracles balancedForces) s)) ∧
    ∃ s' : OptState ℚ Unit,
      iterationCore exampleConstants (constantOracles balancedForces)
        (initialState twoAtoms (exampleOptions 5) ()) = Run.done s' ∧
      s'.mol = updateGeometry s'.dR
        (initialState twoAtoms (exampleOptions 5) () : OptState ℚ Unit).mol ∧
      (∀ a, a < 3 → ∑ i ∈ range twoAtoms.nAtom, s'.dR (i * 3 + a) = 0) ∧
      centroid (initialState twoAtoms (exampleOptions 5) () : OptState ℚ Unit).mol
        = centroid twoAtoms ∧
      centroid s'.mol = centroid twoAtoms ∧
      deleteTranslation (twoAtoms.nAtom * 3) s'.dR = Run.done s'.dR :=
  ⟨fun _ _ _ _ => balancedForces_balanced,
    _, balanced_first_pass,
    optimize_no_translation_drift exampleConstants (constantOracles balancedForces) twoAtoms
      (exampleOptions 5) () (fun _ _ _ _ => balancedForces_balanced) 0
      (initialState twoAtoms (exampleOptions 5) ()) _ rfl balanced_first_pass⟩

end Driver

end SiamQuantum
